import Mathlib

/-!
# darts-ac: an Aho-Corasick automaton over a double-array trie

A shallow embedding of `darts_ac/darts_ac.h` (class `DoubleArrayAhoCorasickImpl`):
the depth annotation and failure-link construction of `buildAhoCorasick`, and the
matching scan `find`.

Conventions of the embedding.

* Keys and texts are lists of bytes; a byte is a natural number (the source casts
  every `char` to `uchar_type`), and theorems that need it assume `c < 256`.
* Node ids are natural numbers.  Ids are `id_type` values combined with xor only,
  which cannot leave the 32-bit range, so ids carry no reduction.
* The depth cell is an `unsigned int`: stores into it are reduced modulo `2^32`.
  The match position is computed in `size_t`: it is reduced modulo `2^64`.
* The `while (true)` loops take a fuel argument and return `none` when it runs out.
* The source reads the array and the two tables through raw pointers, with no check.
  `unitAt` and `tableAt` give a read that finds no cell a zero cell; `find_checked` is
  `find` with every such read checked.  On a built object no read of `find` is invalid
  and the two agree (`find_checked_built`); what `find` does on an object that is not
  built is stated with `find_checked`.
-/

namespace DartsAC

/-- Modelled from the spec: the per-node cell of the Trie collaborator
(`Darts::Details::DoubleArrayUnit`, declared in `darts.h`), "exposing an offset used
to compute child addresses, an incoming-edge label, a leaf flag, and (if leaf) a
stored value". -/
structure DoubleArrayUnit where
  offset : Nat
  label : Nat
  has_leaf : Bool
  value : Nat
deriving DecidableEq, Repr

/-- The record `result_pair_type` written by `find`. -/
structure result_pair_type where
  value : Nat
  length : Nat
  position : Nat
deriving DecidableEq, Repr

/-- The automaton object: the array of the base class and the two owned tables;
`none` is the `NULL` pointer. -/
structure DoubleArrayAhoCorasick where
  array : List DoubleArrayUnit
  failure_ : Option (List Nat)
  depth_ : Option (List Nat)
deriving DecidableEq, Repr

/-- Read `array[id]`.  The source performs no bounds check; a read outside the array
yields a zero cell here. -/
def unitAt (array : List DoubleArrayUnit) (id : Nat) : DoubleArrayUnit :=
  array.getD id ⟨0, 0, false, 0⟩

/-- Read `table[id]` through a table pointer of the object.  The source performs no
check of the pointer or of the index; a read that finds no cell yields `0` here. -/
def tableAt (table : Option (List Nat)) (id : Nat) : Nat :=
  (table.getD []).getD id 0

/-- Modelled from the spec: the loop of the Trie collaborator's
`traverse(key, &nodePos, &keyPos, maxLength)` (declared in `darts.h`), replaying
`key[keyPos .. maxLength)` from `nodePos`.  The first argument counts the characters
still to be consumed.  The result is the returned value together with the final
`nodePos` and `keyPos`: the value is `-2` for the explicit "no such edge" outcome,
`-1` when the node reached is not a leaf, and the stored value otherwise. -/
def traverse_loop (array : List DoubleArrayUnit) (key : List Nat) :
    Nat → Nat → Nat → Int × Nat × Nat
  | 0, node_pos, key_pos =>
    let unit := unitAt array node_pos
    (if unit.has_leaf then ((unitAt array (node_pos ^^^ unit.offset)).value : Int) else -1,
      node_pos, key_pos)
  | n + 1, node_pos, key_pos =>
    let unit := unitAt array node_pos
    let id := node_pos ^^^ unit.offset ^^^ key.getD key_pos 0
    if (unitAt array id).label ≠ key.getD key_pos 0 then (-2, node_pos, key_pos)
    else traverse_loop array key n id (key_pos + 1)

/-- Modelled from the spec: `traverse(key, &nodePos, &keyPos, maxLength)` of the Trie
collaborator; every call of this repository passes a non-zero `maxLength`. -/
def traverse (array : List DoubleArrayUnit) (key : List Nat)
    (node_pos key_pos length : Nat) : Int × Nat × Nat :=
  traverse_loop array key (length - key_pos) node_pos key_pos

/-- The inner loop of the depth annotation in `buildAhoCorasick`
(`for (j = 0; j < lengths[i]; ++j)`); the first argument is `lengths[i] - j`.
`none` is the `return -1` of a traversal miss. -/
def depth_key (array : List DoubleArrayUnit) (key : List Nat) :
    Nat → Nat → Nat → List Nat → Option (List Nat)
  | 0, _, _, buf => some buf
  | n + 1, j, node_pos, buf =>
    let r := traverse array key node_pos j (j + 1)
    if r.1 = -2 then none
    else depth_key array key n (j + 1) r.2.1 (buf.set r.2.1 ((j + 1) % 2 ^ 32))

/-- The outer loop of the depth annotation in `buildAhoCorasick`
(`for (i = 0; i < num_keys; ++i)`). -/
def depth_keys (array : List DoubleArrayUnit) : List (List Nat) → List Nat → Option (List Nat)
  | [], buf => some buf
  | key :: rest, buf =>
    match depth_key array key key.length 0 0 buf with
    | none => none
    | some buf1 => depth_keys array rest buf1

/-- The `while (true)` loop of `findFailureLink`. -/
def findFailureLink_loop (array : List DoubleArrayUnit) (buf : List Nat) (key : List Nat)
    (key_pos : Nat) : Nat → Nat → Option Nat
  | 0, _ => none
  | fuel + 1, parent_node_pos =>
    let failure_node_pos := buf.getD parent_node_pos 0
    let r := traverse array (key.drop key_pos) failure_node_pos 0 1
    if r.1 ≠ -2 then some r.2.1
    else if failure_node_pos = 0 then some 0
    else findFailureLink_loop array buf key key_pos fuel failure_node_pos

/-- The method `findFailureLink(buf, parent_node_pos, key, key_pos)`. -/
def findFailureLink (fuel : Nat) (array : List DoubleArrayUnit) (buf : List Nat)
    (parent_node_pos : Nat) (key : List Nat) (key_pos : Nat) : Option Nat :=
  if parent_node_pos = 0 then some 0
  else findFailureLink_loop array buf key key_pos fuel parent_node_pos

/-- The maximum of `lengths`, as computed at the start of `buildFailureLinks`. -/
def max_length : List (List Nat) → Nat → Nat
  | [], m => m
  | key :: rest, m => max_length rest (if m < key.length then key.length else m)

/-- The loop over the keys inside one level `i` of `buildFailureLinks`.
Outer `none`: out of fuel.  `some none`: `delete[] buf; return -1`. -/
def failure_keys (fuel : Nat) (array : List DoubleArrayUnit) (i : Nat) :
    List (List Nat) → List Nat → Option (Option (List Nat))
  | [], buf => some (some buf)
  | key :: rest, buf =>
    if key.length ≤ i then failure_keys fuel array i rest buf
    else
      let p := if i ≠ 0 then traverse array key 0 0 i else (0, 0, 0)
      if i ≠ 0 ∧ p.1 = -2 then some none
      else
        let parent_node_pos := p.2.1
        let key_pos := p.2.2
        let r := traverse array key parent_node_pos key_pos (i + 1)
        if r.1 = -2 then some none
        else
          let node_pos := r.2.1
          if buf.getD node_pos 0 ≠ 0 then failure_keys fuel array i rest buf
          else
            match findFailureLink fuel array buf parent_node_pos key i with
            | none => none
            | some failure_node_pos =>
              failure_keys fuel array i rest (buf.set node_pos failure_node_pos)

/-- The loop over the levels of `buildFailureLinks` (`for (i = 0; i < max_length; ++i)`);
the first argument is `max_length - i`. -/
def failure_levels (fuel : Nat) (array : List DoubleArrayUnit) (keys : List (List Nat)) :
    Nat → Nat → List Nat → Option (Option (List Nat))
  | 0, _, buf => some (some buf)
  | n + 1, i, buf =>
    match failure_keys fuel array i keys buf with
    | none => none
    | some none => some none
    | some (some buf1) => failure_levels fuel array keys n (i + 1) buf1

/-- The method `buildFailureLinks`: the returned status and the object afterwards. -/
def buildFailureLinks (fuel : Nat) (self : DoubleArrayAhoCorasick) (keys : List (List Nat)) :
    Option (Int × DoubleArrayAhoCorasick) :=
  match failure_levels fuel self.array keys (max_length keys 0) 0
      (List.replicate self.array.length 0) with
  | none => none
  | some none => some (-1, self)
  | some (some buf) => some (0, { self with failure_ := some buf })

/-- The method `buildAhoCorasick`.  The build of the base class is the Trie
collaborator's: its outcome, the status `trie.1` and the array `trie.2` it leaves in the
object, is an argument. -/
def buildAhoCorasick (fuel : Nat) (trie : Int × List DoubleArrayUnit)
    (keys : List (List Nat)) (self : DoubleArrayAhoCorasick) :
    Option (Int × DoubleArrayAhoCorasick) :=
  let self1 : DoubleArrayAhoCorasick := { self with array := trie.2 }
  if trie.1 ≠ 0 then some (trie.1, self1)
  else
    match depth_keys self1.array keys (List.replicate self1.array.length 0) with
    | none => some (-1, self1)
    | some buf => buildFailureLinks fuel { self1 with depth_ := some buf } keys

/-- The method `clear`: the base class releases the array (modelled from the spec: the
Trie collaborator's own `clear` leaves it with no array), then each table that is
installed is released and its pointer reset to `NULL`. -/
def clear (self : DoubleArrayAhoCorasick) : DoubleArrayAhoCorasick :=
  let self1 : DoubleArrayAhoCorasick := { self with array := [] }
  let self2 : DoubleArrayAhoCorasick :=
    if self1.failure_ ≠ none then { self1 with failure_ := none } else self1
  if self2.depth_ ≠ none then { self2 with depth_ := none } else self2

/-- The goto/fallback loop of `find` for the text byte `c` (the first `while (true)`):
the node and its cached unit on leaving the loop. -/
def find_goto (self : DoubleArrayAhoCorasick) (c : Nat) :
    Nat → Nat → DoubleArrayUnit → Option (Nat × DoubleArrayUnit)
  | 0, _, _ => none
  | fuel + 1, node_pos, unit =>
    let next_node_pos := node_pos ^^^ unit.offset ^^^ c
    let next_unit := unitAt self.array next_node_pos
    if next_unit.label = c then some (next_node_pos, next_unit)
    else if node_pos = 0 then some (node_pos, unit)
    else
      find_goto self c fuel (tableAt self.failure_ node_pos)
        (unitAt self.array (tableAt self.failure_ node_pos))

/-- One emission of `find` for the leaf node `node_pos` whose unit is `unit`, at text
index `i`: `set_result` guarded by the capacity test, then `++num_results`.  The counter
is a `size_t` incremented by one per record, which cannot wrap in a run that ends. -/
def find_emit (self : DoubleArrayAhoCorasick) (max_num_results i node_pos : Nat)
    (unit : DoubleArrayUnit) (st : Nat × List result_pair_type) :
    Nat × List result_pair_type :=
  (st.1 + 1,
    if st.1 < max_num_results then
      st.2.set st.1
        { value := (unitAt self.array (node_pos ^^^ unit.offset)).value
          length := tableAt self.depth_ node_pos
          position := (i + 1 + 2 ^ 64 - tableAt self.depth_ node_pos) % 2 ^ 64 }
    else st.2)

/-- The output loop of `find` (`while (node_pos_for_output != 0)`). -/
def find_output (self : DoubleArrayAhoCorasick) (max_num_results i : Nat) :
    Nat → Nat → Nat × List result_pair_type → Option (Nat × List result_pair_type)
  | 0, _, _ => none
  | fuel + 1, node_pos_for_output, st =>
    if node_pos_for_output = 0 then some st
    else
      let unit_for_output := unitAt self.array node_pos_for_output
      find_output self max_num_results i fuel (tableAt self.failure_ node_pos_for_output)
        (if unit_for_output.has_leaf then
          find_emit self max_num_results i node_pos_for_output unit_for_output st
        else st)

/-- The main loop of `find` over the text bytes not yet read; `i` is the index of the
first of them. -/
def find_loop (fuel : Nat) (self : DoubleArrayAhoCorasick) (max_num_results : Nat) :
    List Nat → Nat → Nat → DoubleArrayUnit → Nat × List result_pair_type →
      Option (Nat × List result_pair_type)
  | [], _, _, _, st => some st
  | c :: rest, i, node_pos, unit, st =>
    match find_goto self c fuel node_pos unit with
    | none => none
    | some (node_pos1, unit1) =>
      match find_output self max_num_results i fuel (tableAt self.failure_ node_pos1)
          (if unit1.has_leaf then find_emit self max_num_results i node_pos1 unit1 st
            else st) with
      | none => none
      | some st1 => find_loop fuel self max_num_results rest (i + 1) node_pos1 unit1 st1

/-- The method `find(key, results, max_num_results, length)` on the text `key` of
`length = key.length` bytes: the returned count and the buffer afterwards. -/
def find (fuel : Nat) (self : DoubleArrayAhoCorasick) (key : List Nat)
    (results : List result_pair_type) (max_num_results : Nat) :
    Option (Nat × List result_pair_type) :=
  find_loop fuel self max_num_results key 0 0 (unitAt self.array 0) (0, results)

/-- The node id reached by replaying `P` from the root with `traverse`. -/
def nodeId (array : List DoubleArrayUnit) (P : List Nat) : Nat :=
  (traverse array P 0 0 P.length).2.1

/-- Replaying `P` from the root with `traverse` meets no "no such edge" outcome. -/
def Replays (array : List DoubleArrayUnit) (P : List Nat) : Prop :=
  (traverse array P 0 0 P.length).1 ≠ -2

instance (array : List DoubleArrayUnit) (P : List Nat) : Decidable (Replays array P) := by
  unfold Replays; infer_instance

/-- The strings that are a prefix of some key, the empty string (the root) included. -/
def prefixes (keys : List (List Nat)) : List (List Nat) :=
  [] :: keys.flatMap List.inits

/-- The Trie collaborator's contract: `array` is a double array that correctly
represents the key list `keys`.  Every prefix of a key is a node of its own, reached by
`traverse`; a node has an edge for a byte exactly when the extended string is again a
prefix of a key; the leaf flag marks the keys, and the value cell of a key holds its
index in the key list (the base class is built with no explicit values).  All cells
a scan can read lie inside the array, whose ids fit `id_type`. -/
structure Represents (array : List DoubleArrayUnit) (keys : List (List Nat)) : Prop where
  size_le : array.length ≤ 2 ^ 32
  key_bytes : ∀ k ∈ keys, ∀ c ∈ k, c < 256
  replay : ∀ P ∈ prefixes keys, Replays array P
  inj : ∀ P ∈ prefixes keys, ∀ Q ∈ prefixes keys, nodeId array P = nodeId array Q → P = Q
  edges : ∀ P ∈ prefixes keys, ∀ c, c < 256 →
    (unitAt array (nodeId array P ^^^ (unitAt array (nodeId array P)).offset ^^^ c)).label = c →
      P ++ [c] ∈ prefixes keys
  bounds : ∀ P ∈ prefixes keys, ∀ c, c < 256 →
    nodeId array P ^^^ (unitAt array (nodeId array P)).offset ^^^ c < array.length
  leaf : ∀ P ∈ prefixes keys, ((unitAt array (nodeId array P)).has_leaf = true ↔ P ∈ keys)
  value : ∀ k ∈ keys,
    (unitAt array (nodeId array k ^^^ (unitAt array (nodeId array k)).offset)).value
      = keys.indexOf k

instance (array : List DoubleArrayUnit) (keys : List (List Nat)) :
    Decidable (Represents array keys) :=
  decidable_of_iff
    ((array.length ≤ 2 ^ 32) ∧ (∀ k ∈ keys, ∀ c ∈ k, c < 256) ∧
      (∀ P ∈ prefixes keys, Replays array P) ∧
      (∀ P ∈ prefixes keys, ∀ Q ∈ prefixes keys, nodeId array P = nodeId array Q → P = Q) ∧
      (∀ P ∈ prefixes keys, ∀ c, c < 256 →
        (unitAt array (nodeId array P ^^^ (unitAt array (nodeId array P)).offset ^^^ c)).label = c →
          P ++ [c] ∈ prefixes keys) ∧
      (∀ P ∈ prefixes keys, ∀ c, c < 256 →
        nodeId array P ^^^ (unitAt array (nodeId array P)).offset ^^^ c < array.length) ∧
      (∀ P ∈ prefixes keys, ((unitAt array (nodeId array P)).has_leaf = true ↔ P ∈ keys)) ∧
      (∀ k ∈ keys,
        (unitAt array (nodeId array k ^^^ (unitAt array (nodeId array k)).offset)).value
          = keys.indexOf k))
    ⟨fun ⟨a, b, c, d, e, f, g, h⟩ => ⟨a, b, c, d, e, f, g, h⟩,
      fun ⟨a, b, c, d, e, f, g, h⟩ => ⟨a, b, c, d, e, f, g, h⟩⟩

/-- One edge of the double array: the child of node `n` under the byte `c`, if any. -/
def step (array : List DoubleArrayUnit) (n c : Nat) : Option Nat :=
  if (unitAt array (n ^^^ (unitAt array n).offset ^^^ c)).label = c then
    some (n ^^^ (unitAt array n).offset ^^^ c)
  else none

/-- The node reached from `n` along the edges spelling `P`, if all of them exist. -/
def walk (array : List DoubleArrayUnit) : Nat → List Nat → Option Nat
  | n, [] => some n
  | n, c :: P =>
    match step array n c with
    | none => none
    | some m => walk array m P


/-- `S` is the longest suffix of `X` that is a prefix of some key (the empty string
when no other suffix qualifies). -/
def Longest (keys : List (List Nat)) (X S : List Nat) : Prop :=
  S <:+ X ∧ S ∈ prefixes keys ∧
    ∀ S1, S1 <:+ X → S1 ∈ prefixes keys → S1.length ≤ S.length

/-- `S` is a suffix of `X` and a prefix of some key, and no longer suffix of `X` can be
extended by `c` to a prefix of some key: the state of a fallback loop for the byte `c`. -/
def Cand (keys : List (List Nat)) (X : List Nat) (c : Nat) (S : List Nat) : Prop :=
  S <:+ X ∧ S ∈ prefixes keys ∧
    ∀ S1, S1 <:+ X → S1 ++ [c] ∈ prefixes keys → S1.length ≤ S.length

/-- The longest suffix of `X` that is a prefix of some key, computed by trying the
suffixes of `X` from the longest to the shortest. -/
def longestSuffix (keys : List (List Nat)) (X : List Nat) : List Nat :=
  (X.tails.find? (fun S => decide (S ∈ prefixes keys))).getD []

/-- A table under construction: it has one cell per array cell, the cell of the node
of every string in `D` holds `val` of that string, and every other cell holds `0`. -/
def TableInv (array : List DoubleArrayUnit) (val : List Nat → Nat) (D : List Nat → Prop)
    (buf : List Nat) : Prop :=
  buf.length = array.length ∧
    (∀ P, D P → buf.getD (nodeId array P) 0 = val P) ∧
    (∀ id, (∀ P, D P → nodeId array P ≠ id) → buf.getD id 0 = 0)

/-- The node that the failure link of the node of `P` must name: the node of the longest
proper suffix of `P` that is a prefix of some key. -/
def failureOf (array : List DoubleArrayUnit) (keys : List (List Nat)) (P : List Nat) : Nat :=
  nodeId array (longestSuffix keys P.tail)

/-- The record of an occurrence of the key `k` that ends at byte offset `e` of the text. -/
def matchRecord (keys : List (List Nat)) (e : Nat) (k : List Nat) : result_pair_type :=
  { value := keys.indexOf k, length := k.length, position := e - k.length }

/-- The records of the keys that are a suffix of `X`, the longest key first: the
occurrences that end where `X` ends. -/
def matchesEndingAt (keys : List (List Nat)) (X : List Nat) : List result_pair_type :=
  (X.tails.filter (fun S => decide (S ∈ keys))).map (matchRecord keys X.length)

/-- The records of all occurrences of keys in `pre ++ rest` that end inside `rest`,
by increasing end offset. -/
def matchesFrom (keys : List (List Nat)) : List Nat → List Nat → List result_pair_type
  | _, [] => []
  | pre, c :: rest => matchesEndingAt keys (pre ++ [c]) ++ matchesFrom keys (pre ++ [c]) rest

/-- The records of all occurrences of keys in `text`, by increasing end offset and,
for one end offset, by decreasing length. -/
def allMatches (keys : List (List Nat)) (text : List Nat) : List result_pair_type :=
  matchesFrom keys [] text

/-- Emitting the records `rs` one after the other into the pair of counter and buffer
`st`, with the capacity test of `find`. -/
def emitAll (max_num_results : Nat) (st : Nat × List result_pair_type)
    (rs : List result_pair_type) : Nat × List result_pair_type :=
  rs.foldl (fun st r =>
    (st.1 + 1, if st.1 < max_num_results then st.2.set st.1 r else st.2)) st

/-- What a successful `buildAhoCorasick` over a trie for `keys` leaves in the object:
the array, a failure table that holds the failure node of every key prefix, and a depth
table that holds the length of every key prefix; all other cells of both tables are 0. -/
def Built (keys : List (List Nat)) (array : List DoubleArrayUnit)
    (self : DoubleArrayAhoCorasick) : Prop :=
  self.array = array ∧
    (∃ F, self.failure_ = some F ∧
      TableInv array (failureOf array keys) (fun P => P ∈ prefixes keys ∧ P ≠ []) F) ∧
    (∃ D, self.depth_ = some D ∧
      TableInv array List.length (fun P => P ∈ prefixes keys ∧ P ≠ []) D)

/-- The untruncated result sequence of `find` on `key`: a first call with capacity 0
returns the number of records, a second call with a buffer of exactly that capacity
receives all of them. -/
def find_results (fuel : Nat) (self : DoubleArrayAhoCorasick) (key : List Nat) :
    Option (List result_pair_type) :=
  match find fuel self key [] 0 with
  | none => none
  | some (n, _) =>
    match find fuel self key (List.replicate n ⟨0, 0, 0⟩) n with
    | none => none
    | some (_, results) => some results

/-- The key `k` occurs in `text` starting at byte offset `p`. -/
def OccursAt (k text : List Nat) (p : Nat) : Prop :=
  (text.drop p).take k.length = k

instance (k text : List Nat) (p : Nat) : Decidable (OccursAt k text p) := by
  unfold OccursAt; infer_instance

/-- The emission order of `find`: `a` ends before `b`, or both end at the same offset
and `a` is the longer one. -/
def EmitsBefore (a b : result_pair_type) : Prop :=
  a.position + a.length < b.position + b.length ∨
    (a.position + a.length = b.position + b.length ∧ b.length < a.length)

instance (a b : result_pair_type) : Decidable (EmitsBefore a b) := by
  unfold EmitsBefore; infer_instance

/-! ## Concrete tries of the test suite -/

/-- An array cell that belongs to no node: its label is no byte. -/
def unusedUnit : DoubleArrayUnit := ⟨0, 2 ^ 31, false, 0⟩

/-- A double array for the keys of the test `find_works_fine`. -/
def find_works_fine_array : List DoubleArrayUnit :=
  List.flatten
    [[⟨1, 0, false, 0⟩, ⟨8, 97, false, 0⟩, ⟨4, 100, true, 0⟩, ⟨4, 98, true, 0⟩, ⟨1, 98, true, 0⟩,
        ⟨0, 2 ^ 31, false, 4⟩, ⟨0, 2 ^ 31, false, 5⟩, ⟨0, 2 ^ 31, false, 0⟩],
      List.replicate 88 unusedUnit,
      [⟨1, 97, false, 0⟩],
      List.replicate 2 unusedUnit,
      [⟨3, 98, false, 0⟩],
      List.replicate 1 unusedUnit,
      [⟨3, 100, true, 0⟩, ⟨0, 2 ^ 31, false, 3⟩],
      List.replicate 1 unusedUnit,
      [⟨0, 2 ^ 31, false, 2⟩, ⟨0, 2 ^ 31, false, 1⟩, ⟨2, 99, true, 0⟩, ⟨2, 98, true, 0⟩],
      List.replicate 148 unusedUnit]

/-- The keys `ab`, `bab`, `bac`, `d`, `db`, `dd` of the test `find_works_fine`. -/
def find_works_fine_keys : List (List Nat) :=
  [[97, 98], [98, 97, 98], [98, 97, 99], [100], [100, 98], [100, 100]]

/-- A double array for the key of the test `find_single_char`. -/
def find_single_char_array : List DoubleArrayUnit :=
  List.flatten
    [[⟨1, 0, false, 0⟩],
      List.replicate 81 unusedUnit,
      [⟨1, 83, true, 0⟩, ⟨0, 2 ^ 31, false, 0⟩],
      List.replicate 172 unusedUnit]

/-- A double array for the keys of the test `find_test_k`. -/
def find_test_k_array : List DoubleArrayUnit :=
  List.flatten
    [[⟨1, 0, false, 0⟩],
      List.replicate 9 unusedUnit,
      [⟨1, 149, true, 0⟩, ⟨0, 2 ^ 31, false, 0⟩, ⟨1, 236, false, 0⟩],
      List.replicate 13 unusedUnit,
      [⟨1, 235, false, 0⟩],
      List.replicate 21 unusedUnit,
      [⟨1, 184, false, 0⟩],
      List.replicate 21 unusedUnit,
      [⟨1, 154, false, 0⟩],
      List.replicate 47 unusedUnit,
      [⟨1, 154, false, 0⟩],
      List.replicate 1 unusedUnit,
      [⟨1, 149, false, 0⟩, ⟨1, 149, false, 0⟩],
      List.replicate 15 unusedUnit,
      [⟨1, 132, false, 0⟩],
      List.replicate 20 unusedUnit,
      [⟨1, 133, false, 0⟩],
      List.replicate 51 unusedUnit,
      [⟨0, 2 ^ 31, false, 2⟩, ⟨1, 148, true, 0⟩],
      List.replicate 9 unusedUnit,
      [⟨1, 236, false, 0⟩],
      List.replicate 3 unusedUnit,
      [⟨1, 152, false, 0⟩, ⟨0, 2 ^ 31, false, 1⟩, ⟨1, 148, true, 0⟩],
      List.replicate 8 unusedUnit,
      [⟨1, 237, false, 0⟩, ⟨1, 236, false, 0⟩],
      List.replicate 2 unusedUnit,
      [⟨1, 136, false, 0⟩],
      List.replicate 15 unusedUnit]

/-- The keys of the test `find_test_k`, as UTF-8 bytes. -/
def find_test_k_keys : List (List Nat) :=
  [[236, 149, 136, 235, 133, 149], [236, 154, 148],
    [237, 149, 152, 236, 132, 184, 236, 154, 148]]

/-- A double array for the keys of the test `build_without_failure`. -/
def build_without_failure_array : List DoubleArrayUnit :=
  List.flatten
    [[⟨1, 0, false, 0⟩, ⟨3, 100, true, 0⟩, ⟨0, 2 ^ 31, false, 3⟩, ⟨4, 98, true, 0⟩],
      List.replicate 3 unusedUnit,
      [⟨0, 2 ^ 31, false, 1⟩],
      List.replicate 88 unusedUnit,
      [⟨1, 97, true, 0⟩, ⟨0, 2 ^ 31, false, 0⟩],
      List.replicate 2 unusedUnit,
      [⟨1, 99, true, 0⟩, ⟨0, 2 ^ 31, false, 2⟩, ⟨0, 2 ^ 31, false, 4⟩, ⟨1, 101, true, 0⟩],
      List.replicate 152 unusedUnit]

/-- The keys `a`, `ab`, `abc`, `abcd`, `abcde` of the test `build_without_failure`. -/
def build_without_failure_keys : List (List Nat) :=
  [[97], [97, 98], [97, 98, 99], [97, 98, 99, 100], [97, 98, 99, 100, 101]]

/-- A freshly constructed object: no array, both table pointers `NULL`. -/
def fresh : DoubleArrayAhoCorasick := { array := [], failure_ := none, depth_ := none }

/-- Evaluate the number `n` once and hand it to `f`. -/
def withNat {α : Type} (n : Nat) (f : Nat → α) : α :=
  match n with
  | 0 => f 0
  | k + 1 => f (k + 1)

/-- A check of `Represents array keys` against a table that lists every key prefix
with its node id: the ids are the ones `walk` reaches and are pairwise distinct, and for
every listed node the leaf flag, the value cell, the range of its child addresses and
the cells that claim to be its children are inspected in one pass over the array. -/
def representsBy (array : List DoubleArrayUnit) (keys : List (List Nat))
    (table : List (List Nat × Nat)) : Bool :=
  withNat array.length fun len =>
    decide (len ≤ 2 ^ 32) &&
    keys.all (fun k => k.all (fun c => decide (c < 256))) &&
    (prefixes keys).all (fun P => decide (P ∈ table.map Prod.fst)) &&
    decide ((table.map Prod.snd).Nodup) &&
    table.all (fun e =>
      decide (e.1 ∈ prefixes keys) && decide (walk array 0 e.1 = some e.2) &&
      decide ((unitAt array e.2).has_leaf = true ↔ e.1 ∈ keys) &&
      withNat (unitAt array e.2).offset fun off =>
        (List.range 256).all (fun c => decide (e.2 ^^^ off ^^^ c < len)) &&
        array.enum.all (fun mu =>
          !(decide (mu.2.label < 256) && decide (mu.1 = e.2 ^^^ off ^^^ mu.2.label)) ||
            decide (e.1 ++ [mu.2.label] ∈ prefixes keys)) &&
        (!decide (e.1 ∈ keys) ||
          decide ((unitAt array (e.2 ^^^ off)).value = keys.indexOf e.1)))

/-- The nodes of `find_works_fine_array`. -/
def find_works_fine_nodes : List (List Nat × Nat) :=
  [([], 0), ([97], 96), ([98], 99), ([100], 101), ([97, 98], 3), ([98, 97], 1),
    ([100, 98], 4), ([100, 100], 2), ([98, 97, 98], 107), ([98, 97, 99], 106)]

/-- The nodes of `find_single_char_array`. -/
def find_single_char_nodes : List (List Nat × Nat) :=
  [([], 0), ([83], 82)]

/-- The nodes of `find_test_k_array`. -/
def find_test_k_nodes : List (List Nat × Nat) :=
  [([], 0), ([236], 237), ([237], 236), ([236, 149], 121), ([236, 154], 118),
    ([237, 149], 120), ([236, 149, 136], 240), ([236, 154, 148], 227),
    ([237, 149, 152], 225), ([236, 149, 136, 235], 26), ([237, 149, 152, 236], 12),
    ([236, 149, 136, 235, 133], 158), ([237, 149, 152, 236, 132], 137),
    ([236, 149, 136, 235, 133, 149], 10), ([237, 149, 152, 236, 132, 184], 48),
    ([237, 149, 152, 236, 132, 184, 236], 221),
    ([237, 149, 152, 236, 132, 184, 236, 154], 70),
    ([237, 149, 152, 236, 132, 184, 236, 154, 148], 211)]

/-- The nodes of `build_without_failure_array`. -/
def build_without_failure_nodes : List (List Nat × Nat) :=
  [([], 0), ([97], 96), ([97, 98], 3), ([97, 98, 99], 100), ([97, 98, 99, 100], 1),
    ([97, 98, 99, 100, 101], 103)]

/-- The node and cached unit of `find` after the goto/fallback loop has run for every
byte of `text`, started at `node_pos` with `unit`: the scan of `find_loop` without its
emissions. -/
def find_scan (fuel : Nat) (self : DoubleArrayAhoCorasick) :
    List Nat → Nat → DoubleArrayUnit → Option (Nat × DoubleArrayUnit)
  | [], node_pos, unit => some (node_pos, unit)
  | c :: rest, node_pos, unit =>
    match find_goto self c fuel node_pos unit with
    | none => none
    | some (node_pos1, unit1) => find_scan fuel self rest node_pos1 unit1

/-! ## `find` with every read checked

The source reads `array()[..]`, `failure_[..]` and `depth_[..]` through raw pointers,
with no test of a pointer or of an index.  The definitions below are `find` once more,
statement by statement, with each of these reads checked against the storage the
object owns, so that a read of a cell the object does not have is visible as the way
the call ends. -/

/-- The three storage areas that `find` reads through a raw pointer of the object:
`array()`, `failure_` and `depth_`. -/
inductive Storage where
  | array
  | failure_
  | depth_
deriving DecidableEq, Repr

/-- How a call ends when every read is checked.  `returned a`: the call returns `a` to
its caller.  `invalid_read s id`: the call reads cell `id` of the storage `s`, which the
object does not have, because the pointer is `NULL` or `id` lies beyond the end; the
source performs this read all the same, and its behaviour from there on is undefined.
`out_of_fuel`: a `while (true)` loop used up the fuel. -/
inductive Outcome (α : Type) where
  | returned (a : α)
  | invalid_read (s : Storage) (id : Nat)
  | out_of_fuel
deriving DecidableEq, Repr

/-- The cell `array[id]`, if the object has it.  An object without an array (never
built, or cleared: the pointer is `NULL`) has the empty list and so no cell at all. -/
def unitRead (array : List DoubleArrayUnit) (id : Nat) : Option DoubleArrayUnit :=
  array[id]?

/-- The cell `table[id]` of a table of the object, if the object has it: none through a
`NULL` pointer, and none beyond the end of an installed table. -/
def tableRead (table : Option (List Nat)) (id : Nat) : Option Nat :=
  match table with
  | none => none
  | some buf => buf[id]?

/-- The goto/fallback loop of `find` for the text byte `c`, reads checked: the read of
`array[next_node_pos]`, and on the fallback path the reads of `failure_[node_pos]` and
of `array[node_pos]` at the new node. -/
def find_goto_checked (self : DoubleArrayAhoCorasick) (c : Nat) :
    Nat → Nat → DoubleArrayUnit → Outcome (Nat × DoubleArrayUnit)
  | 0, _, _ => Outcome.out_of_fuel
  | fuel + 1, node_pos, unit =>
    let next_node_pos := node_pos ^^^ unit.offset ^^^ c
    match unitRead self.array next_node_pos with
    | none => Outcome.invalid_read Storage.array next_node_pos
    | some next_unit =>
      if next_unit.label = c then Outcome.returned (next_node_pos, next_unit)
      else if node_pos = 0 then Outcome.returned (node_pos, unit)
      else
        match tableRead self.failure_ node_pos with
        | none => Outcome.invalid_read Storage.failure_ node_pos
        | some node_pos1 =>
          match unitRead self.array node_pos1 with
          | none => Outcome.invalid_read Storage.array node_pos1
          | some unit1 => find_goto_checked self c fuel node_pos1 unit1

/-- One emission of `find`, reads checked.  The reads of `array[node_pos ^ offset]` and
of `depth_[node_pos]` are the arguments of `set_result`, made only when the capacity
test passes; they are taken here in the order in which the source writes them. -/
def find_emit_checked (self : DoubleArrayAhoCorasick) (max_num_results i node_pos : Nat)
    (unit : DoubleArrayUnit) (st : Nat × List result_pair_type) :
    Outcome (Nat × List result_pair_type) :=
  if st.1 < max_num_results then
    match unitRead self.array (node_pos ^^^ unit.offset) with
    | none => Outcome.invalid_read Storage.array (node_pos ^^^ unit.offset)
    | some value_unit =>
      match tableRead self.depth_ node_pos with
      | none => Outcome.invalid_read Storage.depth_ node_pos
      | some depth =>
        Outcome.returned (st.1 + 1,
          st.2.set st.1
            { value := value_unit.value
              length := depth
              position := (i + 1 + 2 ^ 64 - depth) % 2 ^ 64 })
  else Outcome.returned (st.1 + 1, st.2)

/-- The output loop of `find`, reads checked: `array[node_pos_for_output]`, the emission
if the node is a leaf, then `failure_[node_pos_for_output]`. -/
def find_output_checked (self : DoubleArrayAhoCorasick) (max_num_results i : Nat) :
    Nat → Nat → Nat × List result_pair_type → Outcome (Nat × List result_pair_type)
  | 0, _, _ => Outcome.out_of_fuel
  | fuel + 1, node_pos_for_output, st =>
    if node_pos_for_output = 0 then Outcome.returned st
    else
      match unitRead self.array node_pos_for_output with
      | none => Outcome.invalid_read Storage.array node_pos_for_output
      | some unit_for_output =>
        match (if unit_for_output.has_leaf then
            find_emit_checked self max_num_results i node_pos_for_output unit_for_output st
          else Outcome.returned st) with
        | Outcome.invalid_read s id => Outcome.invalid_read s id
        | Outcome.out_of_fuel => Outcome.out_of_fuel
        | Outcome.returned st1 =>
          match tableRead self.failure_ node_pos_for_output with
          | none => Outcome.invalid_read Storage.failure_ node_pos_for_output
          | some next => find_output_checked self max_num_results i fuel next st1

/-- The main loop of `find`, reads checked: per text byte the goto/fallback loop, the
emission at the node reached if it is a leaf, the read of `failure_[node_pos]` that
starts the output loop, and the output loop. -/
def find_loop_checked (fuel : Nat) (self : DoubleArrayAhoCorasick) (max_num_results : Nat) :
    List Nat → Nat → Nat → DoubleArrayUnit → Nat × List result_pair_type →
      Outcome (Nat × List result_pair_type)
  | [], _, _, _, st => Outcome.returned st
  | c :: rest, i, node_pos, unit, st =>
    match find_goto_checked self c fuel node_pos unit with
    | Outcome.invalid_read s id => Outcome.invalid_read s id
    | Outcome.out_of_fuel => Outcome.out_of_fuel
    | Outcome.returned (node_pos1, unit1) =>
      match (if unit1.has_leaf then
          find_emit_checked self max_num_results i node_pos1 unit1 st
        else Outcome.returned st) with
      | Outcome.invalid_read s id => Outcome.invalid_read s id
      | Outcome.out_of_fuel => Outcome.out_of_fuel
      | Outcome.returned st1 =>
        match tableRead self.failure_ node_pos1 with
        | none => Outcome.invalid_read Storage.failure_ node_pos1
        | some node_pos_for_output =>
          match find_output_checked self max_num_results i fuel node_pos_for_output st1 with
          | Outcome.invalid_read s id => Outcome.invalid_read s id
          | Outcome.out_of_fuel => Outcome.out_of_fuel
          | Outcome.returned st2 =>
            find_loop_checked fuel self max_num_results rest (i + 1) node_pos1 unit1 st2

/-- The method `find` with every read checked.  Its first statement after the two
counters, `unit = array[node_pos]` with `node_pos = 0`, comes before the loop and is
reached for every text. -/
def find_checked (fuel : Nat) (self : DoubleArrayAhoCorasick) (key : List Nat)
    (results : List result_pair_type) (max_num_results : Nat) :
    Outcome (Nat × List result_pair_type) :=
  match unitRead self.array 0 with
  | none => Outcome.invalid_read Storage.array 0
  | some unit => find_loop_checked fuel self max_num_results key 0 0 unit (0, results)

/-- A set `Good` of nodes at which every read of `find` is of a cell the object has, and
which `find` does not leave: the root is in it, the goto step and the failure link lead
from a node of it to a node of it. -/
structure ReadsClosed (obj : DoubleArrayAhoCorasick) (Good : Nat → Prop) : Prop where
  root : Good 0
  node_read : ∀ n, Good n → n < obj.array.length
  goto_read : ∀ n, Good n → ∀ c, c < 256 →
    n ^^^ (unitAt obj.array n).offset ^^^ c < obj.array.length
  goto_good : ∀ n, Good n → ∀ c, c < 256 →
    (unitAt obj.array (n ^^^ (unitAt obj.array n).offset ^^^ c)).label = c →
      Good (n ^^^ (unitAt obj.array n).offset ^^^ c)
  failure_read : ∀ n, Good n → ∃ f, tableRead obj.failure_ n = some f ∧ Good f
  depth_read : ∀ n, Good n → ∃ d, tableRead obj.depth_ n = some d

/-! ## The trie: `traverse`, edges and nodes -/

theorem walk_append (array : List DoubleArrayUnit) (n : Nat) (P Q : List Nat) :
    walk array n (P ++ Q) = (walk array n P).bind (fun m => walk array m Q) := by
  induction P generalizing n with
  | nil => simp [walk]
  | cons c P ih =>
    simp only [List.cons_append, walk]
    cases step array n c with
    | none => simp
    | some m => simpa using ih m

theorem traverse_loop_walk (array : List DoubleArrayUnit) (key : List Nat) :
    ∀ (k n kp : Nat), kp + k ≤ key.length →
      (walk array n ((key.drop kp).take k) = none →
        (traverse_loop array key k n kp).1 = -2) ∧
      (∀ m, walk array n ((key.drop kp).take k) = some m →
        (traverse_loop array key k n kp).1 ≠ -2 ∧
        (traverse_loop array key k n kp).2.1 = m ∧
        (traverse_loop array key k n kp).2.2 = kp + k) := by
  intro k
  induction k with
  | zero =>
    intro n kp _
    refine ⟨by simp [walk], ?_⟩
    intro m hm
    simp only [List.take_zero, walk, Option.some.injEq] at hm
    subst hm
    refine ⟨?_, rfl, rfl⟩
    simp only [traverse_loop]
    split
    · intro h; omega
    · decide
  | succ k ih =>
    intro n kp hk
    have hlt : kp < key.length := by omega
    have hd : (key.drop kp).take (k + 1) = key.getD kp 0 :: (key.drop (kp + 1)).take k := by
      rw [List.drop_eq_getElem_cons hlt, List.take_succ_cons, List.getD_eq_getElem _ _ hlt]
    rw [hd]
    have ih1 := ih (n ^^^ (unitAt array n).offset ^^^ key.getD kp 0) (kp + 1) (by omega)
    by_cases hl : (unitAt array (n ^^^ (unitAt array n).offset ^^^ key.getD kp 0)).label
        = key.getD kp 0
    · have hs : step array n (key.getD kp 0)
          = some (n ^^^ (unitAt array n).offset ^^^ key.getD kp 0) := by
        simp only [step, hl, if_true]
      have ht : traverse_loop array key (k + 1) n kp
          = traverse_loop array key k (n ^^^ (unitAt array n).offset ^^^ key.getD kp 0)
              (kp + 1) := by
        simp only [traverse_loop, hl, ne_eq, not_true_eq_false, if_false]
      simp only [walk, hs, ht]
      refine ⟨ih1.1, ?_⟩
      intro m hm
      have := ih1.2 m hm
      refine ⟨this.1, this.2.1, ?_⟩
      rw [this.2.2]; omega
    · have hs : step array n (key.getD kp 0) = none := by
        simp only [step, hl, if_false]
      have ht : traverse_loop array key (k + 1) n kp = (-2, n, kp) := by
        simp only [traverse_loop, hl, ne_eq, not_false_eq_true, if_true]
      simp only [walk, hs, ht]
      simp

theorem traverse_miss (array : List DoubleArrayUnit) (key : List Nat) (n kp len : Nat)
    (hle : kp ≤ len) (hlen : len ≤ key.length)
    (h : walk array n ((key.drop kp).take (len - kp)) = none) :
    (traverse array key n kp len).1 = -2 :=
  (traverse_loop_walk array key (len - kp) n kp (by omega)).1 h

theorem traverse_hit (array : List DoubleArrayUnit) (key : List Nat) (n kp len m : Nat)
    (hle : kp ≤ len) (hlen : len ≤ key.length)
    (h : walk array n ((key.drop kp).take (len - kp)) = some m) :
    (traverse array key n kp len).1 ≠ -2 ∧ (traverse array key n kp len).2.1 = m ∧
      (traverse array key n kp len).2.2 = len := by
  have := (traverse_loop_walk array key (len - kp) n kp (by omega)).2 m h
  refine ⟨this.1, this.2.1, ?_⟩
  show (traverse_loop array key (len - kp) n kp).2.2 = len
  rw [this.2.2]; omega

theorem replays_iff_walk (array : List DoubleArrayUnit) (P : List Nat) :
    Replays array P ↔ ∃ m, walk array 0 P = some m := by
  unfold Replays
  cases h : walk array 0 P with
  | none =>
    have := traverse_miss array P 0 0 P.length (Nat.zero_le _) le_rfl (by simpa using h)
    simp [this]
  | some m =>
    have := traverse_hit array P 0 0 P.length m (Nat.zero_le _) le_rfl (by simpa using h)
    simp [this.1]

theorem walk_nodeId (array : List DoubleArrayUnit) (P : List Nat) (m : Nat)
    (h : walk array 0 P = some m) : nodeId array P = m :=
  (traverse_hit array P 0 0 P.length m (Nat.zero_le _) le_rfl (by simpa using h)).2.1

theorem replays_walk (array : List DoubleArrayUnit) (P : List Nat) (h : Replays array P) :
    walk array 0 P = some (nodeId array P) := by
  obtain ⟨m, hm⟩ := (replays_iff_walk array P).1 h
  rw [hm, walk_nodeId array P m hm]

theorem nodeId_nil (array : List DoubleArrayUnit) : nodeId array [] = 0 :=
  walk_nodeId array [] 0 rfl

theorem mem_prefixes (keys : List (List Nat)) (P : List Nat) :
    P ∈ prefixes keys ↔ P = [] ∨ ∃ k ∈ keys, P <+: k := by
  simp [prefixes, List.mem_flatMap]

theorem nil_mem_prefixes (keys : List (List Nat)) : [] ∈ prefixes keys := by
  simp [prefixes]

theorem key_mem_prefixes (keys : List (List Nat)) (k : List Nat) (h : k ∈ keys) :
    k ∈ prefixes keys :=
  (mem_prefixes keys k).2 (Or.inr ⟨k, h, List.prefix_refl k⟩)

theorem prefixes_closed (keys : List (List Nat)) (P Q : List Nat)
    (h : P ++ Q ∈ prefixes keys) : P ∈ prefixes keys := by
  rcases (mem_prefixes keys _).1 h with h0 | ⟨k, hk, hp⟩
  · have : P = [] := (List.append_eq_nil.1 h0).1
    subst this; exact nil_mem_prefixes keys
  · exact (mem_prefixes keys P).2 (Or.inr ⟨k, hk, (List.prefix_append P Q).trans hp⟩)


theorem rep_walk {array : List DoubleArrayUnit} {keys : List (List Nat)}
    (h : Represents array keys) {P : List Nat} (hP : P ∈ prefixes keys) :
    walk array 0 P = some (nodeId array P) :=
  replays_walk array P (h.replay P hP)

theorem rep_step {array : List DoubleArrayUnit} {keys : List (List Nat)}
    (h : Represents array keys) {P : List Nat} {c : Nat} (hP : P ++ [c] ∈ prefixes keys) :
    step array (nodeId array P) c = some (nodeId array (P ++ [c])) := by
  have h1 := rep_walk h hP
  have h0 := rep_walk h (prefixes_closed keys P [c] hP)
  rw [walk_append, h0] at h1
  simp only [Option.some_bind, walk] at h1
  cases hs : step array (nodeId array P) c with
  | none => rw [hs] at h1; cases h1
  | some m => rw [hs] at h1; exact h1

theorem rep_step_none {array : List DoubleArrayUnit} {keys : List (List Nat)}
    (h : Represents array keys) {P : List Nat} {c : Nat} (hP : P ∈ prefixes keys)
    (hc : c < 256) (hn : P ++ [c] ∉ prefixes keys) :
    step array (nodeId array P) c = none := by
  unfold step
  split
  · next hl => exact absurd (h.edges P hP c hc hl) hn
  · rfl

theorem mem_prefixes_byte {array : List DoubleArrayUnit} {keys : List (List Nat)}
    (h : Represents array keys) {P : List Nat} (hP : P ∈ prefixes keys) {c : Nat}
    (hc : c ∈ P) : c < 256 := by
  rcases (mem_prefixes keys P).1 hP with h0 | ⟨k, hk, hp⟩
  · subst h0; cases hc
  · exact h.key_bytes k hk c (hp.subset hc)

theorem rep_ne_root {array : List DoubleArrayUnit} {keys : List (List Nat)}
    (h : Represents array keys) {P : List Nat} (hP : P ∈ prefixes keys) (hne : P ≠ []) :
    nodeId array P ≠ 0 := by
  intro h0
  exact hne (h.inj P hP [] (nil_mem_prefixes keys) (by rw [h0, nodeId_nil]))

theorem rep_root_iff {array : List DoubleArrayUnit} {keys : List (List Nat)}
    (h : Represents array keys) {P : List Nat} (hP : P ∈ prefixes keys) :
    nodeId array P = 0 ↔ P = [] := by
  constructor
  · intro h0
    by_contra hne
    exact rep_ne_root h hP hne h0
  · intro h0; subst h0; exact nodeId_nil array

theorem rep_lt {array : List DoubleArrayUnit} {keys : List (List Nat)}
    (h : Represents array keys) {P : List Nat} (hP : P ∈ prefixes keys) :
    nodeId array P < array.length := by
  rcases List.eq_nil_or_concat P with h0 | ⟨Q, c, hQ⟩
  · subst h0
    have := h.bounds [] (nil_mem_prefixes keys) 0 (by decide)
    rw [nodeId_nil]
    omega
  · rw [List.concat_eq_append] at hQ
    subst hQ
    have hs := rep_step h hP
    have hc : c < 256 := mem_prefixes_byte h hP (by simp)
    have hb := h.bounds Q (prefixes_closed keys Q [c] hP) c hc
    unfold step at hs
    split at hs
    · simp only [Option.some.injEq] at hs
      rw [← hs]; exact hb
    · cases hs

theorem rep_length_lt {array : List DoubleArrayUnit} {keys : List (List Nat)}
    (h : Represents array keys) {P : List Nat} (hP : P ∈ prefixes keys) :
    P.length < array.length := by
  have hnd : ((List.range (P.length + 1)).map (fun j => nodeId array (P.take j))).Nodup := by
    refine (List.nodup_range _).map_on ?_
    intro a ha b hb hab
    simp only [List.mem_range] at ha hb
    have ha1 : P.take a ∈ prefixes keys := by
      have := prefixes_closed keys (P.take a) (P.drop a) (by rw [List.take_append_drop]; exact hP)
      exact this
    have hb1 : P.take b ∈ prefixes keys := by
      have := prefixes_closed keys (P.take b) (P.drop b) (by rw [List.take_append_drop]; exact hP)
      exact this
    have := congrArg List.length (h.inj _ ha1 _ hb1 hab)
    simp only [List.length_take] at this
    omega
  have hsub : (List.range (P.length + 1)).map (fun j => nodeId array (P.take j))
      ⊆ List.range array.length := by
    intro x hx
    simp only [List.mem_map, List.mem_range] at hx
    obtain ⟨j, _, rfl⟩ := hx
    have hj : P.take j ∈ prefixes keys :=
      prefixes_closed keys (P.take j) (P.drop j) (by rw [List.take_append_drop]; exact hP)
    exact List.mem_range.2 (rep_lt h hj)
  have := (List.subperm_of_subset hnd hsub).length_le
  simp only [List.length_map, List.length_range] at this
  omega

theorem rep_length_lt_pow {array : List DoubleArrayUnit} {keys : List (List Nat)}
    (h : Represents array keys) {P : List Nat} (hP : P ∈ prefixes keys) :
    P.length < 2 ^ 32 :=
  lt_of_lt_of_le (rep_length_lt h hP) h.size_le

/-! ## Longest suffixes -/

theorem suffix_concat_iff (S X : List Nat) (c : Nat) :
    S <:+ X ++ [c] ↔ S = [] ∨ ∃ S1, S = S1 ++ [c] ∧ S1 <:+ X := by
  constructor
  · rintro ⟨t, ht⟩
    rcases List.eq_nil_or_concat S with h0 | ⟨S1, d, hS⟩
    · exact Or.inl h0
    · right
      rw [List.concat_eq_append] at hS
      subst hS
      rw [← List.append_assoc] at ht
      have h1 := List.append_inj' ht rfl
      have hd : d = c := by simpa using h1.2
      subst hd
      exact ⟨S1, rfl, ⟨t, h1.1⟩⟩
  · rintro (h0 | ⟨S1, rfl, ⟨t, rfl⟩⟩)
    · subst h0; exact List.nil_suffix
    · exact ⟨t, by simp⟩

theorem suffix_tail_of_ne {S1 S : List Nat} (hs : S1 <:+ S) (hne : S1 ≠ S) :
    S1 <:+ S.tail := by
  cases S with
  | nil => exact absurd (List.suffix_nil.1 hs) hne
  | cons a S =>
    rcases List.suffix_cons_iff.1 hs with h | h
    · exact absurd h hne
    · simpa using h

theorem longest_unique {keys : List (List Nat)} {X S T : List Nat}
    (h1 : Longest keys X S) (h2 : Longest keys X T) : S = T := by
  have ha := h1.2.2 T h2.1 h2.2.1
  have hb := h2.2.2 S h1.1 h1.2.1
  exact (List.suffix_of_suffix_length_le h1.1 h2.1 hb).eq_of_length (le_antisymm hb ha)

theorem longest_nil (keys : List (List Nat)) : Longest keys [] [] :=
  ⟨List.suffix_refl _, nil_mem_prefixes keys, fun S1 hs _ => by
    rw [List.suffix_nil.1 hs]⟩

theorem longest_self {keys : List (List Nat)} {S : List Nat} (h : S ∈ prefixes keys) :
    Longest keys S S :=
  ⟨List.suffix_refl _, h, fun _ hs _ => hs.length_le⟩

theorem cand_of_longest {keys : List (List Nat)} {X S : List Nat} (c : Nat)
    (h : Longest keys X S) : Cand keys X c S :=
  ⟨h.1, h.2.1, fun S1 hs hp => h.2.2 S1 hs (prefixes_closed keys S1 [c] hp)⟩

theorem cand_hit {keys : List (List Nat)} {X S : List Nat} {c : Nat}
    (h : Cand keys X c S) (hp : S ++ [c] ∈ prefixes keys) :
    Longest keys (X ++ [c]) (S ++ [c]) := by
  refine ⟨(suffix_concat_iff _ _ _).2 (Or.inr ⟨S, rfl, h.1⟩), hp, ?_⟩
  intro S1 hs hp1
  rcases (suffix_concat_iff _ _ _).1 hs with h0 | ⟨S2, rfl, hs2⟩
  · subst h0; simp
  · have := h.2.2 S2 hs2 hp1
    simp only [List.length_append, List.length_singleton]
    omega

theorem cand_miss_nil {keys : List (List Nat)} {X : List Nat} {c : Nat}
    (h : Cand keys X c []) (hp : [] ++ [c] ∉ prefixes keys) :
    Longest keys (X ++ [c]) [] := by
  refine ⟨List.nil_suffix, nil_mem_prefixes keys, ?_⟩
  intro S1 hs hp1
  rcases (suffix_concat_iff _ _ _).1 hs with h0 | ⟨S2, rfl, hs2⟩
  · subst h0; simp
  · have := h.2.2 S2 hs2 hp1
    simp only [List.length_nil, Nat.le_zero, List.length_eq_zero] at this
    subst this
    exact absurd hp1 hp

theorem cand_miss_next {keys : List (List Nat)} {X S T : List Nat} {c : Nat}
    (h : Cand keys X c S) (hp : S ++ [c] ∉ prefixes keys) (hT : Longest keys S.tail T) :
    Cand keys X c T := by
  refine ⟨hT.1.trans ((List.tail_suffix S).trans h.1), hT.2.1, ?_⟩
  intro S1 hs hp1
  have hle := h.2.2 S1 hs hp1
  have hs1 : S1 <:+ S := List.suffix_of_suffix_length_le hs h.1 hle
  have hne : S1 ≠ S := by
    rintro rfl; exact hp hp1
  exact hT.2.2 S1 (suffix_tail_of_ne hs1 hne) (prefixes_closed keys S1 [c] hp1)

theorem longest_tail_length_lt {keys : List (List Nat)} {S T : List Nat}
    (hT : Longest keys S.tail T) (hne : S ≠ []) : T.length < S.length := by
  have := hT.1.length_le
  cases S with
  | nil => exact absurd rfl hne
  | cons a S => simp only [List.tail_cons] at this; simp only [List.length_cons]; omega


theorem longestSuffix_spec (keys : List (List Nat)) (X : List Nat) :
    Longest keys X (longestSuffix keys X) := by
  induction X with
  | nil =>
    have : longestSuffix keys [] = [] := by
      simp [longestSuffix, nil_mem_prefixes]
    rw [this]; exact longest_nil keys
  | cons a X ih =>
    by_cases h : (a :: X) ∈ prefixes keys
    · have : longestSuffix keys (a :: X) = a :: X := by
        simp [longestSuffix, h]
      rw [this]; exact longest_self h
    · have : longestSuffix keys (a :: X) = longestSuffix keys X := by
        simp [longestSuffix, h]
      rw [this]
      refine ⟨ih.1.trans (List.suffix_cons a X), ih.2.1, ?_⟩
      intro S1 hs hp
      rcases List.suffix_cons_iff.1 hs with h1 | h1
      · subst h1; exact absurd hp h
      · exact ih.2.2 S1 h1 hp

theorem longest_eq {keys : List (List Nat)} {X S : List Nat} (h : Longest keys X S) :
    S = longestSuffix keys X :=
  longest_unique h (longestSuffix_spec keys X)

/-! ## Tables indexed by node id -/

theorem getD_set (buf : List Nat) (i j v : Nat) :
    (buf.set i v).getD j 0 = if i = j ∧ i < buf.length then v else buf.getD j 0 := by
  simp only [List.getD_eq_getElem?_getD, List.getElem?_set]
  by_cases h : i = j
  · subst h
    by_cases h2 : i < buf.length
    · simp [h2]
    · simp [h2, List.getElem?_eq_none (not_lt.1 h2)]
  · simp [h]

theorem tableInv_init (array : List DoubleArrayUnit) (val : List Nat → Nat) :
    TableInv array val (fun _ => False) (List.replicate array.length 0) := by
  refine ⟨by simp, fun P h => h.elim, fun id _ => ?_⟩
  simp only [List.getD_eq_getElem?_getD, List.getElem?_replicate]
  split <;> rfl

theorem tableInv_congr {array : List DoubleArrayUnit} {val : List Nat → Nat}
    {D E : List Nat → Prop} {buf : List Nat} (h : TableInv array val D buf)
    (hDE : ∀ P, E P ↔ D P) : TableInv array val E buf :=
  ⟨h.1, fun P hP => h.2.1 P ((hDE P).1 hP),
    fun id hid => h.2.2 id (fun P hP => hid P ((hDE P).2 hP))⟩

theorem tableInv_set {array : List DoubleArrayUnit} {keys : List (List Nat)}
    (hrep : Represents array keys) {val : List Nat → Nat} {D : List Nat → Prop}
    {buf : List Nat} (h : TableInv array val D buf) (hD : ∀ P, D P → P ∈ prefixes keys)
    {Q : List Nat} (hQ : Q ∈ prefixes keys) :
    TableInv array val (fun P => D P ∨ P = Q) (buf.set (nodeId array Q) (val Q)) := by
  have hlt : nodeId array Q < buf.length := by rw [h.1]; exact rep_lt hrep hQ
  refine ⟨by rw [List.length_set]; exact h.1, ?_, ?_⟩
  · intro P hP
    rw [getD_set]
    by_cases he : nodeId array Q = nodeId array P
    · have hPp : P ∈ prefixes keys := by
        rcases hP with hP | hP
        · exact hD P hP
        · rw [hP]; exact hQ
      have : Q = P := hrep.inj Q hQ P hPp he
      subst this
      simp [hlt]
    · rcases hP with hP | hP
      · simp only [he, false_and, if_false]
        exact h.2.1 P hP
      · subst hP; exact absurd rfl he
  · intro id hid
    rw [getD_set]
    have hne : nodeId array Q ≠ id := hid Q (Or.inr rfl)
    simp only [hne, false_and, if_false]
    exact h.2.2 id (fun P hP => hid P (Or.inl hP))

theorem tableInv_keep {array : List DoubleArrayUnit} {keys : List (List Nat)}
    (hrep : Represents array keys) {val : List Nat → Nat} {D : List Nat → Prop}
    {buf : List Nat} (h : TableInv array val D buf) (hD : ∀ P, D P → P ∈ prefixes keys)
    {Q : List Nat} (hQ : Q ∈ prefixes keys) (hne : buf.getD (nodeId array Q) 0 ≠ 0) :
    TableInv array val (fun P => D P ∨ P = Q) buf := by
  have hDQ : D Q := by
    by_contra hn
    apply hne
    apply h.2.2
    intro P hP he
    have : P = Q := hrep.inj P (hD P hP) Q hQ he
    subst this
    exact hn hP
  exact tableInv_congr h (fun P => ⟨fun hP => hP.elim id (fun e => e ▸ hDQ), Or.inl⟩)

/-! ## Replaying keys -/

theorem take_succ_concat (k : List Nat) (j : Nat) (hj : j < k.length) :
    k.take (j + 1) = k.take j ++ [k.getD j 0] := by
  rw [List.take_succ, List.getD_eq_getElem _ _ hj, List.getElem?_eq_getElem hj]
  rfl

theorem take_mem_prefixes {keys : List (List Nat)} {k : List Nat} (hk : k ∈ prefixes keys)
    (j : Nat) : k.take j ∈ prefixes keys :=
  prefixes_closed keys (k.take j) (k.drop j) (by rw [List.take_append_drop]; exact hk)

theorem traverse_one {array : List DoubleArrayUnit} {keys : List (List Nat)}
    (hrep : Represents array keys) {k : List Nat} (hk : k ∈ prefixes keys) {j : Nat}
    (hj : j < k.length) :
    (traverse array k (nodeId array (k.take j)) j (j + 1)).1 ≠ -2 ∧
      (traverse array k (nodeId array (k.take j)) j (j + 1)).2.1
        = nodeId array (k.take (j + 1)) ∧
      (traverse array k (nodeId array (k.take j)) j (j + 1)).2.2 = j + 1 := by
  apply traverse_hit array k _ j (j + 1) _ (by omega) (by omega)
  have h1 : (k.drop j).take (j + 1 - j) = [k.getD j 0] := by
    rw [List.drop_eq_getElem_cons hj, List.getD_eq_getElem _ _ hj, Nat.add_sub_cancel_left]
    rfl
  rw [h1]
  have h2 : k.take j ++ [k.getD j 0] ∈ prefixes keys := by
    rw [← take_succ_concat k j hj]; exact take_mem_prefixes hk _
  have := rep_step hrep h2
  simp only [walk, this]
  rw [take_succ_concat k j hj]

theorem traverse_prefix {array : List DoubleArrayUnit} {keys : List (List Nat)}
    (hrep : Represents array keys) {k : List Nat} (hk : k ∈ prefixes keys) {i : Nat}
    (hi : i ≤ k.length) :
    (traverse array k 0 0 i).1 ≠ -2 ∧
      (traverse array k 0 0 i).2.1 = nodeId array (k.take i) ∧
      (traverse array k 0 0 i).2.2 = i := by
  apply traverse_hit array k 0 0 i _ (by omega) hi
  simpa using rep_walk hrep (take_mem_prefixes hk i)

/-! ## The depth table -/

theorem depth_key_spec {array : List DoubleArrayUnit} {keys : List (List Nat)}
    (hrep : Represents array keys) {k : List Nat} (hk : k ∈ prefixes keys) :
    ∀ (n j : Nat) (D : List Nat → Prop) (buf : List Nat), j + n = k.length →
      (∀ P, D P → P ∈ prefixes keys) →
      TableInv array List.length D buf →
      ∃ buf1, depth_key array k n j (nodeId array (k.take j)) buf = some buf1 ∧
        TableInv array List.length
          (fun P => D P ∨ ∃ j1, j < j1 ∧ j1 ≤ k.length ∧ P = k.take j1) buf1 := by
  intro n
  induction n with
  | zero =>
    intro j D buf hj _ h
    refine ⟨buf, rfl, tableInv_congr h (fun P => ⟨?_, Or.inl⟩)⟩
    rintro (hP | ⟨j1, h1, h2, _⟩)
    · exact hP
    · omega
  | succ n ih =>
    intro j D buf hj hD h
    have hjl : j < k.length := by omega
    obtain ⟨t1, t2, _⟩ := traverse_one hrep hk hjl
    have hQ : k.take (j + 1) ∈ prefixes keys := take_mem_prefixes hk _
    have hlen : (k.take (j + 1)).length = j + 1 := by
      rw [List.length_take]; omega
    have hmod : (j + 1) % 2 ^ 32 = (k.take (j + 1)).length := by
      rw [hlen]
      have := rep_length_lt_pow hrep hQ
      rw [hlen] at this
      exact Nat.mod_eq_of_lt this
    have hset := tableInv_set hrep h hD hQ
    obtain ⟨buf1, hb1, hinv⟩ := ih (j + 1) _ _ (by omega)
      (fun P hP => hP.elim (hD P) (fun e => e ▸ hQ)) hset
    refine ⟨buf1, ?_, tableInv_congr hinv (fun P => ?_)⟩
    · simp only [depth_key, t1, if_false, t2, hmod]
      exact hb1
    · constructor
      · rintro (hP | ⟨j1, h1, h2, h3⟩)
        · exact Or.inl (Or.inl hP)
        · by_cases he : j1 = j + 1
          · subst he; exact Or.inl (Or.inr h3)
          · exact Or.inr ⟨j1, by omega, h2, h3⟩
      · rintro ((hP | hP) | ⟨j1, h1, h2, h3⟩)
        · exact Or.inl hP
        · exact Or.inr ⟨j + 1, by omega, by omega, hP⟩
        · exact Or.inr ⟨j1, by omega, h2, h3⟩

theorem depth_keys_spec {array : List DoubleArrayUnit} {keys : List (List Nat)}
    (hrep : Represents array keys) :
    ∀ (ks : List (List Nat)) (D : List Nat → Prop) (buf : List Nat),
      (∀ k ∈ ks, k ∈ keys) → (∀ P, D P → P ∈ prefixes keys) →
      TableInv array List.length D buf →
      ∃ buf1, depth_keys array ks buf = some buf1 ∧
        TableInv array List.length
          (fun P => D P ∨ ∃ k ∈ ks, P ≠ [] ∧ P <+: k) buf1 := by
  intro ks
  induction ks with
  | nil =>
    intro D buf _ _ h
    exact ⟨buf, rfl, tableInv_congr h (fun P => ⟨by simp, Or.inl⟩)⟩
  | cons k ks ih =>
    intro D buf hks hD h
    have hk : k ∈ prefixes keys := key_mem_prefixes keys k (hks k (by simp))
    obtain ⟨buf1, hb1, hinv1⟩ := depth_key_spec hrep hk k.length 0 D buf (by omega) hD
      (by simpa using h)
    have hD1 : ∀ P, (D P ∨ ∃ j1, 0 < j1 ∧ j1 ≤ k.length ∧ P = k.take j1) →
        P ∈ prefixes keys := by
      rintro P (hP | ⟨j1, _, _, rfl⟩)
      · exact hD P hP
      · exact take_mem_prefixes hk _
    obtain ⟨buf2, hb2, hinv2⟩ := ih _ buf1 (fun k1 h1 => hks k1 (by simp [h1])) hD1 hinv1
    refine ⟨buf2, ?_, tableInv_congr hinv2 (fun P => ?_)⟩
    · have h0 : nodeId array (k.take 0) = 0 := by simp [nodeId_nil]
      rw [h0] at hb1
      simp only [depth_keys, hb1]
      exact hb2
    · constructor
      · rintro (hP | ⟨k1, hk1, hne, hp⟩)
        · exact Or.inl (Or.inl hP)
        · rcases List.mem_cons.1 hk1 with he | he
          · subst he
            refine Or.inl (Or.inr ⟨P.length, ?_, hp.length_le, List.prefix_iff_eq_take.1 hp⟩)
            exact List.length_pos.2 hne
          · exact Or.inr ⟨k1, he, hne, hp⟩
      · rintro ((hP | ⟨j1, h1, h2, rfl⟩) | ⟨k1, hk1, hne, hp⟩)
        · exact Or.inl hP
        · refine Or.inr ⟨k, by simp, ?_, List.take_prefix _ _⟩
          intro h0
          have := congrArg List.length h0
          simp only [List.length_take, List.length_nil] at this
          omega
        · exact Or.inr ⟨k1, by simp [hk1], hne, hp⟩

theorem depth_table {array : List DoubleArrayUnit} {keys : List (List Nat)}
    (hrep : Represents array keys) :
    ∃ buf, depth_keys array keys (List.replicate array.length 0) = some buf ∧
      TableInv array List.length (fun P => P ∈ prefixes keys ∧ P ≠ []) buf := by
  obtain ⟨buf, hb, hinv⟩ := depth_keys_spec hrep keys _ _ (fun _ h => h)
    (fun P h => h.elim) (tableInv_init array List.length)
  refine ⟨buf, hb, tableInv_congr hinv (fun P => ?_)⟩
  constructor
  · rintro ⟨hP, hne⟩
    rcases (mem_prefixes keys P).1 hP with h0 | ⟨k, hk, hp⟩
    · exact absurd h0 hne
    · exact Or.inr ⟨k, hk, hne, hp⟩
  · rintro (h | ⟨k, hk, hne, hp⟩)
    · exact h.elim
    · exact ⟨(mem_prefixes keys P).2 (Or.inr ⟨k, hk, hp⟩), hne⟩


/-! ## The failure table -/

theorem max_length_ge (ks : List (List Nat)) :
    ∀ m, m ≤ max_length ks m ∧ ∀ k ∈ ks, k.length ≤ max_length ks m := by
  induction ks with
  | nil => intro m; simp [max_length]
  | cons k ks ih =>
    intro m
    simp only [max_length]
    have h := ih (if m < k.length then k.length else m)
    refine ⟨le_trans (by split <;> omega) h.1, ?_⟩
    intro k1 hk1
    rcases List.mem_cons.1 hk1 with he | he
    · subst he; exact le_trans (by split <;> omega) h.1
    · exact h.2 k1 he

theorem length_le_max_length {keys : List (List Nat)} {P : List Nat}
    (hP : P ∈ prefixes keys) : P.length ≤ max_length keys 0 := by
  rcases (mem_prefixes keys P).1 hP with h0 | ⟨k, hk, hp⟩
  · subst h0; simp
  · exact le_trans hp.length_le ((max_length_ge keys 0).2 k hk)

theorem findFailureLink_loop_spec {array : List DoubleArrayUnit} {keys : List (List Nat)}
    (hrep : Represents array keys) {buf : List Nat} {i : Nat}
    (hbuf : ∀ P ∈ prefixes keys, P ≠ [] → P.length ≤ i →
      buf.getD (nodeId array P) 0 = failureOf array keys P)
    {k : List Nat} (hi : i < k.length) (hc : k.getD i 0 < 256) (X : List Nat) :
    ∀ (fuel : Nat) (R : List Nat), R ∈ prefixes keys → R ≠ [] → R.length ≤ i →
      R.length ≤ fuel → Cand keys X (k.getD i 0) (longestSuffix keys R.tail) →
      findFailureLink_loop array buf k i fuel (nodeId array R)
        = some (nodeId array (longestSuffix keys (X ++ [k.getD i 0]))) := by
  intro fuel
  induction fuel with
  | zero =>
    intro R _ hne _ hf _
    exact absurd (List.length_eq_zero.1 (Nat.le_zero.1 hf)) hne
  | succ fuel ih =>
    intro R hR hne hRi hf hcand
    have hS := longestSuffix_spec keys R.tail
    have hk1 : ((k.drop i).drop 0).take (1 - 0) = [k.getD i 0] := by
      rw [List.drop_zero, List.drop_eq_getElem_cons hi, List.getD_eq_getElem _ _ hi]
      rfl
    have hlen1 : 1 ≤ (k.drop i).length := by
      rw [List.length_drop]; omega
    have hb : buf.getD (nodeId array R) 0 = nodeId array (longestSuffix keys R.tail) :=
      hbuf R hR hne hRi
    by_cases hp : longestSuffix keys R.tail ++ [k.getD i 0] ∈ prefixes keys
    · have hw : walk array (nodeId array (longestSuffix keys R.tail))
          (((k.drop i).drop 0).take (1 - 0))
            = some (nodeId array (longestSuffix keys R.tail ++ [k.getD i 0])) := by
        rw [hk1]; simp only [walk, rep_step hrep hp]
      obtain ⟨t1, t2, _⟩ := traverse_hit array (k.drop i) _ 0 1 _ (by omega) hlen1 hw
      simp only [findFailureLink_loop, hb, t1, ne_eq, not_false_eq_true, if_true, t2]
      rw [longest_eq (cand_hit hcand hp)]
    · have hw : walk array (nodeId array (longestSuffix keys R.tail))
          (((k.drop i).drop 0).take (1 - 0)) = none := by
        rw [hk1]; simp only [walk, rep_step_none hrep hS.2.1 hc hp]
      have t1 := traverse_miss array (k.drop i) _ 0 1 (by omega) hlen1 hw
      simp only [findFailureLink_loop, hb, t1, ne_eq, not_true_eq_false, if_false]
      by_cases h0 : nodeId array (longestSuffix keys R.tail) = 0
      · have hnil : longestSuffix keys R.tail = [] := (rep_root_iff hrep hS.2.1).1 h0
        simp only [h0, if_true]
        rw [hnil] at hcand hp
        rw [← longest_eq (cand_miss_nil hcand hp), nodeId_nil]
      · have hnn : longestSuffix keys R.tail ≠ [] := fun e =>
          h0 ((rep_root_iff hrep hS.2.1).2 e)
        simp only [h0, if_false]
        have hlt := longest_tail_length_lt hS hne
        exact ih _ hS.2.1 hnn (by omega) (by omega)
          (cand_miss_next hcand hp (longestSuffix_spec keys _))

theorem findFailureLink_spec {array : List DoubleArrayUnit} {keys : List (List Nat)}
    (hrep : Represents array keys) {buf : List Nat} {i : Nat}
    (hbuf : ∀ P ∈ prefixes keys, P ≠ [] → P.length ≤ i →
      buf.getD (nodeId array P) 0 = failureOf array keys P)
    {k : List Nat} (hk : k ∈ prefixes keys) (hi : i < k.length) {fuel : Nat}
    (hf : i ≤ fuel) :
    findFailureLink fuel array buf (nodeId array (k.take i)) k i
      = some (failureOf array keys (k.take (i + 1))) := by
  have hP : k.take i ∈ prefixes keys := take_mem_prefixes hk i
  have hlenP : (k.take i).length = i := by rw [List.length_take]; omega
  have hc : k.getD i 0 < 256 :=
    mem_prefixes_byte hrep hk (by
      rw [List.getD_eq_getElem _ _ hi]; exact List.getElem_mem _)
  unfold findFailureLink failureOf
  rw [take_succ_concat k i hi]
  by_cases h0 : nodeId array (k.take i) = 0
  · have hnil : k.take i = [] := (rep_root_iff hrep hP).1 h0
    have : longestSuffix keys [] = [] := (longest_eq (longest_nil keys)).symm
    simp only [h0, if_true, hnil, List.nil_append, List.tail_cons, this, nodeId_nil]
  · have hne : k.take i ≠ [] := fun e => h0 ((rep_root_iff hrep hP).2 e)
    simp only [h0, if_false]
    rw [List.tail_append_of_ne_nil hne]
    exact findFailureLink_loop_spec hrep hbuf hi hc (k.take i).tail fuel (k.take i) hP hne
      (by omega) (by omega) (cand_of_longest _ (longestSuffix_spec keys _))

theorem failure_keys_spec {array : List DoubleArrayUnit} {keys : List (List Nat)}
    (hrep : Represents array keys) {fuel i : Nat} (hf : i ≤ fuel) :
    ∀ (ks : List (List Nat)) (D : List Nat → Prop) (buf : List Nat),
      (∀ k ∈ ks, k ∈ keys) → (∀ P, D P → P ∈ prefixes keys) →
      (∀ P ∈ prefixes keys, P ≠ [] → P.length ≤ i → D P) →
      TableInv array (failureOf array keys) D buf →
      ∃ buf1, failure_keys fuel array i ks buf = some (some buf1) ∧
        TableInv array (failureOf array keys)
          (fun P => D P ∨ ∃ k ∈ ks, i < k.length ∧ P = k.take (i + 1)) buf1 := by
  intro ks
  induction ks with
  | nil =>
    intro D buf _ _ _ h
    exact ⟨buf, rfl, tableInv_congr h (fun P => ⟨by simp, Or.inl⟩)⟩
  | cons k ks ih =>
    intro D buf hks hD hlow h
    have hkk : k ∈ keys := hks k (by simp)
    have hk : k ∈ prefixes keys := key_mem_prefixes keys k hkk
    have hks1 : ∀ k1 ∈ ks, k1 ∈ keys := fun k1 h1 => hks k1 (by simp [h1])
    by_cases hlen : k.length ≤ i
    · obtain ⟨buf1, hb1, hinv1⟩ := ih D buf hks1 hD hlow h
      refine ⟨buf1, by simp only [failure_keys, hlen, if_true]; exact hb1,
        tableInv_congr hinv1 (fun P => ?_)⟩
      constructor
      · rintro (hP | ⟨k1, hk1, h1, h2⟩)
        · exact Or.inl hP
        · rcases List.mem_cons.1 hk1 with he | he
          · subst he; omega
          · exact Or.inr ⟨k1, he, h1, h2⟩
      · rintro (hP | ⟨k1, hk1, h1, h2⟩)
        · exact Or.inl hP
        · exact Or.inr ⟨k1, by simp [hk1], h1, h2⟩
    · have hi : i < k.length := by omega
      have hQ : k.take (i + 1) ∈ prefixes keys := take_mem_prefixes hk _
      -- the parent
      have hp : ¬ (i ≠ 0 ∧ (if i ≠ 0 then traverse array k 0 0 i else (0, 0, 0)).1 = -2) ∧
          (if i ≠ 0 then traverse array k 0 0 i else ((0 : Int), 0, 0)).2.1
            = nodeId array (k.take i) ∧
          (if i ≠ 0 then traverse array k 0 0 i else ((0 : Int), 0, 0)).2.2 = i := by
        by_cases h0 : i = 0
        · subst h0; simp [nodeId_nil]
        · obtain ⟨t1, t2, t3⟩ := traverse_prefix hrep hk (le_of_lt hi)
          simp only [ne_eq, h0, not_false_eq_true, if_true, true_and]
          exact ⟨t1, t2, t3⟩
      obtain ⟨p1, p2, p3⟩ := hp
      obtain ⟨r1, r2, _⟩ := traverse_one hrep hk hi
      have hbuf : ∀ P ∈ prefixes keys, P ≠ [] → P.length ≤ i →
          buf.getD (nodeId array P) 0 = failureOf array keys P :=
        fun P hP hne hl => h.2.1 P (hlow P hP hne hl)
      have hD1 : ∀ P, (D P ∨ P = k.take (i + 1)) → P ∈ prefixes keys := by
        rintro P (hP | rfl)
        · exact hD P hP
        · exact hQ
      have hlow1 : ∀ P ∈ prefixes keys, P ≠ [] → P.length ≤ i →
          (D P ∨ P = k.take (i + 1)) := fun P hP hne hl => Or.inl (hlow P hP hne hl)
      have hcongr : ∀ P, (D P ∨ ∃ k1 ∈ k :: ks, i < k1.length ∧ P = k1.take (i + 1)) ↔
          ((D P ∨ P = k.take (i + 1)) ∨ ∃ k1 ∈ ks, i < k1.length ∧ P = k1.take (i + 1)) := by
        intro P
        constructor
        · rintro (hP | ⟨k1, hk1, h1, h2⟩)
          · exact Or.inl (Or.inl hP)
          · rcases List.mem_cons.1 hk1 with he | he
            · subst he; exact Or.inl (Or.inr h2)
            · exact Or.inr ⟨k1, he, h1, h2⟩
        · rintro ((hP | hP) | ⟨k1, hk1, h1, h2⟩)
          · exact Or.inl hP
          · exact Or.inr ⟨k, by simp, hi, hP⟩
          · exact Or.inr ⟨k1, by simp [hk1], h1, h2⟩
      by_cases hset : buf.getD (nodeId array (k.take (i + 1))) 0 ≠ 0
      · obtain ⟨buf1, hb1, hinv1⟩ := ih _ buf hks1 hD1 hlow1 (tableInv_keep hrep h hD hQ hset)
        refine ⟨buf1, ?_, tableInv_congr hinv1 hcongr⟩
        rw [failure_keys]
        simp only [hlen, if_false, p1, p2, p3, r1, r2]
        rw [if_pos hset]
        exact hb1
      · obtain ⟨buf1, hb1, hinv1⟩ := ih _ _ hks1 hD1 hlow1 (tableInv_set hrep h hD hQ)
        refine ⟨buf1, ?_, tableInv_congr hinv1 hcongr⟩
        rw [failure_keys]
        simp only [hlen, if_false, p1, p2, p3, r1, r2]
        rw [if_neg hset, findFailureLink_spec hrep hbuf hk hi hf]
        exact hb1

theorem failure_levels_spec {array : List DoubleArrayUnit} {keys : List (List Nat)}
    (hrep : Represents array keys) {fuel : Nat} :
    ∀ (n i : Nat) (buf : List Nat), i + n ≤ fuel + 1 →
      TableInv array (failureOf array keys)
        (fun P => P ∈ prefixes keys ∧ P ≠ [] ∧ P.length ≤ i) buf →
      ∃ buf1, failure_levels fuel array keys n i buf = some (some buf1) ∧
        TableInv array (failureOf array keys)
          (fun P => P ∈ prefixes keys ∧ P ≠ [] ∧ P.length ≤ i + n) buf1 := by
  intro n
  induction n with
  | zero => intro i buf _ h; exact ⟨buf, rfl, h⟩
  | succ n ih =>
    intro i buf hf h
    obtain ⟨buf1, hb1, hinv1⟩ := failure_keys_spec hrep (show i ≤ fuel by omega) keys _ buf
      (fun _ hk => hk) (fun P hP => hP.1) (fun P hP hne hl => ⟨hP, hne, hl⟩) h
    have hinv2 : TableInv array (failureOf array keys)
        (fun P => P ∈ prefixes keys ∧ P ≠ [] ∧ P.length ≤ i + 1) buf1 := by
      refine tableInv_congr hinv1 (fun P => ?_)
      constructor
      · rintro ⟨hP, hne, hl⟩
        by_cases hl1 : P.length ≤ i
        · exact Or.inl ⟨hP, hne, hl1⟩
        · rcases (mem_prefixes keys P).1 hP with h0 | ⟨k, hk, hp⟩
          · exact absurd h0 hne
          · refine Or.inr ⟨k, hk, ?_, ?_⟩
            · have := hp.length_le; omega
            · have : P.length = i + 1 := by omega
              rw [← this]; exact List.prefix_iff_eq_take.1 hp
      · rintro (⟨hP, hne, hl⟩ | ⟨k, hk, h1, rfl⟩)
        · exact ⟨hP, hne, by omega⟩
        · refine ⟨take_mem_prefixes (key_mem_prefixes keys k hk) _, ?_, ?_⟩
          · intro h0
            have := congrArg List.length h0
            simp only [List.length_take, List.length_nil] at this
            omega
          · rw [List.length_take]; omega
    obtain ⟨buf2, hb2, hinv3⟩ := ih (i + 1) buf1 (by omega) hinv2
    refine ⟨buf2, ?_, tableInv_congr hinv3 (fun P => by rw [show i + (n + 1) = i + 1 + n by omega])⟩
    simp only [failure_levels, hb1]
    exact hb2

theorem failure_table {array : List DoubleArrayUnit} {keys : List (List Nat)}
    (hrep : Represents array keys) {fuel : Nat} (hf : max_length keys 0 ≤ fuel + 1) :
    ∃ buf, failure_levels fuel array keys (max_length keys 0) 0
        (List.replicate array.length 0) = some (some buf) ∧
      TableInv array (failureOf array keys) (fun P => P ∈ prefixes keys ∧ P ≠ []) buf := by
  obtain ⟨buf, hb, hinv⟩ := failure_levels_spec hrep (max_length keys 0) 0
    (List.replicate array.length 0) (show 0 + max_length keys 0 ≤ fuel + 1 by omega)
    (tableInv_congr (tableInv_init array _) (fun P => by
      constructor
      · rintro ⟨_, hne, hl⟩
        exact hne (List.length_eq_zero.1 (Nat.le_zero.1 hl))
      · exact fun h => h.elim))
  refine ⟨buf, hb, tableInv_congr hinv (fun P => ?_)⟩
  constructor
  · rintro ⟨hP, hne⟩
    exact ⟨hP, hne, by have := length_le_max_length hP; omega⟩
  · rintro ⟨hP, hne, _⟩
    exact ⟨hP, hne⟩


/-! ## The scan -/

theorem longest_tails_filter {keys : List (List Nat)} {X S : List Nat}
    (h : Longest keys X S) :
    X.tails.filter (fun T => decide (T ∈ keys)) = S.tails.filter (fun T => decide (T ∈ keys)) := by
  induction X with
  | nil =>
    have := List.suffix_nil.1 h.1
    rw [this]
  | cons a X ih =>
    by_cases he : S = a :: X
    · rw [he]
    · have hs : S <:+ X := by simpa using suffix_tail_of_ne h.1 he
      have hL : Longest keys X S :=
        ⟨hs, h.2.1, fun S1 h1 h2 => h.2.2 S1 (h1.trans (List.suffix_cons a X)) h2⟩
      have hnp : (a :: X) ∉ prefixes keys := by
        intro hp
        have h1 := h.2.2 (a :: X) (List.suffix_refl _) hp
        have h2 := hs.length_le
        simp only [List.length_cons] at h1
        omega
      have hnk : (a :: X) ∉ keys := fun hk => hnp (key_mem_prefixes keys _ hk)
      rw [List.tails_cons, List.filter_cons_of_neg (by simpa using hnk)]
      exact ih hL

theorem tails_filter_step {keys : List (List Nat)} (hne : [] ∉ keys) (S : List Nat) :
    S.tails.filter (fun T => decide (T ∈ keys))
      = (if S ∈ keys then [S] else []) ++
        (longestSuffix keys S.tail).tails.filter (fun T => decide (T ∈ keys)) := by
  rw [← longest_tails_filter (longestSuffix_spec keys S.tail)]
  cases S with
  | nil => simp [hne]
  | cons a S =>
    rw [List.tails_cons, List.tail_cons]
    by_cases h : (a :: S) ∈ keys
    · rw [List.filter_cons_of_pos (by simpa using h), if_pos h]; rfl
    · rw [List.filter_cons_of_neg (by simpa using h), if_neg h]; rfl

theorem built_failure {keys : List (List Nat)} {array : List DoubleArrayUnit}
    {self : DoubleArrayAhoCorasick} (hrep : Represents array keys)
    (hb : Built keys array self) {P : List Nat} (hP : P ∈ prefixes keys) :
    tableAt self.failure_ (nodeId array P) = nodeId array (longestSuffix keys P.tail) := by
  obtain ⟨_, ⟨F, hF, hinv⟩, _⟩ := hb
  simp only [tableAt, hF, Option.getD_some]
  by_cases hne : P = []
  · subst hne
    have : longestSuffix keys ([] : List Nat).tail = [] :=
      (longest_eq (longest_nil keys)).symm
    rw [this, nodeId_nil]
    exact hinv.2.2 0 (fun P hP => rep_ne_root hrep hP.1 hP.2)
  · exact hinv.2.1 P ⟨hP, hne⟩

theorem built_depth {keys : List (List Nat)} {array : List DoubleArrayUnit}
    {self : DoubleArrayAhoCorasick} (hrep : Represents array keys)
    (hb : Built keys array self) {P : List Nat} (hP : P ∈ prefixes keys) :
    tableAt self.depth_ (nodeId array P) = P.length := by
  obtain ⟨_, _, ⟨D, hD, hinv⟩⟩ := hb
  simp only [tableAt, hD, Option.getD_some]
  by_cases hne : P = []
  · subst hne
    rw [nodeId_nil]
    exact hinv.2.2 0 (fun P hP => rep_ne_root hrep hP.1 hP.2)
  · exact hinv.2.1 P ⟨hP, hne⟩

theorem step_eq_some {array : List DoubleArrayUnit} {n c m : Nat}
    (h : step array n c = some m) :
    (unitAt array (n ^^^ (unitAt array n).offset ^^^ c)).label = c ∧
      n ^^^ (unitAt array n).offset ^^^ c = m := by
  unfold step at h
  split at h
  · next hl => exact ⟨hl, by simpa using h⟩
  · cases h

theorem step_eq_none {array : List DoubleArrayUnit} {n c : Nat}
    (h : step array n c = none) :
    (unitAt array (n ^^^ (unitAt array n).offset ^^^ c)).label ≠ c := by
  unfold step at h
  split at h
  · cases h
  · next hl => exact hl

theorem find_goto_spec {keys : List (List Nat)} {array : List DoubleArrayUnit}
    {self : DoubleArrayAhoCorasick} (hrep : Represents array keys)
    (hb : Built keys array self) {c : Nat} (hc : c < 256) (X : List Nat) :
    ∀ (fuel : Nat) (S : List Nat), S.length < fuel → Cand keys X c S →
      find_goto self c fuel (nodeId array S) (unitAt array (nodeId array S))
        = some (nodeId array (longestSuffix keys (X ++ [c])),
            unitAt array (nodeId array (longestSuffix keys (X ++ [c])))) := by
  have harr : self.array = array := hb.1
  intro fuel
  induction fuel with
  | zero => intro S h _; omega
  | succ fuel ih =>
    intro S hf hcand
    by_cases hp : S ++ [c] ∈ prefixes keys
    · obtain ⟨hl, hm⟩ := step_eq_some (rep_step hrep hp)
      rw [hm] at hl
      simp only [find_goto, harr, hm, hl, if_true]
      rw [longest_eq (cand_hit hcand hp)]
    · have hl := step_eq_none (rep_step_none hrep hcand.2.1 hc hp)
      simp only [find_goto, harr, hl, if_false]
      by_cases h0 : nodeId array S = 0
      · have hnil : S = [] := (rep_root_iff hrep hcand.2.1).1 h0
        subst hnil
        simp only [h0, if_true]
        rw [← longest_eq (cand_miss_nil hcand hp), nodeId_nil]
      · have hnn : S ≠ [] := fun e => h0 ((rep_root_iff hrep hcand.2.1).2 e)
        simp only [h0, if_false, built_failure hrep hb hcand.2.1]
        have hlt := longest_tail_length_lt (longestSuffix_spec keys S.tail) hnn
        exact ih _ (by omega) (cand_miss_next hcand hp (longestSuffix_spec keys _))

theorem emitAll_nil (max : Nat) (st : Nat × List result_pair_type) :
    emitAll max st [] = st := rfl

theorem emitAll_cons (max : Nat) (st : Nat × List result_pair_type) (r : result_pair_type)
    (rs : List result_pair_type) :
    emitAll max st (r :: rs)
      = emitAll max (st.1 + 1, if st.1 < max then st.2.set st.1 r else st.2) rs := rfl

theorem emitAll_append (max : Nat) (st : Nat × List result_pair_type)
    (rs ts : List result_pair_type) :
    emitAll max st (rs ++ ts) = emitAll max (emitAll max st rs) ts := by
  simp [emitAll, List.foldl_append]

theorem find_emit_spec {keys : List (List Nat)} {array : List DoubleArrayUnit}
    {self : DoubleArrayAhoCorasick} (hrep : Represents array keys)
    (hb : Built keys array self) (max i : Nat) {S : List Nat} (hS : S ∈ keys)
    (hi : S.length ≤ i + 1) (hi64 : i + 1 < 2 ^ 64) (st : Nat × List result_pair_type) :
    find_emit self max i (nodeId array S) (unitAt array (nodeId array S)) st
      = emitAll max st [matchRecord keys (i + 1) S] := by
  have hP := key_mem_prefixes keys S hS
  have hpos : (i + 1 + 2 ^ 64 - S.length) % 2 ^ 64 = i + 1 - S.length := by
    have : i + 1 + 2 ^ 64 - S.length = (i + 1 - S.length) + 2 ^ 64 := by omega
    rw [this, Nat.add_mod_right]
    exact Nat.mod_eq_of_lt (by omega)
  simp only [find_emit, hb.1, hrep.value S hS, built_depth hrep hb hP, hpos, emitAll_cons,
    emitAll_nil, matchRecord]

theorem find_output_spec {keys : List (List Nat)} {array : List DoubleArrayUnit}
    {self : DoubleArrayAhoCorasick} (hrep : Represents array keys)
    (hb : Built keys array self) (hne : [] ∉ keys) (max i : Nat) (hi64 : i + 1 < 2 ^ 64) :
    ∀ (fuel : Nat) (S : List Nat) (st : Nat × List result_pair_type),
      S ∈ prefixes keys → S.length < fuel → S.length ≤ i + 1 →
      find_output self max i fuel (nodeId array S) st
        = some (emitAll max st
            ((S.tails.filter (fun T => decide (T ∈ keys))).map (matchRecord keys (i + 1)))) := by
  intro fuel
  induction fuel with
  | zero => intro S _ _ h _; omega
  | succ fuel ih =>
    intro S st hS hf hi
    by_cases h0 : nodeId array S = 0
    · have hnil : S = [] := (rep_root_iff hrep hS).1 h0
      subst hnil
      simp [find_output, h0, hne, emitAll_nil]
    · have hnn : S ≠ [] := fun e => h0 ((rep_root_iff hrep hS).2 e)
      have hlt := longest_tail_length_lt (longestSuffix_spec keys S.tail) hnn
      have hS1 := (longestSuffix_spec keys S.tail).2.1
      rw [tails_filter_step hne S, List.map_append, emitAll_append]
      simp only [find_output, h0, if_false, built_failure hrep hb hS, hb.1]
      rw [ih _ _ hS1 (by omega) (by omega)]
      by_cases hk : S ∈ keys
      · have hleaf : (unitAt array (nodeId array S)).has_leaf = true :=
          (hrep.leaf S hS).2 hk
        simp only [hleaf, if_true, if_pos hk, List.map_cons, List.map_nil]
        rw [find_emit_spec hrep hb max i hk hi hi64 st]
      · have hleaf : ¬ (unitAt array (nodeId array S)).has_leaf = true :=
          fun h => hk ((hrep.leaf S hS).1 h)
        simp only [hleaf, if_false, if_neg hk, List.map_nil, emitAll_nil, Bool.false_eq_true]


theorem find_loop_spec {keys : List (List Nat)} {array : List DoubleArrayUnit}
    {self : DoubleArrayAhoCorasick} (hrep : Represents array keys)
    (hb : Built keys array self) (hne : [] ∉ keys) (max : Nat) {fuel : Nat}
    (hf : max_length keys 0 < fuel) :
    ∀ (rest pre : List Nat) (st : Nat × List result_pair_type),
      (∀ c ∈ rest, c < 256) → (pre ++ rest).length < 2 ^ 64 →
      find_loop fuel self max rest pre.length (nodeId array (longestSuffix keys pre))
          (unitAt array (nodeId array (longestSuffix keys pre))) st
        = some (emitAll max st (matchesFrom keys pre rest)) := by
  intro rest
  induction rest with
  | nil => intro pre st _ _; rfl
  | cons c rest ih =>
    intro pre st hbytes hlen
    have hS := longestSuffix_spec keys pre
    have hT := longestSuffix_spec keys (pre ++ [c])
    have hlS := length_le_max_length hS.2.1
    have hlT := length_le_max_length hT.2.1
    have hT1 := longestSuffix_spec keys (longestSuffix keys (pre ++ [c])).tail
    have hlT1 := length_le_max_length hT1.2.1
    have hi64 : pre.length + 1 < 2 ^ 64 := by
      simp only [List.length_append, List.length_cons] at hlen; omega
    have hTi : (longestSuffix keys (pre ++ [c])).length ≤ pre.length + 1 := by
      have := hT.1.length_le
      simpa using this
    have hT1i : (longestSuffix keys (longestSuffix keys (pre ++ [c])).tail).length
        ≤ pre.length + 1 := by
      have := hT1.1.length_le
      have := (List.tail_suffix (longestSuffix keys (pre ++ [c]))).length_le
      omega
    have hgo := find_goto_spec hrep hb (hbytes c (by simp)) pre fuel _ (by omega)
      (cand_of_longest c hS)
    have hout := fun st1 => find_output_spec hrep hb hne max pre.length hi64 fuel _ st1
      hT1.2.1 (by omega) hT1i
    have hrec := ih (pre ++ [c]) (emitAll max st (matchesEndingAt keys (pre ++ [c])))
      (fun d hd => hbytes d (by simp [hd])) (by simpa using hlen)
    have hlen1 : (pre ++ [c]).length = pre.length + 1 := by simp
    rw [hlen1] at hrec
    have hme : matchesEndingAt keys (pre ++ [c])
        = (if longestSuffix keys (pre ++ [c]) ∈ keys then
            [matchRecord keys (pre.length + 1) (longestSuffix keys (pre ++ [c]))] else []) ++
          ((longestSuffix keys (longestSuffix keys (pre ++ [c])).tail).tails.filter
            (fun T => decide (T ∈ keys))).map (matchRecord keys (pre.length + 1)) := by
      unfold matchesEndingAt
      rw [longest_tails_filter hT, tails_filter_step hne, List.map_append, hlen1]
      split <;> rfl
    simp only [find_loop, hgo, built_failure hrep hb hT.2.1, hout, matchesFrom, emitAll_append]
    rw [← hrec, hme, emitAll_append]
    by_cases hk : longestSuffix keys (pre ++ [c]) ∈ keys
    · have hleaf : (unitAt array (nodeId array (longestSuffix keys (pre ++ [c])))).has_leaf
          = true := (hrep.leaf _ hT.2.1).2 hk
      simp only [hleaf, if_true, if_pos hk,
        find_emit_spec hrep hb max pre.length hk hTi hi64 st]
    · have hleaf : ¬ (unitAt array (nodeId array (longestSuffix keys (pre ++ [c])))).has_leaf
          = true := fun h => hk ((hrep.leaf _ hT.2.1).1 h)
      simp only [hleaf, if_false, if_neg hk, emitAll_nil, Bool.false_eq_true]

theorem find_spec {keys : List (List Nat)} {array : List DoubleArrayUnit}
    {self : DoubleArrayAhoCorasick} (hrep : Represents array keys)
    (hb : Built keys array self) (hne : [] ∉ keys) {fuel : Nat}
    (hf : max_length keys 0 < fuel) (text : List Nat) (hbytes : ∀ c ∈ text, c < 256)
    (hlen : text.length < 2 ^ 64) (results : List result_pair_type) (max : Nat) :
    find fuel self text results max
      = some (emitAll max (0, results) (allMatches keys text)) := by
  have h := find_loop_spec hrep hb hne max hf text [] (0, results) hbytes (by simpa using hlen)
  have h0 : longestSuffix keys [] = [] := (longest_eq (longest_nil keys)).symm
  rw [h0, nodeId_nil] at h
  unfold find allMatches
  rw [hb.1]
  exact h

theorem build_spec {keys : List (List Nat)} {array : List DoubleArrayUnit}
    (hrep : Represents array keys) {fuel : Nat} (hf : max_length keys 0 ≤ fuel + 1)
    (self : DoubleArrayAhoCorasick) :
    ∃ built, buildAhoCorasick fuel (0, array) keys self = some (0, built) ∧
      Built keys array built := by
  obtain ⟨D, hD, hDinv⟩ := depth_table hrep
  obtain ⟨F, hF, hFinv⟩ := failure_table hrep hf
  refine ⟨{ array := array, failure_ := some F, depth_ := some D }, ?_,
    rfl, ⟨F, rfl, hFinv⟩, ⟨D, rfl, hDinv⟩⟩
  simp only [buildAhoCorasick, ne_eq, not_true_eq_false, if_false, hD, buildFailureLinks, hF]

/-! ## Emission into the buffer -/

theorem emitAll_full (max : Nat) (rs : List result_pair_type) :
    ∀ (n : Nat) (buf : List result_pair_type), max ≤ n →
      emitAll max (n, buf) rs = (n + rs.length, buf) := by
  induction rs with
  | nil => intro n buf _; rfl
  | cons r rs ih =>
    intro n buf h
    rw [emitAll_cons]
    simp only [show ¬ n < max by omega, if_false]
    rw [ih (n + 1) buf (by omega)]
    simp only [List.length_cons]
    congr 1; omega

theorem emitAll_count (max : Nat) (rs : List result_pair_type) :
    ∀ (st : Nat × List result_pair_type), (emitAll max st rs).1 = st.1 + rs.length := by
  induction rs with
  | nil => intro st; rfl
  | cons r rs ih =>
    intro st
    rw [emitAll_cons, ih]
    simp only [List.length_cons]; omega

theorem take_set_succ {α : Type} (r : α) :
    ∀ (buf : List α) (n : Nat), n < buf.length →
      (buf.set n r).take (n + 1) = buf.take n ++ [r] := by
  intro buf
  induction buf with
  | nil => intro n h; simp at h
  | cons a buf ih =>
    intro n h
    cases n with
    | zero => simp
    | succ n =>
      simp only [List.set_cons_succ, List.take_succ_cons, List.cons_append]
      rw [ih n (by simpa using h)]

theorem drop_set_of_lt {α : Type} (r : α) :
    ∀ (buf : List α) (n m : Nat), n < m → (buf.set n r).drop m = buf.drop m := by
  intro buf
  induction buf with
  | nil => intro n m _; simp
  | cons a buf ih =>
    intro n m h
    cases m with
    | zero => omega
    | succ m =>
      cases n with
      | zero => simp
      | succ n =>
        simp only [List.set_cons_succ, List.drop_succ_cons]
        exact ih n m (by omega)

theorem emitAll_buffer (max : Nat) (rs : List result_pair_type) :
    ∀ (n : Nat) (buf : List result_pair_type), n ≤ max → max ≤ buf.length →
      (emitAll max (n, buf) rs).2
        = buf.take n ++ rs.take (max - n) ++ buf.drop (min max (n + rs.length)) := by
  induction rs with
  | nil =>
    intro n buf h1 h2
    simp [emitAll_nil, Nat.min_eq_right h1]
  | cons r rs ih =>
    intro n buf h1 h2
    rw [emitAll_cons]
    by_cases hn : n < max
    · simp only [hn, if_true]
      rw [ih (n + 1) (buf.set n r) (by omega) (by rw [List.length_set]; exact h2)]
      have hnl : n < buf.length := by omega
      have e1 : (buf.set n r).take (n + 1) = buf.take n ++ [r] := take_set_succ r buf n hnl
      have e2 : (buf.set n r).drop (min max (n + 1 + rs.length))
          = buf.drop (min max (n + 1 + rs.length)) :=
        drop_set_of_lt r buf n _ (by omega)
      have e3 : max - n = (max - (n + 1)) + 1 := by omega
      rw [e1, e2, e3, List.take_succ_cons, List.length_cons]
      simp only [List.append_assoc, List.singleton_append]
      congr 3; omega
    · have hmax : n = max := by omega
      subst hmax
      simp only [hn, if_false]
      rw [emitAll_full n rs (n + 1) buf (by omega)]
      simp [Nat.min_eq_left]

theorem find_results_spec {keys : List (List Nat)} {array : List DoubleArrayUnit}
    {self : DoubleArrayAhoCorasick} (hrep : Represents array keys)
    (hb : Built keys array self) (hne : [] ∉ keys) {fuel : Nat}
    (hf : max_length keys 0 < fuel) (text : List Nat) (hbytes : ∀ c ∈ text, c < 256)
    (hlen : text.length < 2 ^ 64) :
    find_results fuel self text = some (allMatches keys text) := by
  unfold find_results
  rw [find_spec hrep hb hne hf text hbytes hlen [] 0]
  simp only []
  rw [find_spec hrep hb hne hf text hbytes hlen]
  simp only [Option.some.injEq]
  rw [emitAll_count, emitAll_buffer _ _ 0 _ (Nat.zero_le _) (by simp)]
  simp


/-! ## The records of all occurrences -/

theorem matchesFrom_eq (keys : List (List Nat)) :
    ∀ (rest pre : List Nat), matchesFrom keys pre rest
      = (List.range rest.length).flatMap
          (fun j => matchesEndingAt keys (pre ++ rest.take (j + 1))) := by
  intro rest
  induction rest with
  | nil => intro pre; rfl
  | cons c rest ih =>
    intro pre
    rw [matchesFrom, ih, List.length_cons, List.range_succ_eq_map, List.flatMap_cons,
      List.flatMap_map]
    simp only [List.take_succ_cons, List.take_zero, List.append_assoc, List.singleton_append,
      Nat.succ_eq_add_one]

theorem allMatches_eq (keys : List (List Nat)) (text : List Nat) :
    allMatches keys text
      = (List.range text.length).flatMap (fun i => matchesEndingAt keys (text.take (i + 1))) := by
  unfold allMatches
  rw [matchesFrom_eq]
  simp

theorem mem_matchesEndingAt (keys : List (List Nat)) (X : List Nat) (r : result_pair_type) :
    r ∈ matchesEndingAt keys X ↔ ∃ k ∈ keys, k <:+ X ∧ r = matchRecord keys X.length k := by
  unfold matchesEndingAt
  simp only [List.mem_map, List.mem_filter, List.mem_tails, decide_eq_true_eq]
  constructor
  · rintro ⟨k, ⟨hs, hk⟩, rfl⟩; exact ⟨k, hk, hs, rfl⟩
  · rintro ⟨k, hk, hs, rfl⟩; exact ⟨k, ⟨hs, hk⟩, rfl⟩

theorem mem_allMatches (keys : List (List Nat)) (text : List Nat) (r : result_pair_type) :
    r ∈ allMatches keys text ↔
      ∃ i, i < text.length ∧ ∃ k ∈ keys, k <:+ text.take (i + 1) ∧
        r = matchRecord keys (i + 1) k := by
  rw [allMatches_eq]
  simp only [List.mem_flatMap, List.mem_range, mem_matchesEndingAt]
  constructor
  · rintro ⟨i, hi, k, hk, hs, rfl⟩
    refine ⟨i, hi, k, hk, hs, ?_⟩
    rw [List.length_take, Nat.min_eq_left (by omega)]
  · rintro ⟨i, hi, k, hk, hs, rfl⟩
    refine ⟨i, hi, k, hk, hs, ?_⟩
    rw [List.length_take, Nat.min_eq_left (by omega)]

theorem occurs_of_suffix_take {k text : List Nat} {i : Nat} (hi : i < text.length)
    (hs : k <:+ text.take (i + 1)) : OccursAt k text (i + 1 - k.length) := by
  obtain ⟨t, ht⟩ := hs
  have hlen : t.length + k.length = i + 1 := by
    have := congrArg List.length ht
    simp only [List.length_append, List.length_take] at this
    omega
  have htext : text = t ++ (k ++ text.drop (i + 1)) := by
    rw [← List.append_assoc, ht, List.take_append_drop]
  unfold OccursAt
  have hp : i + 1 - k.length = t.length := by omega
  rw [hp]
  conv_lhs => rw [htext]
  rw [List.drop_left, List.take_left]

theorem suffix_take_of_occurs {k text : List Nat} {p : Nat} (hk : k ≠ [])
    (h : OccursAt k text p) :
    p + k.length ≤ text.length ∧ k <:+ text.take (p + k.length) := by
  unfold OccursAt at h
  have hpos : 0 < k.length := List.length_pos.2 hk
  have hl := congrArg List.length h
  simp only [List.length_take, List.length_drop] at hl
  refine ⟨by omega, ?_⟩
  rw [List.take_add, h]
  exact List.suffix_append _ _

theorem tails_pairwise (X : List Nat) :
    X.tails.Pairwise (fun a b => b.length < a.length) := by
  induction X with
  | nil => simp
  | cons a X ih =>
    rw [List.tails_cons, List.pairwise_cons]
    refine ⟨?_, ih⟩
    intro b hb
    have := ((List.mem_tails b X).1 hb).length_le
    simp only [List.length_cons]
    omega

theorem matchesEndingAt_pairwise (keys : List (List Nat)) (X : List Nat) :
    (matchesEndingAt keys X).Pairwise EmitsBefore := by
  unfold matchesEndingAt
  rw [List.pairwise_map]
  have h := (tails_pairwise X).filter (fun S => decide (S ∈ keys))
  have hmem : ∀ a ∈ X.tails.filter (fun S => decide (S ∈ keys)), a.length ≤ X.length := by
    intro a ha
    exact ((List.mem_tails a X).1 (List.mem_filter.1 ha).1).length_le
  refine ((List.Pairwise.and_mem.1 h).imp ?_)
  rintro a b ⟨ha, hb, hab⟩
  have h1 := hmem a ha
  have h2 := hmem b hb
  right
  simp only [matchRecord]
  exact ⟨by omega, hab⟩

theorem allMatches_pairwise (keys : List (List Nat)) (text : List Nat) :
    (allMatches keys text).Pairwise EmitsBefore := by
  rw [allMatches_eq, List.pairwise_flatMap]
  refine ⟨fun i _ => matchesEndingAt_pairwise keys _, ?_⟩
  refine ((List.Pairwise.and_mem.1 (List.pairwise_lt_range text.length)).imp ?_)
  rintro i j ⟨hi, hj, hij⟩ a ha b hb
  simp only [List.mem_range] at hi hj
  obtain ⟨k1, _, hs1, rfl⟩ := (mem_matchesEndingAt keys _ a).1 ha
  obtain ⟨k2, _, hs2, rfl⟩ := (mem_matchesEndingAt keys _ b).1 hb
  have h1 := hs1.length_le
  have h2 := hs2.length_le
  simp only [List.length_take] at h1 h2
  left
  simp only [matchRecord, List.length_take]
  omega

theorem emitsBefore_ne {a b : result_pair_type} (h : EmitsBefore a b) : a ≠ b := by
  rintro rfl
  rcases h with h | ⟨_, h⟩ <;> omega

theorem allMatches_nodup (keys : List (List Nat)) (text : List Nat) :
    (allMatches keys text).Nodup :=
  (allMatches_pairwise keys text).imp emitsBefore_ne


/-! ## The build status, for an arbitrary array -/

theorem walk_take_of_walk {array : List DoubleArrayUnit} {k : List Nat} {m : Nat}
    (h : walk array 0 k = some m) (j : Nat) : ∃ n, walk array 0 (k.take j) = some n := by
  have h1 : walk array 0 (k.take j ++ k.drop j) = some m := by
    rw [List.take_append_drop]; exact h
  rw [walk_append] at h1
  cases hw : walk array 0 (k.take j) with
  | none => rw [hw] at h1; cases h1
  | some n => exact ⟨n, rfl⟩

theorem replays_of_initial {array : List DoubleArrayUnit} {k P : List Nat}
    (hk : Replays array k) (hp : P <+: k) : Replays array P := by
  obtain ⟨m, hm⟩ := (replays_iff_walk array k).1 hk
  rw [List.prefix_iff_eq_take.1 hp]
  exact (replays_iff_walk array _).2 (walk_take_of_walk hm _)

theorem walk_one {array : List DoubleArrayUnit} {k : List Nat} {j n : Nat}
    (hj : j < k.length) (hn : walk array 0 (k.take j) = some n) :
    walk array 0 (k.take (j + 1)) = walk array n (((k.drop j)).take (j + 1 - j)) := by
  have h1 : (k.drop j).take (j + 1 - j) = [k.getD j 0] := by
    rw [List.drop_eq_getElem_cons hj, List.getD_eq_getElem _ _ hj, Nat.add_sub_cancel_left]
    rfl
  rw [h1, take_succ_concat k j hj, walk_append, hn]
  rfl

theorem depth_key_some_iff (array : List DoubleArrayUnit) (k : List Nat) :
    ∀ (n j node : Nat) (buf : List Nat), j + n = k.length →
      walk array 0 (k.take j) = some node →
      ((∃ buf1, depth_key array k n j node buf = some buf1) ↔ Replays array k) := by
  intro n
  induction n with
  | zero =>
    intro j node buf hj hw
    have : k.take j = k := List.take_of_length_le (by omega)
    rw [this] at hw
    exact ⟨fun _ => (replays_iff_walk array k).2 ⟨node, hw⟩, fun _ => ⟨buf, rfl⟩⟩
  | succ n ih =>
    intro j node buf hj hw
    have hjl : j < k.length := by omega
    have hw1 := walk_one hjl hw
    cases hs : walk array node ((k.drop j).take (j + 1 - j)) with
    | none =>
      have t1 := traverse_miss array k node j (j + 1) (by omega) (by omega) hs
      rw [hs] at hw1
      constructor
      · rintro ⟨buf1, hb⟩
        simp [depth_key, t1] at hb
      · intro hr
        obtain ⟨m, hm⟩ := (replays_iff_walk array k).1 hr
        obtain ⟨n1, hn1⟩ := walk_take_of_walk hm (j + 1)
        rw [hn1] at hw1; cases hw1
    | some m =>
      obtain ⟨t1, t2, _⟩ := traverse_hit array k node j (j + 1) m (by omega) (by omega) hs
      rw [hs] at hw1
      have := ih (j + 1) m (buf.set m ((j + 1) % 2 ^ 32)) (by omega) hw1
      simp only [depth_key, t1, if_false, t2]
      exact this

theorem depth_keys_some_iff (array : List DoubleArrayUnit) :
    ∀ (ks : List (List Nat)) (buf : List Nat),
      (∃ buf1, depth_keys array ks buf = some buf1) ↔ ∀ k ∈ ks, Replays array k := by
  intro ks
  induction ks with
  | nil => intro buf; simp [depth_keys]
  | cons k ks ih =>
    intro buf
    have hk := depth_key_some_iff array k k.length 0 0 buf (by omega) (by simp [walk])
    simp only [depth_keys, List.mem_cons, forall_eq_or_imp]
    cases hd : depth_key array k k.length 0 0 buf with
    | none =>
      rw [hd] at hk
      have hnr : ¬ Replays array k := fun hr => by
        obtain ⟨b, hb⟩ := hk.2 hr
        cases hb
      simp [hnr]
    | some buf1 =>
      rw [hd] at hk
      have hr : Replays array k := hk.1 ⟨buf1, rfl⟩
      simp only [hr, true_and]
      exact ih buf1

theorem failure_keys_no_miss (fuel : Nat) (array : List DoubleArrayUnit) (i : Nat) :
    ∀ (ks : List (List Nat)) (buf : List Nat), (∀ k ∈ ks, Replays array k) →
      failure_keys fuel array i ks buf ≠ some none := by
  intro ks
  induction ks with
  | nil => intro buf _; simp [failure_keys]
  | cons k ks ih =>
    intro buf hks
    have hk : Replays array k := hks k (by simp)
    have hks1 : ∀ k1 ∈ ks, Replays array k1 := fun k1 h1 => hks k1 (by simp [h1])
    obtain ⟨m, hm⟩ := (replays_iff_walk array k).1 hk
    rw [failure_keys]
    by_cases hlen : k.length ≤ i
    · simp only [hlen, if_true]; exact ih buf hks1
    · have hi : i < k.length := by omega
      obtain ⟨n, hn⟩ := walk_take_of_walk hm i
      obtain ⟨n1, hn1⟩ := walk_take_of_walk hm (i + 1)
      have hp : ¬ (i ≠ 0 ∧ (if i ≠ 0 then traverse array k 0 0 i else (0, 0, 0)).1 = -2) ∧
          (if i ≠ 0 then traverse array k 0 0 i else ((0 : Int), 0, 0)).2.1 = n ∧
          (if i ≠ 0 then traverse array k 0 0 i else ((0 : Int), 0, 0)).2.2 = i := by
        by_cases h0 : i = 0
        · subst h0
          simp only [List.take_zero, walk, Option.some.injEq] at hn
          simp [hn]
        · obtain ⟨t1, t2, t3⟩ := traverse_hit array k 0 0 i n (by omega) (le_of_lt hi)
            (by simpa using hn)
          simp only [ne_eq, h0, not_false_eq_true, if_true, true_and]
          exact ⟨t1, t2, t3⟩
      obtain ⟨p1, p2, p3⟩ := hp
      have hw1 := walk_one hi hn
      rw [hn1] at hw1
      obtain ⟨r1, _, _⟩ := traverse_hit array k n i (i + 1) n1 (by omega) (by omega) hw1.symm
      simp only [hlen, if_false, p1, p2, p3, r1]
      split
      · exact ih buf hks1
      · split
        · simp
        · exact ih _ hks1

theorem failure_levels_no_miss (fuel : Nat) (array : List DoubleArrayUnit)
    (keys : List (List Nat)) (hks : ∀ k ∈ keys, Replays array k) :
    ∀ (n i : Nat) (buf : List Nat), failure_levels fuel array keys n i buf ≠ some none := by
  intro n
  induction n with
  | zero => intro i buf; simp [failure_levels]
  | succ n ih =>
    intro i buf
    rw [failure_levels]
    have := failure_keys_no_miss fuel array i keys buf hks
    cases hfk : failure_keys fuel array i keys buf with
    | none => simp
    | some o =>
      cases o with
      | none => exact absurd hfk this
      | some buf1 => exact ih (i + 1) buf1

theorem build_cases (fuel : Nat) (trie : Int × List DoubleArrayUnit)
    (keys : List (List Nat)) (self : DoubleArrayAhoCorasick) :
    (trie.1 ≠ 0 →
      buildAhoCorasick fuel trie keys self = some (trie.1, { self with array := trie.2 })) ∧
    (trie.1 = 0 → ¬ (∀ k ∈ keys, Replays trie.2 k) →
      buildAhoCorasick fuel trie keys self = some (-1, { self with array := trie.2 })) ∧
    (trie.1 = 0 → (∀ k ∈ keys, Replays trie.2 k) →
      ∀ st built, buildAhoCorasick fuel trie keys self = some (st, built) → st = 0) := by
  refine ⟨?_, ?_, ?_⟩
  · intro h
    simp [buildAhoCorasick, h]
  · intro h0 hr
    have := (depth_keys_some_iff trie.2 keys (List.replicate trie.2.length 0)).not.2 hr
    cases hd : depth_keys trie.2 keys (List.replicate trie.2.length 0) with
    | none => simp [buildAhoCorasick, h0, hd]
    | some buf => exact absurd ⟨buf, hd⟩ this
  · intro h0 hr st built hb
    obtain ⟨D, hD⟩ := (depth_keys_some_iff trie.2 keys (List.replicate trie.2.length 0)).2 hr
    simp only [buildAhoCorasick, h0, ne_eq, not_true_eq_false, if_false, hD,
      buildFailureLinks] at hb
    have hnm := failure_levels_no_miss fuel trie.2 keys hr (max_length keys 0) 0
      (List.replicate trie.2.length 0)
    cases hfl : failure_levels fuel trie.2 keys (max_length keys 0) 0
        (List.replicate trie.2.length 0) with
    | none => rw [hfl] at hb; cases hb
    | some o =>
      cases o with
      | none => exact absurd hfl hnm
      | some F =>
        rw [hfl] at hb
        simp only [Option.some.injEq, Prod.mk.injEq] at hb
        exact hb.1.symm


/-! ## Checking a concrete trie -/

theorem withNat_eq {α : Type} (n : Nat) (f : Nat → α) : withNat n f = f n := by
  cases n <;> rfl

theorem represents_of_table (array : List DoubleArrayUnit) (keys : List (List Nat))
    (table : List (List Nat × Nat)) (h : representsBy array keys table = true) :
    Represents array keys := by
  unfold representsBy at h
  simp only [withNat_eq, Bool.and_eq_true, decide_eq_true_eq, List.all_eq_true,
    Bool.or_eq_true, Bool.not_eq_true', decide_eq_false_iff_not, List.mem_range] at h
  obtain ⟨⟨⟨⟨h1, h2⟩, h3⟩, h4⟩, h5⟩ := h
  have hent : ∀ P ∈ prefixes keys, ∃ n, (P, n) ∈ table ∧ nodeId array P = n := by
    intro P hP
    obtain ⟨e, he, rfl⟩ := List.mem_map.1 (h3 P hP)
    exact ⟨e.2, he, walk_nodeId array e.1 e.2 (h5 e he).1.1.2⟩
  refine ⟨h1, h2, ?_, ?_, ?_, ?_, ?_, ?_⟩
  · intro P hP
    obtain ⟨n, he, _⟩ := hent P hP
    exact (replays_iff_walk array P).2 ⟨n, (h5 _ he).1.1.2⟩
  · intro P hP Q hQ hPQ
    obtain ⟨n, he, hn⟩ := hent P hP
    obtain ⟨n1, he1, hn1⟩ := hent Q hQ
    have : (P, n) = (Q, n1) :=
      List.inj_on_of_nodup_map h4 he he1 (by simp only; rw [← hn, ← hn1, hPQ])
    exact (Prod.mk.inj this).1
  · intro P hP c hc hl
    obtain ⟨n, he, hn⟩ := hent P hP
    rw [hn] at hl
    have hb := (h5 _ he).2.1.1 c hc
    have hmem : (n ^^^ (unitAt array n).offset ^^^ c,
        unitAt array (n ^^^ (unitAt array n).offset ^^^ c)) ∈ array.enum := by
      rw [List.mk_mem_enum_iff_getElem?]
      have hb1 : n ^^^ (unitAt array n).offset ^^^ c < array.length := hb
      generalize n ^^^ (unitAt array n).offset ^^^ c = m at hb1
      simp only [unitAt, List.getD_eq_getElem?_getD, List.getElem?_eq_getElem hb1,
        Option.getD_some]
    have := (h5 _ he).2.1.2 _ hmem
    rcases this with h | h
    · rw [hl] at h
      simp only [Bool.and_eq_false_imp, decide_eq_true_eq, decide_eq_false_iff_not] at h
      exact absurd trivial (h hc)
    · rw [hl] at h; exact h
  · intro P hP c hc
    obtain ⟨n, he, hn⟩ := hent P hP
    rw [hn]
    exact (h5 _ he).2.1.1 c hc
  · intro P hP
    obtain ⟨n, he, hn⟩ := hent P hP
    rw [hn]
    exact (h5 _ he).1.2
  · intro k hk
    obtain ⟨n, he, hn⟩ := hent k (key_mem_prefixes keys k hk)
    rw [hn]
    rcases (h5 _ he).2.2 with h | h
    · exact absurd hk h
    · exact h


/-! ## The test suite -/

theorem find_works_fine_represents :
    Represents find_works_fine_array find_works_fine_keys :=
  represents_of_table _ _ find_works_fine_nodes (by decide!)

theorem find_single_char_represents : Represents find_single_char_array [[83]] :=
  represents_of_table _ _ find_single_char_nodes (by decide!)

theorem find_test_k_represents : Represents find_test_k_array find_test_k_keys :=
  represents_of_table _ _ find_test_k_nodes (by decide!)

theorem build_without_failure_represents :
    Represents build_without_failure_array build_without_failure_keys :=
  represents_of_table _ _ build_without_failure_nodes (by decide!)

/-- The test `build_without_failure`: the keys `a`, `ab`, `abc`, `abcd`, `abcde` build
with status 0. -/
theorem build_without_failure :
    (buildAhoCorasick 6 (0, build_without_failure_array) build_without_failure_keys fresh).map
      Prod.fst = some 0 := by decide!

/-- The test `find_works_fine`: the six records of `ababdd`, in order. -/
theorem find_works_fine :
    (buildAhoCorasick 4 (0, find_works_fine_array) find_works_fine_keys fresh).bind
        (fun r => find_results 4 r.2 [97, 98, 97, 98, 100, 100])
      = some [⟨0, 2, 0⟩, ⟨1, 3, 1⟩, ⟨0, 2, 2⟩, ⟨3, 1, 4⟩, ⟨5, 2, 4⟩, ⟨3, 1, 5⟩] := by decide!

/-- The test `find_single_char`: the three records of `SSS`. -/
theorem find_single_char :
    (buildAhoCorasick 2 (0, find_single_char_array) [[83]] fresh).bind
        (fun r => find_results 2 r.2 [83, 83, 83])
      = some [⟨0, 1, 0⟩, ⟨0, 1, 1⟩, ⟨0, 1, 2⟩] := by decide!

/-- The test `find_test_k`: lengths and positions are counted in bytes. -/
theorem find_test_k :
    (buildAhoCorasick 10 (0, find_test_k_array) find_test_k_keys fresh).bind
        (fun r => find_results 10 r.2
          [236, 149, 136, 235, 133, 149, 237, 149, 152, 236, 132, 184, 236, 154, 148])
      = some [⟨0, 6, 0⟩, ⟨2, 9, 6⟩, ⟨1, 3, 12⟩] := by decide!


/-! ## Main theorems -/

theorem proper_suffix_iff {P S : List Nat} (hP : P ≠ []) :
    S <:+ P.tail ↔ S <:+ P ∧ S.length < P.length := by
  cases P with
  | nil => exact absurd rfl hP
  | cons a P =>
    simp only [List.tail_cons, List.length_cons]
    constructor
    · intro h
      exact ⟨h.trans (List.suffix_cons a P), Nat.lt_succ_of_le h.length_le⟩
    · rintro ⟨h, hl⟩
      rcases List.suffix_cons_iff.1 h with he | he
      · subst he; simp at hl
      · exact he

theorem occurs_substring {k text : List Nat} {p : Nat} (h : OccursAt k text p) : k <:+: text := by
  unfold OccursAt at h
  refine ⟨text.take p, (text.drop p).drop k.length, ?_⟩
  have h1 : text.take p ++ ((text.drop p).take k.length ++ (text.drop p).drop k.length)
      = text := by
    rw [List.take_append_drop, List.take_append_drop]
  rw [h] at h1
  rw [List.append_assoc]; exact h1

theorem allMatches_sound {keys : List (List Nat)} {text : List Nat} {r : result_pair_type}
    (h : r ∈ allMatches keys text) :
    ∃ k ∈ keys, r.length = k.length ∧ OccursAt k text r.position ∧
      r.value = keys.indexOf k := by
  obtain ⟨i, hi, k, hk, hs, rfl⟩ := (mem_allMatches keys text r).1 h
  exact ⟨k, hk, rfl, occurs_of_suffix_take hi hs, rfl⟩

theorem allMatches_complete {keys : List (List Nat)} (hne : [] ∉ keys) {text k : List Nat}
    (hk : k ∈ keys) {p : Nat} (h : OccursAt k text p) :
    (⟨keys.indexOf k, k.length, p⟩ : result_pair_type) ∈ allMatches keys text := by
  have hkn : k ≠ [] := fun e => hne (e ▸ hk)
  have hpos : 0 < k.length := List.length_pos.2 hkn
  obtain ⟨hle, hs⟩ := suffix_take_of_occurs hkn h
  refine (mem_allMatches keys text _).2 ⟨p + k.length - 1, by omega, k, hk, ?_, ?_⟩
  · rw [show p + k.length - 1 + 1 = p + k.length by omega]; exact hs
  · simp only [matchRecord, result_pair_type.mk.injEq, true_and]
    omega

/-- C1. Completeness without duplicates: for a trie that represents the non-empty keys
`keys`, `buildAhoCorasick` succeeds, and for every text the untruncated result sequence
of `find` holds, for every key `k` and every byte offset `p` at which `k` occurs in the
text, the record `{index of k, |k|, p}` exactly once. -/
theorem find_complete (array : List DoubleArrayUnit) (keys : List (List Nat))
    (hrep : Represents array keys) (hne : [] ∉ keys) (fuel : Nat)
    (hfuel : max_length keys 0 < fuel) (self : DoubleArrayAhoCorasick) (text : List Nat)
    (hbytes : ∀ c ∈ text, c < 256) (hlen : text.length < 2 ^ 64) :
    ∃ built results, buildAhoCorasick fuel (0, array) keys self = some (0, built) ∧
      find_results fuel built text = some results ∧
      ∀ k ∈ keys, ∀ p, OccursAt k text p →
        results.count ⟨keys.indexOf k, k.length, p⟩ = 1 := by
  obtain ⟨built, hb, hB⟩ := build_spec hrep (Nat.le_succ_of_le (Nat.le_of_lt hfuel)) self
  refine ⟨built, allMatches keys text, hb,
    find_results_spec hrep hB hne hfuel text hbytes hlen, ?_⟩
  intro k hk p hocc
  exact List.count_eq_one_of_mem (allMatches_nodup keys text) (allMatches_complete hne hk hocc)

theorem find_complete_witness :
    Represents find_works_fine_array find_works_fine_keys ∧ [] ∉ find_works_fine_keys ∧
    max_length find_works_fine_keys 0 < 4 ∧
    ∃ built results,
      buildAhoCorasick 4 (0, find_works_fine_array) find_works_fine_keys fresh
        = some (0, built) ∧
      find_results 4 built [97, 98, 97, 98, 100, 100] = some results ∧
      ∀ k ∈ find_works_fine_keys, ∀ p, OccursAt k [97, 98, 97, 98, 100, 100] p →
        results.count ⟨find_works_fine_keys.indexOf k, k.length, p⟩ = 1 :=
  ⟨find_works_fine_represents, by decide, by decide,
    find_complete find_works_fine_array find_works_fine_keys find_works_fine_represents
      (by decide) 4 (by decide) fresh [97, 98, 97, 98, 100, 100] (by decide) (by decide)⟩

/-- C2. Soundness: for a trie that represents the non-empty keys `keys`, every record
of the result sequence of `find` denotes a real occurrence: some key `k` has the
record's length in bytes, occurs in the text at the record's byte position, and the
record's value is the index of `k` in the key list. -/
theorem find_sound (array : List DoubleArrayUnit) (keys : List (List Nat))
    (hrep : Represents array keys) (hne : [] ∉ keys) (fuel : Nat)
    (hfuel : max_length keys 0 < fuel) (self : DoubleArrayAhoCorasick) (text : List Nat)
    (hbytes : ∀ c ∈ text, c < 256) (hlen : text.length < 2 ^ 64) :
    ∃ built results, buildAhoCorasick fuel (0, array) keys self = some (0, built) ∧
      find_results fuel built text = some results ∧
      ∀ r ∈ results, ∃ k ∈ keys, r.length = k.length ∧
        (text.drop r.position).take r.length = k ∧ r.value = keys.indexOf k := by
  obtain ⟨built, hb, hB⟩ := build_spec hrep (Nat.le_succ_of_le (Nat.le_of_lt hfuel)) self
  refine ⟨built, allMatches keys text, hb,
    find_results_spec hrep hB hne hfuel text hbytes hlen, ?_⟩
  intro r hr
  obtain ⟨k, hk, h1, h2, h3⟩ := allMatches_sound hr
  refine ⟨k, hk, h1, ?_, h3⟩
  rw [h1]; exact h2

theorem find_sound_witness :
    Represents find_test_k_array find_test_k_keys ∧ [] ∉ find_test_k_keys ∧
    max_length find_test_k_keys 0 < 10 ∧
    ∃ built results,
      buildAhoCorasick 10 (0, find_test_k_array) find_test_k_keys fresh = some (0, built) ∧
      find_results 10 built
          [236, 149, 136, 235, 133, 149, 237, 149, 152, 236, 132, 184, 236, 154, 148]
        = some results ∧
      ∀ r ∈ results, ∃ k ∈ find_test_k_keys, r.length = k.length ∧
        (List.drop r.position
            [236, 149, 136, 235, 133, 149, 237, 149, 152, 236, 132, 184, 236, 154, 148]).take
          r.length = k ∧ r.value = find_test_k_keys.indexOf k :=
  ⟨find_test_k_represents, by decide, by decide,
    find_sound find_test_k_array find_test_k_keys find_test_k_represents (by decide) 10
      (by decide) fresh
      [236, 149, 136, 235, 133, 149, 237, 149, 152, 236, 132, 184, 236, 154, 148]
      (by decide) (by decide)⟩

/-- C3. Emission order: for a trie that represents the non-empty keys `keys`, any two
records of the result sequence of `find` stand in emission order: the earlier one ends
at a smaller offset `position + length`, or both end at the same offset and the earlier
one is strictly longer. -/
theorem find_order (array : List DoubleArrayUnit) (keys : List (List Nat))
    (hrep : Represents array keys) (hne : [] ∉ keys) (fuel : Nat)
    (hfuel : max_length keys 0 < fuel) (self : DoubleArrayAhoCorasick) (text : List Nat)
    (hbytes : ∀ c ∈ text, c < 256) (hlen : text.length < 2 ^ 64) :
    ∃ built results, buildAhoCorasick fuel (0, array) keys self = some (0, built) ∧
      find_results fuel built text = some results ∧
      results.Pairwise (fun a b =>
        a.position + a.length < b.position + b.length ∨
          (a.position + a.length = b.position + b.length ∧ b.length < a.length)) := by
  obtain ⟨built, hb, hB⟩ := build_spec hrep (Nat.le_succ_of_le (Nat.le_of_lt hfuel)) self
  exact ⟨built, allMatches keys text, hb,
    find_results_spec hrep hB hne hfuel text hbytes hlen, allMatches_pairwise keys text⟩

theorem find_order_witness :
    Represents find_works_fine_array find_works_fine_keys ∧ [] ∉ find_works_fine_keys ∧
    max_length find_works_fine_keys 0 < 4 ∧
    ∃ built results,
      buildAhoCorasick 4 (0, find_works_fine_array) find_works_fine_keys fresh
        = some (0, built) ∧
      find_results 4 built [97, 98, 97, 98, 100, 100] = some results ∧
      results.Pairwise (fun a b =>
        a.position + a.length < b.position + b.length ∨
          (a.position + a.length = b.position + b.length ∧ b.length < a.length)) :=
  ⟨find_works_fine_represents, by decide, by decide,
    find_order find_works_fine_array find_works_fine_keys find_works_fine_represents
      (by decide) 4 (by decide) fresh [97, 98, 97, 98, 100, 100] (by decide) (by decide)⟩

/-- C4. Truncation: for a trie that represents the non-empty keys `keys`, a text and a
buffer with at least `c` slots, `find` with capacity `c` returns the length of the
untruncated result sequence, whatever `c` is; the first `min c total` slots of the buffer
receive the first records of that sequence, in order, every other slot keeps its content
and the buffer keeps its size; with capacity 0 the buffer is returned as it was. -/
theorem find_truncation (array : List DoubleArrayUnit) (keys : List (List Nat))
    (hrep : Represents array keys) (hne : [] ∉ keys) (fuel : Nat)
    (hfuel : max_length keys 0 < fuel) (self : DoubleArrayAhoCorasick) (text : List Nat)
    (hbytes : ∀ c ∈ text, c < 256) (hlen : text.length < 2 ^ 64)
    (buffer : List result_pair_type) (c : Nat) (hc : c ≤ buffer.length) :
    ∃ built results written,
      buildAhoCorasick fuel (0, array) keys self = some (0, built) ∧
      find_results fuel built text = some results ∧
      find fuel built text buffer c = some (results.length, written) ∧
      written.take (min c results.length) = results.take (min c results.length) ∧
      (∀ j, min c results.length ≤ j → written[j]? = buffer[j]?) ∧
      written.length = buffer.length ∧
      find fuel built text buffer 0 = some (results.length, buffer) := by
  obtain ⟨built, hb, hB⟩ := build_spec hrep (Nat.le_succ_of_le (Nat.le_of_lt hfuel)) self
  have hfind := fun buf m => find_spec hrep hB hne hfuel text hbytes hlen buf m
  have hw : (emitAll c (0, buffer) (allMatches keys text)).2
      = (allMatches keys text).take c ++ buffer.drop (min c (allMatches keys text).length) := by
    rw [emitAll_buffer c _ 0 buffer (Nat.zero_le _) hc]
    simp
  have htl : ((allMatches keys text).take c).length = min c (allMatches keys text).length :=
    List.length_take _ _
  refine ⟨built, allMatches keys text, (emitAll c (0, buffer) (allMatches keys text)).2, hb,
    find_results_spec hrep hB hne hfuel text hbytes hlen, ?_, ?_, ?_, ?_, ?_⟩
  · rw [hfind]
    congr 1
    ext1
    · rw [emitAll_count]; simp
    · rfl
  · rw [hw, List.take_left' htl]
    rcases le_total c (allMatches keys text).length with h | h
    · rw [Nat.min_eq_left h]
    · rw [Nat.min_eq_right h, List.take_of_length_le h, List.take_of_length_le (le_refl _)]
  · intro j hj
    rw [hw, List.getElem?_append_right (by rw [htl]; exact hj), htl, List.getElem?_drop]
    congr 1; omega
  · rw [hw, List.length_append, htl, List.length_drop]
    have : min c (allMatches keys text).length ≤ buffer.length :=
      le_trans (Nat.min_le_left _ _) hc
    omega
  · rw [hfind]
    congr 1
    ext1
    · rw [emitAll_count]; simp
    · rw [emitAll_full 0 _ 0 buffer (le_refl _)]

theorem find_truncation_witness :
    Represents find_works_fine_array find_works_fine_keys ∧ [] ∉ find_works_fine_keys ∧
    max_length find_works_fine_keys 0 < 4 ∧
    ∃ built results written,
      buildAhoCorasick 4 (0, find_works_fine_array) find_works_fine_keys fresh
        = some (0, built) ∧
      find_results 4 built [97, 98, 97, 98, 100, 100] = some results ∧
      find 4 built [97, 98, 97, 98, 100, 100] (List.replicate 4 ⟨9, 9, 9⟩) 3
        = some (results.length, written) ∧
      written.take (min 3 results.length) = results.take (min 3 results.length) ∧
      (∀ j, min 3 results.length ≤ j →
        written[j]? = (List.replicate 4 (⟨9, 9, 9⟩ : result_pair_type))[j]?) ∧
      written.length = (List.replicate 4 (⟨9, 9, 9⟩ : result_pair_type)).length ∧
      find 4 built [97, 98, 97, 98, 100, 100] (List.replicate 4 ⟨9, 9, 9⟩) 0
        = some (results.length, List.replicate 4 ⟨9, 9, 9⟩) :=
  ⟨find_works_fine_represents, by decide, by decide,
    find_truncation find_works_fine_array find_works_fine_keys find_works_fine_represents
      (by decide) 4 (by decide) fresh [97, 98, 97, 98, 100, 100] (by decide) (by decide)
      (List.replicate 4 ⟨9, 9, 9⟩) 3 (by decide)⟩


/-- C5. Failure-link correctness: for a trie that represents `keys`, `buildAhoCorasick`
succeeds and installs a failure table in which, for every non-empty prefix `P` of a key,
the cell of the node of `P` names the node of `S`, the longest proper suffix of `P` that
is a prefix of some key (`S` is empty, the root, when no other suffix qualifies). -/
theorem failure_links_correct (array : List DoubleArrayUnit) (keys : List (List Nat))
    (hrep : Represents array keys) (fuel : Nat) (hfuel : max_length keys 0 < fuel)
    (self : DoubleArrayAhoCorasick) :
    ∃ built F, buildAhoCorasick fuel (0, array) keys self = some (0, built) ∧
      built.failure_ = some F ∧
      ∀ P ∈ prefixes keys, P ≠ [] →
        ∃ S, S <:+ P ∧ S.length < P.length ∧ S ∈ prefixes keys ∧
          (∀ S1, S1 <:+ P → S1.length < P.length → S1 ∈ prefixes keys →
            S1.length ≤ S.length) ∧
          F.getD (nodeId array P) 0 = nodeId array S := by
  obtain ⟨built, hb, _, ⟨F, hF, hinv⟩, _⟩ :=
    build_spec hrep (Nat.le_succ_of_le (Nat.le_of_lt hfuel)) self
  refine ⟨built, F, hb, hF, ?_⟩
  intro P hP hne
  have hL := longestSuffix_spec keys P.tail
  have hs := (proper_suffix_iff hne).1 hL.1
  refine ⟨longestSuffix keys P.tail, hs.1, hs.2, hL.2.1, ?_, hinv.2.1 P ⟨hP, hne⟩⟩
  intro S1 h1 h2 h3
  exact hL.2.2 S1 ((proper_suffix_iff hne).2 ⟨h1, h2⟩) h3

theorem failure_links_correct_witness :
    Represents find_works_fine_array find_works_fine_keys ∧
    max_length find_works_fine_keys 0 < 4 ∧
    ∃ built F,
      buildAhoCorasick 4 (0, find_works_fine_array) find_works_fine_keys fresh
        = some (0, built) ∧
      built.failure_ = some F ∧
      ∀ P ∈ prefixes find_works_fine_keys, P ≠ [] →
        ∃ S, S <:+ P ∧ S.length < P.length ∧ S ∈ prefixes find_works_fine_keys ∧
          (∀ S1, S1 <:+ P → S1.length < P.length → S1 ∈ prefixes find_works_fine_keys →
            S1.length ≤ S.length) ∧
          F.getD (nodeId find_works_fine_array P) 0 = nodeId find_works_fine_array S :=
  ⟨find_works_fine_represents, by decide,
    failure_links_correct find_works_fine_array find_works_fine_keys
      find_works_fine_represents 4 (by decide) fresh⟩

/-- C6. Failure-table invariant: for a trie that represents `keys`, after the successful
`buildAhoCorasick` the failure link of the root is the root, and for every node other
than the root that is reached by replaying a prefix of a key, the depth of its failure
node is strictly smaller than its own depth. -/
theorem failure_depth_decreases (array : List DoubleArrayUnit) (keys : List (List Nat))
    (hrep : Represents array keys) (fuel : Nat) (hfuel : max_length keys 0 < fuel)
    (self : DoubleArrayAhoCorasick) :
    ∃ built F D, buildAhoCorasick fuel (0, array) keys self = some (0, built) ∧
      built.failure_ = some F ∧ built.depth_ = some D ∧
      F.getD 0 0 = 0 ∧
      ∀ P ∈ prefixes keys, nodeId array P ≠ 0 →
        D.getD (F.getD (nodeId array P) 0) 0 < D.getD (nodeId array P) 0 := by
  obtain ⟨built, hb, hB⟩ := build_spec hrep (Nat.le_succ_of_le (Nat.le_of_lt hfuel)) self
  obtain ⟨_, ⟨F, hF, _⟩, ⟨D, hD, _⟩⟩ := id hB
  have hfail := fun P hP => built_failure hrep hB (P := P) hP
  have hdepth := fun P hP => built_depth hrep hB (P := P) hP
  simp only [tableAt, hF, hD, Option.getD_some] at hfail hdepth
  refine ⟨built, F, D, hb, hF, hD, ?_, ?_⟩
  · have := hfail [] (nil_mem_prefixes keys)
    have h0 : longestSuffix keys ([] : List Nat).tail = [] :=
      (longest_eq (longest_nil keys)).symm
    rw [h0, nodeId_nil] at this
    exact this
  · intro P hP hn0
    have hne : P ≠ [] := fun e => hn0 ((rep_root_iff hrep hP).2 e)
    have hL := longestSuffix_spec keys P.tail
    rw [hfail P hP, hdepth P hP, hdepth _ hL.2.1]
    exact longest_tail_length_lt hL hne

theorem failure_depth_decreases_witness :
    Represents build_without_failure_array build_without_failure_keys ∧
    max_length build_without_failure_keys 0 < 6 ∧
    ∃ built F D,
      buildAhoCorasick 6 (0, build_without_failure_array) build_without_failure_keys fresh
        = some (0, built) ∧
      built.failure_ = some F ∧ built.depth_ = some D ∧
      F.getD 0 0 = 0 ∧
      ∀ P ∈ prefixes build_without_failure_keys, nodeId build_without_failure_array P ≠ 0 →
        D.getD (F.getD (nodeId build_without_failure_array P) 0) 0
          < D.getD (nodeId build_without_failure_array P) 0 :=
  ⟨build_without_failure_represents, by decide,
    failure_depth_decreases build_without_failure_array build_without_failure_keys
      build_without_failure_represents 6 (by decide) fresh⟩

/-- C7. Depth-table correctness: for a trie that represents `keys`, after the successful
`buildAhoCorasick` the depth table has one cell per array cell, the cell of the node of
every non-empty key prefix `P` holds the number of bytes of `P` (whichever key reaches
it), and the cell of the root and of every id that no key prefix reaches holds 0. -/
theorem depth_table_correct (array : List DoubleArrayUnit) (keys : List (List Nat))
    (hrep : Represents array keys) (fuel : Nat) (hfuel : max_length keys 0 < fuel)
    (self : DoubleArrayAhoCorasick) :
    ∃ built D, buildAhoCorasick fuel (0, array) keys self = some (0, built) ∧
      built.depth_ = some D ∧ D.length = array.length ∧
      (∀ P ∈ prefixes keys, P ≠ [] → D.getD (nodeId array P) 0 = P.length) ∧
      D.getD 0 0 = 0 ∧
      (∀ id, (∀ P ∈ prefixes keys, nodeId array P ≠ id) → D.getD id 0 = 0) := by
  obtain ⟨built, hb, _, _, ⟨D, hD, hinv⟩⟩ :=
    build_spec hrep (Nat.le_succ_of_le (Nat.le_of_lt hfuel)) self
  refine ⟨built, D, hb, hD, hinv.1, fun P hP hne => hinv.2.1 P ⟨hP, hne⟩, ?_, ?_⟩
  · exact hinv.2.2 0 (fun P hP => rep_ne_root hrep hP.1 hP.2)
  · intro id hid
    exact hinv.2.2 id (fun P hP => hid P hP.1)

theorem depth_table_correct_witness :
    Represents find_test_k_array find_test_k_keys ∧
    max_length find_test_k_keys 0 < 10 ∧
    ∃ built D,
      buildAhoCorasick 10 (0, find_test_k_array) find_test_k_keys fresh = some (0, built) ∧
      built.depth_ = some D ∧ D.length = find_test_k_array.length ∧
      (∀ P ∈ prefixes find_test_k_keys, P ≠ [] →
        D.getD (nodeId find_test_k_array P) 0 = P.length) ∧
      D.getD 0 0 = 0 ∧
      (∀ id, (∀ P ∈ prefixes find_test_k_keys, nodeId find_test_k_array P ≠ id) →
        D.getD id 0 = 0) :=
  ⟨find_test_k_represents, by decide,
    depth_table_correct find_test_k_array find_test_k_keys find_test_k_represents 10
      (by decide) fresh⟩

/-- C8. Build status: whenever `buildAhoCorasick` returns, its status is 0 if and only
if the Trie build succeeded and every prefix of every key replays through `traverse`
without a "no such edge" outcome; a failed Trie build returns its own status, a replay
miss returns `-1`, and both always return; for a trie that represents `keys` and fuel
beyond the longest key the call returns 0. -/
theorem build_status (fuel : Nat) (trie : Int × List DoubleArrayUnit)
    (keys : List (List Nat)) (self : DoubleArrayAhoCorasick) :
    (∀ st built, buildAhoCorasick fuel trie keys self = some (st, built) →
      (st = 0 ↔ (trie.1 = 0 ∧ ∀ k ∈ keys, ∀ P, P <+: k → Replays trie.2 P))) ∧
    (trie.1 ≠ 0 → ∃ built, buildAhoCorasick fuel trie keys self = some (trie.1, built)) ∧
    (trie.1 = 0 → (∃ k ∈ keys, ∃ P, P <+: k ∧ ¬ Replays trie.2 P) →
      ∃ built, buildAhoCorasick fuel trie keys self = some (-1, built)) ∧
    (trie.1 = 0 → Represents trie.2 keys → max_length keys 0 < fuel →
      ∃ built, buildAhoCorasick fuel trie keys self = some (0, built)) := by
  obtain ⟨c1, c2, c3⟩ := build_cases fuel trie keys self
  have hall : (∀ k ∈ keys, ∀ P, P <+: k → Replays trie.2 P) ↔ ∀ k ∈ keys, Replays trie.2 k :=
    ⟨fun h k hk => h k hk k (List.prefix_refl k),
      fun h k hk P hp => replays_of_initial (h k hk) hp⟩
  refine ⟨?_, fun h => ⟨_, c1 h⟩, ?_, ?_⟩
  · intro st built hb
    rw [hall]
    constructor
    · intro hst
      subst hst
      by_cases h0 : trie.1 = 0
      · refine ⟨h0, ?_⟩
        by_contra hr
        have := c2 h0 hr
        rw [this] at hb
        simp at hb
      · have := c1 h0
        rw [this] at hb
        simp only [Option.some.injEq, Prod.mk.injEq] at hb
        exact absurd hb.1 h0
    · rintro ⟨h0, hr⟩
      exact c3 h0 hr st built hb
  · rintro h0 ⟨k, hk, P, hp, hn⟩
    refine ⟨_, c2 h0 (fun hr => hn (replays_of_initial (hr k hk) hp))⟩
  · intro h0 hrep hfuel
    obtain ⟨built, hb, _⟩ :=
      build_spec hrep (Nat.le_succ_of_le (Nat.le_of_lt hfuel)) self
    refine ⟨built, ?_⟩
    have : trie = (0, trie.2) := by
      rw [← h0]
    rw [this]; exact hb

theorem build_status_witness :
    Represents build_without_failure_array build_without_failure_keys ∧
    max_length build_without_failure_keys 0 < 6 ∧
    ∃ built,
      buildAhoCorasick 6 (0, build_without_failure_array) build_without_failure_keys fresh
        = some (0, built) :=
  ⟨build_without_failure_represents, by decide,
    (build_status 6 (0, build_without_failure_array) build_without_failure_keys fresh).2.2.2
      rfl build_without_failure_represents (by decide)⟩

/-- C9. Build-failure atomicity: whenever `buildAhoCorasick` returns a non-zero status,
the call has installed neither table: both table pointers of the object are what they
were before the call, so a fresh object is left without a depth table and without a
failure table. -/
theorem build_failure_atomic (fuel : Nat) (trie : Int × List DoubleArrayUnit)
    (keys : List (List Nat)) (self : DoubleArrayAhoCorasick) (st : Int)
    (built : DoubleArrayAhoCorasick)
    (h : buildAhoCorasick fuel trie keys self = some (st, built)) (hst : st ≠ 0) :
    built.depth_ = self.depth_ ∧ built.failure_ = self.failure_ ∧
      (self.depth_ = none → self.failure_ = none →
        built.depth_ = none ∧ built.failure_ = none) := by
  obtain ⟨c1, c2, c3⟩ := build_cases fuel trie keys self
  have key : built = { self with array := trie.2 } := by
    by_cases h0 : trie.1 = 0
    · by_cases hr : ∀ k ∈ keys, Replays trie.2 k
      · exact absurd (c3 h0 hr st built h) hst
      · have := c2 h0 hr
        rw [this] at h
        simp only [Option.some.injEq, Prod.mk.injEq] at h
        exact h.2.symm
    · have := c1 h0
      rw [this] at h
      simp only [Option.some.injEq, Prod.mk.injEq] at h
      exact h.2.symm
  subst key
  exact ⟨rfl, rfl, fun h1 h2 => ⟨h1, h2⟩⟩

theorem build_failure_atomic_witness :
    buildAhoCorasick 1 (-1, []) [[98], [97]] fresh = some (-1, fresh) ∧ (-1 : Int) ≠ 0 ∧
    (fresh.depth_ = fresh.depth_ ∧ fresh.failure_ = fresh.failure_ ∧
      (fresh.depth_ = none → fresh.failure_ = none →
        fresh.depth_ = none ∧ fresh.failure_ = none)) :=
  ⟨by decide, by decide,
    build_failure_atomic 1 (-1, []) [[98], [97]] fresh (-1) fresh (by decide) (by decide)⟩

/-- C10. No-match texts: on the empty text `find` returns 0 and leaves the buffer as it
was, for every object; and for a trie that represents the non-empty keys `keys`, `find` on
a text none of whose contiguous substrings is a key returns 0, again leaving the buffer
as it was. -/
theorem find_no_match (array : List DoubleArrayUnit) (keys : List (List Nat))
    (hrep : Represents array keys) (hne : [] ∉ keys) (fuel : Nat)
    (hfuel : max_length keys 0 < fuel) (self : DoubleArrayAhoCorasick) :
    ∃ built, buildAhoCorasick fuel (0, array) keys self = some (0, built) ∧
      (∀ results max, find fuel built [] results max = some (0, results)) ∧
      ∀ text, (∀ c ∈ text, c < 256) → text.length < 2 ^ 64 →
        (∀ k ∈ keys, ¬ k <:+: text) →
        ∀ results max, find fuel built text results max = some (0, results) := by
  obtain ⟨built, hb, hB⟩ := build_spec hrep (Nat.le_succ_of_le (Nat.le_of_lt hfuel)) self
  refine ⟨built, hb, fun _ _ => rfl, ?_⟩
  intro text hbytes hlen hno results max
  have hnil : allMatches keys text = [] := by
    apply List.eq_nil_iff_forall_not_mem.2
    intro r hr
    obtain ⟨k, hk, _, hocc, _⟩ := allMatches_sound hr
    exact hno k hk (occurs_substring hocc)
  rw [find_spec hrep hB hne hfuel text hbytes hlen, hnil]
  rfl

theorem find_no_match_witness :
    Represents find_single_char_array [[83]] ∧ [] ∉ [[83]] ∧
    max_length [[83]] 0 < 2 ∧
    ∃ built, buildAhoCorasick 2 (0, find_single_char_array) [[83]] fresh = some (0, built) ∧
      (∀ results max, find 2 built [] results max = some (0, results)) ∧
      ∀ text, (∀ c ∈ text, c < 256) → text.length < 2 ^ 64 →
        (∀ k ∈ [[83]], ¬ k <:+: text) →
        ∀ results max, find 2 built text results max = some (0, results) :=
  ⟨find_single_char_represents, by decide, by decide,
    find_no_match find_single_char_array [[83]] find_single_char_represents (by decide) 2
      (by decide) fresh⟩


/-! ## `find` with every read checked -/

theorem unitRead_some {array : List DoubleArrayUnit} {id : Nat} {u : DoubleArrayUnit}
    (h : unitRead array id = some u) : unitAt array id = u := by
  unfold unitRead at h
  simp only [unitAt, List.getD_eq_getElem?_getD, h, Option.getD_some]

theorem unitRead_of_lt {array : List DoubleArrayUnit} {id : Nat} (h : id < array.length) :
    unitRead array id = some (unitAt array id) := by
  simp only [unitRead, unitAt, List.getD_eq_getElem?_getD, List.getElem?_eq_getElem h,
    Option.getD_some]

theorem tableRead_some {table : Option (List Nat)} {id v : Nat}
    (h : tableRead table id = some v) : tableAt table id = v := by
  cases table with
  | none => cases h
  | some buf =>
    simp only [tableRead] at h
    simp only [tableAt, Option.getD_some, List.getD_eq_getElem?_getD, h]

theorem tableRead_of_lt {buf : List Nat} {id : Nat} (h : id < buf.length) :
    tableRead (some buf) id = some (tableAt (some buf) id) := by
  simp only [tableRead, tableAt, Option.getD_some, List.getD_eq_getElem?_getD,
    List.getElem?_eq_getElem h]

/-- Whenever the checked goto/fallback loop returns, the loop of `find_goto` returns the
same node and unit. -/
theorem find_goto_checked_returned (self : DoubleArrayAhoCorasick) (c : Nat) :
    ∀ (fuel node_pos : Nat) (unit : DoubleArrayUnit) (r : Nat × DoubleArrayUnit),
      find_goto_checked self c fuel node_pos unit = Outcome.returned r →
        find_goto self c fuel node_pos unit = some r := by
  intro fuel
  induction fuel with
  | zero => intro n u r h; cases h
  | succ fuel ih =>
    intro n u r h
    simp only [find_goto_checked] at h
    cases h1 : unitRead self.array (n ^^^ u.offset ^^^ c) with
    | none => rw [h1] at h; cases h
    | some nu =>
      rw [h1] at h
      simp only at h
      simp only [find_goto, unitRead_some h1]
      by_cases hl : nu.label = c
      · simpa [hl] using h
      · simp only [hl, if_false] at h ⊢
        by_cases h0 : n = 0
        · simpa [h0] using h
        · simp only [h0, if_false] at h ⊢
          cases h2 : tableRead self.failure_ n with
          | none => rw [h2] at h; cases h
          | some f =>
            rw [h2] at h
            simp only at h
            cases h3 : unitRead self.array f with
            | none => rw [h3] at h; cases h
            | some fu =>
              rw [h3] at h
              simp only at h
              rw [tableRead_some h2, unitRead_some h3]
              exact ih f fu r h

theorem find_emit_checked_returned (self : DoubleArrayAhoCorasick) (max i node_pos : Nat)
    (unit : DoubleArrayUnit) (st r : Nat × List result_pair_type)
    (h : find_emit_checked self max i node_pos unit st = Outcome.returned r) :
    find_emit self max i node_pos unit st = r := by
  unfold find_emit_checked at h
  unfold find_emit
  by_cases hm : st.1 < max
  · simp only [hm, if_true] at h ⊢
    cases h1 : unitRead self.array (node_pos ^^^ unit.offset) with
    | none => rw [h1] at h; cases h
    | some v =>
      rw [h1] at h
      simp only at h
      cases h2 : tableRead self.depth_ node_pos with
      | none => rw [h2] at h; cases h
      | some d =>
        rw [h2] at h
        simp only [Outcome.returned.injEq] at h
        rw [unitRead_some h1, tableRead_some h2]
        exact h
  · simp only [hm, if_false, Outcome.returned.injEq] at h ⊢
    exact h

theorem find_output_checked_returned (self : DoubleArrayAhoCorasick) (max i : Nat) :
    ∀ (fuel node_pos : Nat) (st r : Nat × List result_pair_type),
      find_output_checked self max i fuel node_pos st = Outcome.returned r →
        find_output self max i fuel node_pos st = some r := by
  intro fuel
  induction fuel with
  | zero => intro n st r h; cases h
  | succ fuel ih =>
    intro n st r h
    simp only [find_output_checked] at h
    simp only [find_output]
    by_cases h0 : n = 0
    · simpa [h0] using h
    · simp only [h0, if_false] at h ⊢
      cases h1 : unitRead self.array n with
      | none => rw [h1] at h; cases h
      | some u =>
        rw [h1] at h
        simp only at h
        rw [unitRead_some h1]
        by_cases hl : u.has_leaf = true
        · simp only [hl, if_true] at h ⊢
          cases h2 : find_emit_checked self max i n u st with
          | invalid_read s id => rw [h2] at h; cases h
          | out_of_fuel => rw [h2] at h; cases h
          | returned st1 =>
            rw [h2] at h
            simp only at h
            cases h3 : tableRead self.failure_ n with
            | none => rw [h3] at h; cases h
            | some f =>
              rw [h3] at h
              simp only at h
              rw [tableRead_some h3, find_emit_checked_returned self max i n u st st1 h2]
              exact ih f st1 r h
        · simp only [hl, if_false, Bool.false_eq_true] at h ⊢
          cases h3 : tableRead self.failure_ n with
          | none => rw [h3] at h; cases h
          | some f =>
            rw [h3] at h
            simp only at h
            rw [tableRead_some h3]
            exact ih f st r h

theorem find_loop_checked_returned (fuel : Nat) (self : DoubleArrayAhoCorasick) (max : Nat) :
    ∀ (rest : List Nat) (i node_pos : Nat) (unit : DoubleArrayUnit)
      (st r : Nat × List result_pair_type),
      find_loop_checked fuel self max rest i node_pos unit st = Outcome.returned r →
        find_loop fuel self max rest i node_pos unit st = some r := by
  intro rest
  induction rest with
  | nil =>
    intro i n u st r h
    simp only [find_loop_checked, Outcome.returned.injEq] at h
    simp only [find_loop, h]
  | cons c rest ih =>
    intro i n u st r h
    simp only [find_loop_checked] at h
    simp only [find_loop]
    cases h1 : find_goto_checked self c fuel n u with
    | invalid_read s id => rw [h1] at h; cases h
    | out_of_fuel => rw [h1] at h; cases h
    | returned p =>
      obtain ⟨n1, u1⟩ := p
      rw [h1] at h
      simp only at h
      rw [find_goto_checked_returned self c fuel n u (n1, u1) h1]
      simp only
      have key : ∀ st1 : Nat × List result_pair_type,
          (match tableRead self.failure_ n1 with
            | none => Outcome.invalid_read Storage.failure_ n1
            | some node_pos_for_output =>
              match find_output_checked self max i fuel node_pos_for_output st1 with
              | Outcome.invalid_read s id => Outcome.invalid_read s id
              | Outcome.out_of_fuel => Outcome.out_of_fuel
              | Outcome.returned st2 =>
                find_loop_checked fuel self max rest (i + 1) n1 u1 st2) = Outcome.returned r →
          (match find_output self max i fuel (tableAt self.failure_ n1) st1 with
            | none => none
            | some st2 => find_loop fuel self max rest (i + 1) n1 u1 st2) = some r := by
        intro st1 h
        cases h3 : tableRead self.failure_ n1 with
        | none => rw [h3] at h; cases h
        | some f =>
          rw [h3] at h
          simp only at h
          cases h4 : find_output_checked self max i fuel f st1 with
          | invalid_read s id => rw [h4] at h; cases h
          | out_of_fuel => rw [h4] at h; cases h
          | returned st2 =>
            rw [h4] at h
            simp only at h
            rw [tableRead_some h3, find_output_checked_returned self max i fuel f st1 st2 h4]
            exact ih (i + 1) n1 u1 st2 r h
      by_cases hl : u1.has_leaf = true
      · simp only [hl, if_true] at h ⊢
        cases h2 : find_emit_checked self max i n1 u1 st with
        | invalid_read s id => rw [h2] at h; cases h
        | out_of_fuel => rw [h2] at h; cases h
        | returned st1 =>
          rw [h2] at h
          simp only at h
          rw [find_emit_checked_returned self max i n1 u1 st st1 h2]
          exact key st1 h
      · simp only [hl, if_false, Bool.false_eq_true] at h ⊢
        exact key st h

/-- Whenever `find` with every read checked returns, `find` returns the same count and
buffer: the two are the same code, and differ only where a read finds no cell. -/
theorem find_checked_returned (fuel : Nat) (self : DoubleArrayAhoCorasick) (key : List Nat)
    (results : List result_pair_type) (max : Nat) (r : Nat × List result_pair_type)
    (h : find_checked fuel self key results max = Outcome.returned r) :
    find fuel self key results max = some r := by
  unfold find_checked at h
  unfold find
  cases h1 : unitRead self.array 0 with
  | none => rw [h1] at h; cases h
  | some u =>
    rw [h1] at h
    simp only at h
    rw [unitRead_some h1]
    exact find_loop_checked_returned fuel self max key 0 0 u (0, results) r h

/-! ## On a built object every read of `find` is valid -/

theorem find_goto_checked_closed {self : DoubleArrayAhoCorasick} {Good : Nat → Prop}
    (hcl : ReadsClosed self Good) {c : Nat} (hc : c < 256) :
    ∀ (fuel n : Nat) (r : Nat × DoubleArrayUnit), Good n →
      find_goto self c fuel n (unitAt self.array n) = some r →
        find_goto_checked self c fuel n (unitAt self.array n) = Outcome.returned r ∧
          Good r.1 ∧ r.2 = unitAt self.array r.1 := by
  intro fuel
  induction fuel with
  | zero => intro n r _ h; cases h
  | succ fuel ih =>
    intro n r hn h
    simp only [find_goto] at h
    simp only [find_goto_checked]
    rw [unitRead_of_lt (hcl.goto_read n hn c hc)]
    simp only
    by_cases hl : (unitAt self.array (n ^^^ (unitAt self.array n).offset ^^^ c)).label = c
    · simp only [hl, if_true, Option.some.injEq] at h ⊢
      subst h
      exact ⟨rfl, hcl.goto_good n hn c hc hl, rfl⟩
    · simp only [hl, if_false] at h ⊢
      by_cases h0 : n = 0
      · simp only [h0, if_true, Option.some.injEq] at h ⊢
        subst h
        exact ⟨rfl, hcl.root, rfl⟩
      · simp only [h0, if_false] at h ⊢
        obtain ⟨f, hf, hgf⟩ := hcl.failure_read n hn
        rw [tableRead_some hf] at h
        simp only [hf, unitRead_of_lt (hcl.node_read f hgf)]
        exact ih f r hgf h

theorem find_emit_checked_closed {self : DoubleArrayAhoCorasick} {Good : Nat → Prop}
    (hcl : ReadsClosed self Good) (max i : Nat) {n : Nat} (hn : Good n)
    (st : Nat × List result_pair_type) :
    find_emit_checked self max i n (unitAt self.array n) st
      = Outcome.returned (find_emit self max i n (unitAt self.array n) st) := by
  obtain ⟨d, hd⟩ := hcl.depth_read n hn
  have hv := hcl.goto_read n hn 0 (by decide)
  rw [Nat.xor_zero] at hv
  unfold find_emit_checked find_emit
  by_cases hm : st.1 < max
  · simp only [hm, if_true, unitRead_of_lt hv, hd, tableRead_some hd]
  · simp only [hm, if_false]

theorem find_output_checked_closed {self : DoubleArrayAhoCorasick} {Good : Nat → Prop}
    (hcl : ReadsClosed self Good) (max i : Nat) :
    ∀ (fuel n : Nat) (st r : Nat × List result_pair_type), Good n →
      find_output self max i fuel n st = some r →
        find_output_checked self max i fuel n st = Outcome.returned r := by
  intro fuel
  induction fuel with
  | zero => intro n st r _ h; cases h
  | succ fuel ih =>
    intro n st r hn h
    simp only [find_output] at h
    simp only [find_output_checked]
    by_cases h0 : n = 0
    · simp only [h0, if_true, Option.some.injEq] at h ⊢
      rw [h]
    · simp only [h0, if_false] at h ⊢
      obtain ⟨f, hf, hgf⟩ := hcl.failure_read n hn
      rw [tableRead_some hf] at h
      simp only [unitRead_of_lt (hcl.node_read n hn)]
      by_cases hl : (unitAt self.array n).has_leaf = true
      · simp only [hl, if_true] at h ⊢
        simp only [find_emit_checked_closed hcl max i hn st, hf]
        exact ih f _ r hgf h
      · simp only [hl, if_false, Bool.false_eq_true] at h ⊢
        simp only [hf]
        exact ih f st r hgf h

theorem find_loop_checked_closed {self : DoubleArrayAhoCorasick} {Good : Nat → Prop}
    (hcl : ReadsClosed self Good) (fuel max : Nat) :
    ∀ (rest : List Nat) (i n : Nat) (st r : Nat × List result_pair_type), Good n →
      (∀ c ∈ rest, c < 256) →
      find_loop fuel self max rest i n (unitAt self.array n) st = some r →
        find_loop_checked fuel self max rest i n (unitAt self.array n) st
          = Outcome.returned r := by
  intro rest
  induction rest with
  | nil =>
    intro i n st r _ _ h
    simp only [find_loop, Option.some.injEq] at h
    simp only [find_loop_checked, h]
  | cons c rest ih =>
    intro i n st r hn hbytes h
    simp only [find_loop] at h
    simp only [find_loop_checked]
    cases h1 : find_goto self c fuel n (unitAt self.array n) with
    | none => rw [h1] at h; cases h
    | some p =>
      obtain ⟨n1, u1⟩ := p
      rw [h1] at h
      simp only at h
      obtain ⟨hg, hn1, hu1⟩ := find_goto_checked_closed hcl (hbytes c (by simp)) fuel n
        (n1, u1) hn h1
      simp only at hn1 hu1
      subst hu1
      obtain ⟨f, hf, hgf⟩ := hcl.failure_read n1 hn1
      rw [tableRead_some hf] at h
      simp only [hg]
      have key : ∀ st1 : Nat × List result_pair_type,
          (match find_output self max i fuel f st1 with
            | none => none
            | some st2 =>
              find_loop fuel self max rest (i + 1) n1 (unitAt self.array n1) st2) = some r →
          (match tableRead self.failure_ n1 with
            | none => Outcome.invalid_read Storage.failure_ n1
            | some node_pos_for_output =>
              match find_output_checked self max i fuel node_pos_for_output st1 with
              | Outcome.invalid_read s id => Outcome.invalid_read s id
              | Outcome.out_of_fuel => Outcome.out_of_fuel
              | Outcome.returned st2 =>
                find_loop_checked fuel self max rest (i + 1) n1 (unitAt self.array n1) st2)
            = Outcome.returned r := by
        intro st1 h
        cases h2 : find_output self max i fuel f st1 with
        | none => rw [h2] at h; cases h
        | some st2 =>
          rw [h2] at h
          simp only at h
          simp only [hf, find_output_checked_closed hcl max i fuel f st1 st2 hgf h2]
          exact ih (i + 1) n1 st2 r hn1 (fun d hd => hbytes d (by simp [hd])) h
      by_cases hl : (unitAt self.array n1).has_leaf = true
      · simp only [hl, if_true] at h ⊢
        simp only [find_emit_checked_closed hcl max i hn1 st]
        exact key _ h
      · simp only [hl, if_false, Bool.false_eq_true] at h ⊢
        exact key st h

theorem find_checked_closed {self : DoubleArrayAhoCorasick} {Good : Nat → Prop}
    (hcl : ReadsClosed self Good) (fuel : Nat) (key : List Nat)
    (hbytes : ∀ c ∈ key, c < 256) (results : List result_pair_type) (max : Nat)
    (r : Nat × List result_pair_type) (h : find fuel self key results max = some r) :
    find_checked fuel self key results max = Outcome.returned r := by
  unfold find at h
  unfold find_checked
  simp only [unitRead_of_lt (hcl.node_read 0 hcl.root)]
  exact find_loop_checked_closed hcl fuel max key 0 0 (0, results) r hcl.root hbytes h

/-- On a built object the nodes of the key prefixes are closed under the moves of `find`,
and every read made at one of them is of a cell the object has. -/
theorem reads_closed_built {keys : List (List Nat)} {array : List DoubleArrayUnit}
    {self : DoubleArrayAhoCorasick} (hrep : Represents array keys)
    (hb : Built keys array self) :
    ReadsClosed self (fun n => ∃ P, P ∈ prefixes keys ∧ n = nodeId array P) := by
  have harr : self.array = array := hb.1
  obtain ⟨_, ⟨F, hF, hFinv⟩, ⟨D, hD, hDinv⟩⟩ := hb
  refine ⟨⟨[], nil_mem_prefixes keys, (nodeId_nil array).symm⟩, ?_, ?_, ?_, ?_, ?_⟩
  · rintro n ⟨P, hP, rfl⟩
    rw [harr]; exact rep_lt hrep hP
  · rintro n ⟨P, hP, rfl⟩ c hc
    rw [harr]; exact hrep.bounds P hP c hc
  · rintro n ⟨P, hP, rfl⟩ c hc hl
    rw [harr] at hl ⊢
    have hPc := hrep.edges P hP c hc hl
    refine ⟨P ++ [c], hPc, ?_⟩
    exact (step_eq_some (rep_step hrep hPc)).2
  · rintro n ⟨P, hP, rfl⟩
    have hlt : nodeId array P < F.length := by rw [hFinv.1]; exact rep_lt hrep hP
    refine ⟨tableAt (some F) (nodeId array P), by rw [hF]; exact tableRead_of_lt hlt, ?_⟩
    have hbf := built_failure hrep ⟨harr, ⟨F, hF, hFinv⟩, ⟨D, hD, hDinv⟩⟩ hP
    rw [hF] at hbf
    exact ⟨_, (longestSuffix_spec keys P.tail).2.1, hbf⟩
  · rintro n ⟨P, hP, rfl⟩
    have hlt : nodeId array P < D.length := by rw [hDinv.1]; exact rep_lt hrep hP
    exact ⟨_, by rw [hD]; exact tableRead_of_lt hlt⟩

/-- On a built object `find` makes no invalid read: with every read checked it returns,
and it returns the occurrences of the keys in the text, written into the buffer up to
its capacity. -/
theorem find_checked_built {keys : List (List Nat)} {array : List DoubleArrayUnit}
    {self : DoubleArrayAhoCorasick} (hrep : Represents array keys)
    (hb : Built keys array self) (hne : [] ∉ keys) {fuel : Nat}
    (hf : max_length keys 0 < fuel) (text : List Nat) (hbytes : ∀ c ∈ text, c < 256)
    (hlen : text.length < 2 ^ 64) (results : List result_pair_type) (max : Nat) :
    find_checked fuel self text results max
      = Outcome.returned (emitAll max (0, results) (allMatches keys text)) :=
  find_checked_closed (reads_closed_built hrep hb) fuel text hbytes results max _
    (find_spec hrep hb hne hf text hbytes hlen results max)

/-- C11. `clear` is idempotent: for every state of the object `clear` yields the unbuilt
state, with no array, no failure table and no depth table; clearing twice is clearing
once; and on an object that is already in the unbuilt state (never built, or cleared)
`clear` changes nothing. -/
theorem clear_idempotent (self : DoubleArrayAhoCorasick) :
    clear self = { array := [], failure_ := none, depth_ := none } ∧
    clear (clear self) = clear self ∧
    (self.array = [] → self.failure_ = none → self.depth_ = none → clear self = self) := by
  rcases self with ⟨a, f, d⟩
  cases f <;> cases d <;> simp [clear]

theorem clear_idempotent_witness : clear fresh = fresh :=
  (clear_idempotent fresh).2.2 rfl rfl rfl

/-! ## `find` on an object that is not built -/

theorem find_checked_no_array (fuel : Nat) (self : DoubleArrayAhoCorasick)
    (harr : self.array = []) (key : List Nat) (results : List result_pair_type)
    (max : Nat) :
    find_checked fuel self key results max = Outcome.invalid_read Storage.array 0 := by
  simp only [find_checked, unitRead, harr, List.getElem?_nil]

theorem clear_array (self : DoubleArrayAhoCorasick) : (clear self).array = [] := by
  rcases self with ⟨a, f, d⟩
  cases f <;> cases d <;> simp [clear]

theorem find_emit_checked_not_fuel (self : DoubleArrayAhoCorasick) (max i n : Nat)
    (u : DoubleArrayUnit) (st : Nat × List result_pair_type) :
    find_emit_checked self max i n u st ≠ Outcome.out_of_fuel := by
  unfold find_emit_checked
  intro h
  split at h
  · split at h
    · cases h
    · split at h <;> cases h
  · cases h

theorem find_loop_checked_no_failure (fuel : Nat) (self : DoubleArrayAhoCorasick)
    (hfail : self.failure_ = none) (max : Nat) (c : Nat) (rest : List Nat) (i : Nat)
    (unit : DoubleArrayUnit) (st : Nat × List result_pair_type) :
    ∃ s id, find_loop_checked (fuel + 1) self max (c :: rest) i 0 unit st
      = Outcome.invalid_read s id := by
  have hgo : (∃ id, find_goto_checked self c (fuel + 1) 0 unit
        = Outcome.invalid_read Storage.array id) ∨
      ∃ p, find_goto_checked self c (fuel + 1) 0 unit = Outcome.returned p := by
    simp only [find_goto_checked]
    cases unitRead self.array (0 ^^^ unit.offset ^^^ c) with
    | none => exact Or.inl ⟨_, rfl⟩
    | some nu =>
      by_cases hl : nu.label = c
      · exact Or.inr ⟨(0 ^^^ unit.offset ^^^ c, nu), by simp only [hl, if_true]⟩
      · exact Or.inr ⟨(0, unit), by simp only [hl, if_false, if_true]⟩
  simp only [find_loop_checked]
  rcases hgo with ⟨id, h⟩ | ⟨⟨n1, u1⟩, h⟩
  · exact ⟨_, _, by rw [h]⟩
  · rw [h]
    simp only
    have key : ∀ o : Outcome (Nat × List result_pair_type), o ≠ Outcome.out_of_fuel →
        ∃ s id, (match o with
          | Outcome.invalid_read s id => Outcome.invalid_read s id
          | Outcome.out_of_fuel => Outcome.out_of_fuel
          | Outcome.returned st1 =>
            match tableRead self.failure_ n1 with
            | none => Outcome.invalid_read Storage.failure_ n1
            | some node_pos_for_output =>
              match find_output_checked self max i (fuel + 1) node_pos_for_output st1 with
              | Outcome.invalid_read s id => Outcome.invalid_read s id
              | Outcome.out_of_fuel => Outcome.out_of_fuel
              | Outcome.returned st2 =>
                find_loop_checked (fuel + 1) self max rest (i + 1) n1 u1 st2)
          = Outcome.invalid_read s id := by
      intro o ho
      cases o with
      | invalid_read s id => exact ⟨s, id, rfl⟩
      | out_of_fuel => exact absurd rfl ho
      | returned st1 =>
        refine ⟨Storage.failure_, n1, ?_⟩
        simp only [hfail, tableRead]
    by_cases hl : u1.has_leaf = true
    · simp only [hl, if_true]
      exact key _ (find_emit_checked_not_fuel self max i n1 u1 st)
    · simp only [hl, if_false, Bool.false_eq_true]
      exact key (Outcome.returned st) (by intro h; cases h)

/-- C12, the claim fails.  On the never-built object, and on the object of the test
`find_single_char` once it is cleared, `find` on the text `S` is not rejected.  It makes
no check of the build state: its first statement reads `array[0]` through the array
pointer, which is `NULL` on these objects, and the call ends in that invalid read.  The
same call on the object as built returns the count 1. -/
theorem find_unbuilt_counterexample :
    find_checked 2 fresh [83] [] 0 = Outcome.invalid_read Storage.array 0 ∧
    (buildAhoCorasick 2 (0, find_single_char_array) [[83]] fresh).map
        (fun r => find_checked 2 (clear r.2) [83] [] 0)
      = some (Outcome.invalid_read Storage.array 0) ∧
    (buildAhoCorasick 2 (0, find_single_char_array) [[83]] fresh).map
        (fun r => find_checked 2 r.2 [83] [] 0)
      = some (Outcome.returned (1, [])) := by
  decide!

/-- C12, as amended.  `find` makes no check of the build state, and a call on an object
whose tables are not installed is not rejected.  On the never-built object and on every
cleared object, for every text, buffer and capacity, the first statement of `find` reads
`array[0]` through the array pointer, which is `NULL` there: the call ends in an invalid
read and returns no count.  On every object without a failure table, whatever its array,
a call on a non-empty text ends in an invalid read as well. -/
theorem find_unbuilt_not_rejected (fuel : Nat) (self : DoubleArrayAhoCorasick)
    (key : List Nat) (results : List result_pair_type) (max_num_results : Nat) :
    find_checked fuel fresh key results max_num_results
        = Outcome.invalid_read Storage.array 0 ∧
    find_checked fuel (clear self) key results max_num_results
        = Outcome.invalid_read Storage.array 0 ∧
    (self.failure_ = none → key ≠ [] → 0 < fuel →
      ∃ s id, find_checked fuel self key results max_num_results
        = Outcome.invalid_read s id) := by
  refine ⟨find_checked_no_array fuel fresh rfl key results max_num_results,
    find_checked_no_array fuel (clear self) (clear_array self) key results max_num_results,
    ?_⟩
  intro hfail hkey hfuel
  cases key with
  | nil => exact absurd rfl hkey
  | cons c rest =>
    obtain ⟨fuel, rfl⟩ : ∃ k, fuel = k + 1 := ⟨fuel - 1, by omega⟩
    unfold find_checked
    cases unitRead self.array 0 with
    | none => exact ⟨_, _, rfl⟩
    | some unit =>
      exact find_loop_checked_no_failure fuel self hfail max_num_results c rest 0 unit
        (0, results)

theorem find_unbuilt_not_rejected_witness :
    ∃ s id, find_checked 2
        { array := find_single_char_array, failure_ := none, depth_ := none } [83] [] 0
      = Outcome.invalid_read s id :=
  (find_unbuilt_not_rejected 2
    { array := find_single_char_array, failure_ := none, depth_ := none } [83] [] 0).2.2
    rfl (by decide) (by decide)

/-! ## Order of the keys in the failure-link construction -/

theorem tableInv_unique {array : List DoubleArrayUnit} {val : List Nat → Nat}
    {D : List Nat → Prop} {buf1 buf2 : List Nat} (h1 : TableInv array val D buf1)
    (h2 : TableInv array val D buf2) : buf1 = buf2 := by
  have hlen : buf1.length = buf2.length := by rw [h1.1, h2.1]
  have hcell : ∀ id, buf1.getD id 0 = buf2.getD id 0 := by
    intro id
    by_cases h : ∃ P, D P ∧ nodeId array P = id
    · obtain ⟨P, hP, rfl⟩ := h
      rw [h1.2.1 P hP, h2.2.1 P hP]
    · have hn : ∀ P, D P → nodeId array P ≠ id := fun P hP he => h ⟨P, hP, he⟩
      rw [h1.2.2 id hn, h2.2.2 id hn]
  apply List.ext_getElem hlen
  intro n hn1 hn2
  have := hcell n
  rw [List.getD_eq_getElem _ _ hn1, List.getD_eq_getElem _ _ hn2] at this
  exact this

theorem max_length_le (ks : List (List Nat)) (b : Nat) :
    ∀ m, m ≤ b → (∀ k ∈ ks, k.length ≤ b) → max_length ks m ≤ b := by
  induction ks with
  | nil => intro m hm _; simpa [max_length] using hm
  | cons k ks ih =>
    intro m hm hks
    simp only [max_length]
    apply ih
    · have := hks k (by simp)
      split <;> omega
    · exact fun k1 h1 => hks k1 (by simp [h1])

theorem failure_levels_spec_mem {array : List DoubleArrayUnit} {keys : List (List Nat)}
    (hrep : Represents array keys) {fuel : Nat} (ks : List (List Nat))
    (hks : ∀ k, k ∈ ks ↔ k ∈ keys) :
    ∀ (n i : Nat) (buf : List Nat), i + n ≤ fuel + 1 →
      TableInv array (failureOf array keys)
        (fun P => P ∈ prefixes keys ∧ P ≠ [] ∧ P.length ≤ i) buf →
      ∃ buf1, failure_levels fuel array ks n i buf = some (some buf1) ∧
        TableInv array (failureOf array keys)
          (fun P => P ∈ prefixes keys ∧ P ≠ [] ∧ P.length ≤ i + n) buf1 := by
  intro n
  induction n with
  | zero => intro i buf _ h; exact ⟨buf, rfl, h⟩
  | succ n ih =>
    intro i buf hf h
    obtain ⟨buf1, hb1, hinv1⟩ := failure_keys_spec hrep (show i ≤ fuel by omega) ks _ buf
      (fun k hk => (hks k).1 hk) (fun P hP => hP.1) (fun P hP hne hl => ⟨hP, hne, hl⟩) h
    have hinv2 : TableInv array (failureOf array keys)
        (fun P => P ∈ prefixes keys ∧ P ≠ [] ∧ P.length ≤ i + 1) buf1 := by
      refine tableInv_congr hinv1 (fun P => ?_)
      constructor
      · rintro ⟨hP, hne, hl⟩
        by_cases hl1 : P.length ≤ i
        · exact Or.inl ⟨hP, hne, hl1⟩
        · rcases (mem_prefixes keys P).1 hP with h0 | ⟨k, hk, hp⟩
          · exact absurd h0 hne
          · refine Or.inr ⟨k, (hks k).2 hk, ?_, ?_⟩
            · have := hp.length_le; omega
            · have : P.length = i + 1 := by omega
              rw [← this]; exact List.prefix_iff_eq_take.1 hp
      · rintro (⟨hP, hne, hl⟩ | ⟨k, hk, h1, rfl⟩)
        · exact ⟨hP, hne, by omega⟩
        · refine ⟨take_mem_prefixes (key_mem_prefixes keys k ((hks k).1 hk)) _, ?_, ?_⟩
          · intro h0
            have := congrArg List.length h0
            simp only [List.length_take, List.length_nil] at this
            omega
          · rw [List.length_take]; omega
    obtain ⟨buf2, hb2, hinv3⟩ := ih (i + 1) buf1 (by omega) hinv2
    refine ⟨buf2, ?_, tableInv_congr hinv3 (fun P => by rw [show i + (n + 1) = i + 1 + n by omega])⟩
    simp only [failure_levels, hb1]
    exact hb2

/-- C13. Order independence of the failure-link construction: for a trie that
represents `keys`, `buildFailureLinks` run over any permutation of the key list returns
status 0 and installs the same failure table as the run over `keys` itself. -/
theorem failure_links_order_independent (array : List DoubleArrayUnit)
    (keys : List (List Nat)) (hrep : Represents array keys) (fuel : Nat)
    (hfuel : max_length keys 0 < fuel) (keys1 : List (List Nat)) (hperm : keys1.Perm keys)
    (self : DoubleArrayAhoCorasick) (hself : self.array = array) :
    ∃ F, buildFailureLinks fuel self keys = some (0, { self with failure_ := some F }) ∧
      buildFailureLinks fuel self keys1 = some (0, { self with failure_ := some F }) := by
  obtain ⟨F, hF, hFinv⟩ := failure_table hrep (Nat.le_succ_of_le (Nat.le_of_lt hfuel))
  have hmem : ∀ k, k ∈ keys1 ↔ k ∈ keys := fun k => hperm.mem_iff
  have hmax : max_length keys1 0 ≤ max_length keys 0 :=
    max_length_le keys1 _ 0 (Nat.zero_le _)
      (fun k hk => (max_length_ge keys 0).2 k ((hmem k).1 hk))
  obtain ⟨F1, hF1, hinv1⟩ := failure_levels_spec_mem hrep keys1 hmem (max_length keys1 0) 0
    (List.replicate array.length 0) (show 0 + max_length keys1 0 ≤ fuel + 1 by omega)
    (tableInv_congr (tableInv_init array _) (fun P => by
      constructor
      · rintro ⟨_, hne, hl⟩
        exact hne (List.length_eq_zero.1 (Nat.le_zero.1 hl))
      · exact fun h => h.elim))
  have hinv2 : TableInv array (failureOf array keys) (fun P => P ∈ prefixes keys ∧ P ≠ [])
      F1 := by
    refine tableInv_congr hinv1 (fun P => ?_)
    constructor
    · rintro ⟨hP, hne⟩
      refine ⟨hP, hne, ?_⟩
      rcases (mem_prefixes keys P).1 hP with h0 | ⟨k, hk, hp⟩
      · exact absurd h0 hne
      · have := (max_length_ge keys1 0).2 k ((hmem k).2 hk)
        have := hp.length_le
        omega
    · rintro ⟨hP, hne, _⟩
      exact ⟨hP, hne⟩
  have heq : F1 = F := tableInv_unique hinv2 hFinv
  subst heq
  subst hself
  refine ⟨F1, ?_, ?_⟩
  · simp only [buildFailureLinks, hF]
  · simp only [buildFailureLinks, hF1]

theorem failure_links_order_independent_witness :
    Represents find_works_fine_array find_works_fine_keys ∧
    max_length find_works_fine_keys 0 < 4 ∧
    find_works_fine_keys.reverse.Perm find_works_fine_keys ∧
    ∃ F,
      buildFailureLinks 4
          { array := find_works_fine_array, failure_ := none, depth_ := none }
          find_works_fine_keys
        = some (0, { array := find_works_fine_array, failure_ := some F, depth_ := none }) ∧
      buildFailureLinks 4
          { array := find_works_fine_array, failure_ := none, depth_ := none }
          find_works_fine_keys.reverse
        = some (0, { array := find_works_fine_array, failure_ := some F, depth_ := none }) :=
  ⟨find_works_fine_represents, by decide, List.reverse_perm _,
    failure_links_order_independent find_works_fine_array find_works_fine_keys
      find_works_fine_represents 4 (by decide) find_works_fine_keys.reverse
      (List.reverse_perm _)
      { array := find_works_fine_array, failure_ := none, depth_ := none } rfl⟩


/-! ## The run of the failure-link construction, step by step -/

theorem failure_keys_append (fuel : Nat) (array : List DoubleArrayUnit) (i : Nat) :
    ∀ (ks1 ks2 : List (List Nat)) (buf buf1 : List Nat),
      failure_keys fuel array i ks1 buf = some (some buf1) →
      failure_keys fuel array i (ks1 ++ ks2) buf = failure_keys fuel array i ks2 buf1 := by
  intro ks1
  induction ks1 with
  | nil =>
    intro ks2 buf buf1 h
    simp only [failure_keys, Option.some.injEq] at h
    subst h; rfl
  | cons k ks1 ih =>
    intro ks2 buf buf1 h
    rw [List.cons_append]
    rw [failure_keys] at h ⊢
    by_cases hlen : k.length ≤ i
    · simp only [hlen, if_true] at h ⊢
      exact ih ks2 buf buf1 h
    · simp only [hlen, if_false] at h ⊢
      generalize (if i ≠ 0 then traverse array k 0 0 i else ((0 : Int), 0, 0)) = p at h ⊢
      by_cases hp : i ≠ 0 ∧ p.1 = -2
      · rw [if_pos hp] at h; cases h
      · rw [if_neg hp] at h ⊢
        generalize traverse array k p.2.1 p.2.2 (i + 1) = r at h ⊢
        by_cases hr : r.1 = -2
        · rw [if_pos hr] at h; cases h
        · rw [if_neg hr] at h ⊢
          by_cases hs : buf.getD r.2.1 0 ≠ 0
          · rw [if_pos hs] at h ⊢
            exact ih ks2 buf buf1 h
          · rw [if_neg hs] at h ⊢
            cases hff : findFailureLink fuel array buf p.2.1 k i with
            | none => rw [hff] at h; cases h
            | some f =>
              rw [hff] at h
              exact ih ks2 _ buf1 h

theorem failure_levels_add (fuel : Nat) (array : List DoubleArrayUnit)
    (keys : List (List Nat)) :
    ∀ (a b i : Nat) (buf buf1 : List Nat),
      failure_levels fuel array keys a i buf = some (some buf1) →
      failure_levels fuel array keys (a + b) i buf
        = failure_levels fuel array keys b (i + a) buf1 := by
  intro a
  induction a with
  | zero =>
    intro b i buf buf1 h
    simp only [failure_levels, Option.some.injEq] at h
    subst h
    simp
  | succ a ih =>
    intro b i buf buf1 h
    rw [show a + 1 + b = (a + b) + 1 by omega, failure_levels]
    rw [failure_levels] at h
    cases hk : failure_keys fuel array i keys buf with
    | none => rw [hk] at h; cases h
    | some o =>
      cases o with
      | none => rw [hk] at h; cases h
      | some buf2 =>
        rw [hk] at h
        simp only at h ⊢
        rw [ih b (i + 1) buf2 buf1 h, show i + 1 + a = i + (a + 1) by omega]

/-- C14. First assignment wins: take any moment of `buildFailureLinks` at which, in
level `i`, the key `k` is visited after the keys `ks1` and before the keys `ks2`.  The
visit leaves in the cell of the node of `k[0..i]` the value that the final table holds
there; and when an earlier key of the level shares that prefix, so that the node has
been assigned before (be it to the root, which the test `buf[node] != 0` takes for
unset), the visit leaves the whole table as it was. -/
theorem first_assignment_wins (array : List DoubleArrayUnit) (keys : List (List Nat))
    (hrep : Represents array keys) (fuel : Nat) (hfuel : max_length keys 0 < fuel)
    (i : Nat) (ks1 : List (List Nat)) (k : List Nat) (ks2 : List (List Nat))
    (hkeys : keys = ks1 ++ k :: ks2) (hi : i < k.length) :
    ∃ buf0 buf1 buf2 F,
      failure_levels fuel array keys i 0 (List.replicate array.length 0)
        = some (some buf0) ∧
      failure_keys fuel array i ks1 buf0 = some (some buf1) ∧
      failure_keys fuel array i [k] buf1 = some (some buf2) ∧
      failure_keys fuel array i keys buf0 = failure_keys fuel array i ks2 buf2 ∧
      failure_levels fuel array keys (max_length keys 0) 0 (List.replicate array.length 0)
        = failure_levels fuel array keys (max_length keys 0 - i) i buf0 ∧
      failure_levels fuel array keys (max_length keys 0) 0 (List.replicate array.length 0)
        = some (some F) ∧
      F.getD (nodeId array (k.take (i + 1))) 0
        = buf2.getD (nodeId array (k.take (i + 1))) 0 ∧
      ((∃ k0 ∈ ks1, i < k0.length ∧ k0.take (i + 1) = k.take (i + 1)) → buf2 = buf1) := by
  have hk : k ∈ keys := by rw [hkeys]; simp
  have hks1 : ∀ k1 ∈ ks1, k1 ∈ keys := fun k1 h1 => by rw [hkeys]; simp [h1]
  have hmax : k.length ≤ max_length keys 0 := (max_length_ge keys 0).2 k hk
  have hQ : k.take (i + 1) ∈ prefixes keys :=
    take_mem_prefixes (key_mem_prefixes keys k hk) _
  have hQne : k.take (i + 1) ≠ [] := by
    intro h0
    have := congrArg List.length h0
    simp only [List.length_take, List.length_nil] at this
    omega
  obtain ⟨F, hF, hFinv⟩ := failure_table hrep (Nat.le_succ_of_le (Nat.le_of_lt hfuel))
  obtain ⟨buf0, hb0, hinv0⟩ := failure_levels_spec hrep i 0
    (List.replicate array.length 0) (show 0 + i ≤ fuel + 1 by omega)
    (tableInv_congr (tableInv_init array _) (fun P => by
      constructor
      · rintro ⟨_, hne, hl⟩
        exact hne (List.length_eq_zero.1 (Nat.le_zero.1 hl))
      · exact fun h => h.elim))
  rw [Nat.zero_add] at hinv0
  obtain ⟨buf1, hb1, hinv1⟩ := failure_keys_spec hrep (show i ≤ fuel by omega) ks1 _ buf0
    hks1 (fun P hP => hP.1) (fun P hP hne hl => ⟨hP, hne, hl⟩) hinv0
  have hD1 : ∀ P, ((P ∈ prefixes keys ∧ P ≠ [] ∧ P.length ≤ i) ∨
      ∃ k1 ∈ ks1, i < k1.length ∧ P = k1.take (i + 1)) → P ∈ prefixes keys := by
    rintro P (hP | ⟨k1, h1, _, rfl⟩)
    · exact hP.1
    · exact take_mem_prefixes (key_mem_prefixes keys k1 (hks1 k1 h1)) _
  obtain ⟨buf2, hb2, hinv2⟩ := failure_keys_spec hrep (show i ≤ fuel by omega) [k] _ buf1
    (fun k1 h1 => by rw [List.mem_singleton.1 h1]; exact hk) hD1
    (fun P hP hne hl => Or.inl ⟨hP, hne, hl⟩) hinv1
  refine ⟨buf0, buf1, buf2, F, hb0, hb1, hb2, ?_, ?_, hF, ?_, ?_⟩
  · rw [hkeys, failure_keys_append fuel array i ks1 (k :: ks2) buf0 buf1 hb1]
    exact failure_keys_append fuel array i [k] ks2 buf1 buf2 hb2
  · have := failure_levels_add fuel array keys i (max_length keys 0 - i) 0
      (List.replicate array.length 0) buf0 hb0
    rw [show i + (max_length keys 0 - i) = max_length keys 0 by omega, Nat.zero_add] at this
    exact this
  · rw [hFinv.2.1 _ ⟨hQ, hQne⟩]
    exact (hinv2.2.1 _ (Or.inr ⟨k, by simp, hi, rfl⟩)).symm
  · rintro ⟨k0, hk0, hi0, he⟩
    refine tableInv_unique (tableInv_congr hinv2 (fun P => ?_)) hinv1
    constructor
    · exact Or.inl
    · rintro (hP | ⟨k1, h1, _, rfl⟩)
      · exact hP
      · rw [List.mem_singleton.1 h1]
        exact Or.inr ⟨k0, hk0, hi0, he.symm⟩

theorem first_assignment_wins_witness :
    Represents find_works_fine_array find_works_fine_keys ∧
    max_length find_works_fine_keys 0 < 4 ∧
    find_works_fine_keys = [[97, 98], [98, 97, 98]] ++ [98, 97, 99] :: [[100], [100, 98],
      [100, 100]] ∧
    1 < [98, 97, 99].length ∧
    ∃ buf0 buf1 buf2 F,
      failure_levels 4 find_works_fine_array find_works_fine_keys 1 0
          (List.replicate find_works_fine_array.length 0) = some (some buf0) ∧
      failure_keys 4 find_works_fine_array 1 [[97, 98], [98, 97, 98]] buf0
        = some (some buf1) ∧
      failure_keys 4 find_works_fine_array 1 [[98, 97, 99]] buf1 = some (some buf2) ∧
      failure_keys 4 find_works_fine_array 1 find_works_fine_keys buf0
        = failure_keys 4 find_works_fine_array 1 [[100], [100, 98], [100, 100]] buf2 ∧
      failure_levels 4 find_works_fine_array find_works_fine_keys
          (max_length find_works_fine_keys 0) 0
          (List.replicate find_works_fine_array.length 0)
        = failure_levels 4 find_works_fine_array find_works_fine_keys
            (max_length find_works_fine_keys 0 - 1) 1 buf0 ∧
      failure_levels 4 find_works_fine_array find_works_fine_keys
          (max_length find_works_fine_keys 0) 0
          (List.replicate find_works_fine_array.length 0) = some (some F) ∧
      F.getD (nodeId find_works_fine_array (List.take (1 + 1) [98, 97, 99])) 0
        = buf2.getD (nodeId find_works_fine_array (List.take (1 + 1) [98, 97, 99])) 0 ∧
      ((∃ k0 ∈ [[97, 98], [98, 97, 98]], 1 < k0.length ∧
          k0.take (1 + 1) = List.take (1 + 1) [98, 97, 99]) → buf2 = buf1) :=
  ⟨find_works_fine_represents, by decide, rfl, by decide,
    first_assignment_wins find_works_fine_array find_works_fine_keys
      find_works_fine_represents 4 (by decide) 1 [[97, 98], [98, 97, 98]] [98, 97, 99]
      [[100], [100, 98], [100, 100]] rfl (by decide)⟩


/-! ## The state of the scan -/

theorem find_scan_spec {keys : List (List Nat)} {array : List DoubleArrayUnit}
    {self : DoubleArrayAhoCorasick} (hrep : Represents array keys)
    (hb : Built keys array self) {fuel : Nat} (hf : max_length keys 0 < fuel) :
    ∀ (rest pre : List Nat), (∀ c ∈ rest, c < 256) →
      find_scan fuel self rest (nodeId array (longestSuffix keys pre))
          (unitAt array (nodeId array (longestSuffix keys pre)))
        = some (nodeId array (longestSuffix keys (pre ++ rest)),
            unitAt array (nodeId array (longestSuffix keys (pre ++ rest)))) := by
  intro rest
  induction rest with
  | nil => intro pre _; simp [find_scan]
  | cons c rest ih =>
    intro pre hbytes
    have hS := longestSuffix_spec keys pre
    have hlS := length_le_max_length hS.2.1
    have hgo := find_goto_spec hrep hb (hbytes c (by simp)) pre fuel _ (by omega)
      (cand_of_longest c hS)
    have hrec := ih (pre ++ [c]) (fun d hd => hbytes d (by simp [hd]))
    simp only [find_scan, hgo]
    rw [hrec, List.append_assoc, List.singleton_append]

theorem find_loop_append (fuel : Nat) (self : DoubleArrayAhoCorasick) (max : Nat) :
    ∀ (t1 t2 : List Nat) (i n : Nat) (u : DoubleArrayUnit)
      (st : Nat × List result_pair_type) (n1 : Nat) (u1 : DoubleArrayUnit),
      find_scan fuel self t1 n u = some (n1, u1) →
      find_loop fuel self max (t1 ++ t2) i n u st
        = (find_loop fuel self max t1 i n u st).bind
            (fun st1 => find_loop fuel self max t2 (i + t1.length) n1 u1 st1) := by
  intro t1
  induction t1 with
  | nil =>
    intro t2 i n u st n1 u1 h
    simp only [find_scan, Option.some.injEq, Prod.mk.injEq] at h
    obtain ⟨rfl, rfl⟩ := h
    simp [find_loop]
  | cons c t1 ih =>
    intro t2 i n u st n1 u1 h
    rw [List.cons_append]
    simp only [find_loop]
    rw [find_scan] at h
    cases hg : find_goto self c fuel n u with
    | none => rw [hg] at h; cases h
    | some p =>
      obtain ⟨n2, u2⟩ := p
      rw [hg] at h
      simp only at h ⊢
      cases ho : find_output self max i fuel (tableAt self.failure_ n2)
          (if u2.has_leaf = true then find_emit self max i n2 u2 st else st) with
      | none => simp
      | some st1 =>
        simp only
        rw [ih t2 (i + 1) n2 u2 st1 n1 u1 h, List.length_cons,
          show i + 1 + t1.length = i + (t1.length + 1) by omega]

/-- C15. Scan-state invariant: for a trie that represents `keys` and a text of bytes,
after the goto/fallback loop has run for the bytes `text[0..i]`, the current node of
`find` is the node of `S`, the longest suffix of `text[0..i]` that is a prefix of some
key; it is the root exactly when no non-empty suffix of `text[0..i]` is a prefix of a
key; and `find` goes on from that node with the rest of the text. -/
theorem scan_state (array : List DoubleArrayUnit) (keys : List (List Nat))
    (hrep : Represents array keys) (fuel : Nat) (hfuel : max_length keys 0 < fuel)
    (self : DoubleArrayAhoCorasick) (text : List Nat) (hbytes : ∀ c ∈ text, c < 256)
    (i : Nat) (hi : i < text.length) :
    ∃ built S, buildAhoCorasick fuel (0, array) keys self = some (0, built) ∧
      find_scan fuel built (text.take (i + 1)) 0 (unitAt built.array 0)
        = some (nodeId array S, unitAt array (nodeId array S)) ∧
      S <:+ text.take (i + 1) ∧ S ∈ prefixes keys ∧
      (∀ S1, S1 <:+ text.take (i + 1) → S1 ∈ prefixes keys → S1.length ≤ S.length) ∧
      (nodeId array S = 0 ↔
        ∀ S1, S1 <:+ text.take (i + 1) → S1 ∈ prefixes keys → S1 = []) ∧
      ∀ max st, find_loop fuel built max text 0 0 (unitAt built.array 0) st
        = (find_loop fuel built max (text.take (i + 1)) 0 0 (unitAt built.array 0) st).bind
            (fun st1 => find_loop fuel built max (text.drop (i + 1)) (i + 1)
              (nodeId array S) (unitAt array (nodeId array S)) st1) := by
  obtain ⟨built, hb, hB⟩ := build_spec hrep (Nat.le_succ_of_le (Nat.le_of_lt hfuel)) self
  have hL := longestSuffix_spec keys (text.take (i + 1))
  have h0 : longestSuffix keys [] = [] := (longest_eq (longest_nil keys)).symm
  have hscan := find_scan_spec hrep hB hfuel (text.take (i + 1)) []
    (fun c hc => hbytes c (List.mem_of_mem_take hc))
  rw [h0, nodeId_nil, List.nil_append] at hscan
  have hscan1 : find_scan fuel built (text.take (i + 1)) 0 (unitAt built.array 0)
      = some (nodeId array (longestSuffix keys (text.take (i + 1))),
          unitAt array (nodeId array (longestSuffix keys (text.take (i + 1))))) := by
    rw [hB.1]; exact hscan
  refine ⟨built, longestSuffix keys (text.take (i + 1)), hb, hscan1, hL.1, hL.2.1, hL.2.2,
    ?_, ?_⟩
  · rw [rep_root_iff hrep hL.2.1]
    constructor
    · intro hnil S1 hs hp
      have := hL.2.2 S1 hs hp
      rw [hnil] at this
      exact List.length_eq_zero.1 (Nat.le_zero.1 this)
    · intro h
      exact h _ hL.1 hL.2.1
  · intro max st
    have := find_loop_append fuel built max (text.take (i + 1)) (text.drop (i + 1)) 0 0
      (unitAt built.array 0) st _ _ hscan1
    rw [List.take_append_drop, List.length_take, Nat.min_eq_left (by omega),
      Nat.zero_add] at this
    exact this

theorem scan_state_witness :
    Represents find_works_fine_array find_works_fine_keys ∧
    max_length find_works_fine_keys 0 < 4 ∧
    (∀ c ∈ [97, 98, 97, 98, 100, 100], c < 256) ∧
    3 < [97, 98, 97, 98, 100, 100].length ∧
    ∃ built S,
      buildAhoCorasick 4 (0, find_works_fine_array) find_works_fine_keys fresh
        = some (0, built) ∧
      find_scan 4 built (List.take (3 + 1) [97, 98, 97, 98, 100, 100]) 0
          (unitAt built.array 0)
        = some (nodeId find_works_fine_array S,
            unitAt find_works_fine_array (nodeId find_works_fine_array S)) ∧
      S <:+ List.take (3 + 1) [97, 98, 97, 98, 100, 100] ∧
      S ∈ prefixes find_works_fine_keys ∧
      (∀ S1, S1 <:+ List.take (3 + 1) [97, 98, 97, 98, 100, 100] →
        S1 ∈ prefixes find_works_fine_keys → S1.length ≤ S.length) ∧
      (nodeId find_works_fine_array S = 0 ↔
        ∀ S1, S1 <:+ List.take (3 + 1) [97, 98, 97, 98, 100, 100] →
          S1 ∈ prefixes find_works_fine_keys → S1 = []) ∧
      ∀ max st,
        find_loop 4 built max [97, 98, 97, 98, 100, 100] 0 0 (unitAt built.array 0) st
          = (find_loop 4 built max (List.take (3 + 1) [97, 98, 97, 98, 100, 100]) 0 0
              (unitAt built.array 0) st).bind
              (fun st1 => find_loop 4 built max
                (List.drop (3 + 1) [97, 98, 97, 98, 100, 100]) (3 + 1)
                (nodeId find_works_fine_array S)
                (unitAt find_works_fine_array (nodeId find_works_fine_array S)) st1) :=
  ⟨find_works_fine_represents, by decide, by decide, by decide,
    scan_state find_works_fine_array find_works_fine_keys find_works_fine_represents 4
      (by decide) fresh [97, 98, 97, 98, 100, 100] (by decide) 3 (by decide)⟩


/-! ## Termination of the loops -/

theorem failure_iterate {keys : List (List Nat)} {array : List DoubleArrayUnit}
    {self : DoubleArrayAhoCorasick} (hrep : Represents array keys)
    (hb : Built keys array self) :
    ∀ (n : Nat) (P : List Nat), P ∈ prefixes keys → P.length ≤ n →
      Nat.iterate (fun id => tableAt self.failure_ id) n (nodeId array P) = 0 := by
  intro n
  induction n with
  | zero =>
    intro P hP hl
    have : P = [] := List.length_eq_zero.1 (Nat.le_zero.1 hl)
    subst this
    simp [nodeId_nil]
  | succ n ih =>
    intro P hP hl
    rw [Function.iterate_succ_apply, built_failure hrep hb hP]
    have hL := longestSuffix_spec keys P.tail
    apply ih _ hL.2.1
    by_cases hne : P = []
    · subst hne
      have h0 : longestSuffix keys ([] : List Nat).tail = [] :=
        (longest_eq (longest_nil keys)).symm
      rw [h0]
      exact Nat.zero_le _
    · have := longest_tail_length_lt hL hne
      omega

theorem find_output_some {keys : List (List Nat)} {array : List DoubleArrayUnit}
    {self : DoubleArrayAhoCorasick} (hrep : Represents array keys)
    (hb : Built keys array self) (max i : Nat) :
    ∀ (fuel : Nat) (S : List Nat) (st : Nat × List result_pair_type),
      S ∈ prefixes keys → S.length < fuel →
      ∃ r, find_output self max i fuel (nodeId array S) st = some r := by
  intro fuel
  induction fuel with
  | zero => intro S _ _ h; omega
  | succ fuel ih =>
    intro S st hS hf
    by_cases h0 : nodeId array S = 0
    · exact ⟨st, by simp [find_output, h0]⟩
    · have hnn : S ≠ [] := fun e => h0 ((rep_root_iff hrep hS).2 e)
      have hL := longestSuffix_spec keys S.tail
      have hlt := longest_tail_length_lt hL hnn
      simp only [find_output, h0, if_false, built_failure hrep hb hS]
      exact ih _ _ hL.2.1 (by omega)

theorem find_loop_some {keys : List (List Nat)} {array : List DoubleArrayUnit}
    {self : DoubleArrayAhoCorasick} (hrep : Represents array keys)
    (hb : Built keys array self) (max : Nat) {fuel : Nat}
    (hf : max_length keys 0 < fuel) :
    ∀ (rest pre : List Nat) (i : Nat) (st : Nat × List result_pair_type),
      (∀ c ∈ rest, c < 256) →
      ∃ r, find_loop fuel self max rest i (nodeId array (longestSuffix keys pre))
          (unitAt array (nodeId array (longestSuffix keys pre))) st = some r := by
  intro rest
  induction rest with
  | nil => intro pre i st _; exact ⟨st, rfl⟩
  | cons c rest ih =>
    intro pre i st hbytes
    have hS := longestSuffix_spec keys pre
    have hT := longestSuffix_spec keys (pre ++ [c])
    have hT1 := longestSuffix_spec keys (longestSuffix keys (pre ++ [c])).tail
    have hlS := length_le_max_length hS.2.1
    have hlT1 := length_le_max_length hT1.2.1
    have hgo := find_goto_spec hrep hb (hbytes c (by simp)) pre fuel _ (by omega)
      (cand_of_longest c hS)
    simp only [find_loop, hgo, built_failure hrep hb hT.2.1]
    obtain ⟨st1, hst1⟩ := find_output_some hrep hb max i fuel _
      (if (unitAt array (nodeId array (longestSuffix keys (pre ++ [c])))).has_leaf = true then
        find_emit self max i (nodeId array (longestSuffix keys (pre ++ [c])))
          (unitAt array (nodeId array (longestSuffix keys (pre ++ [c])))) st
      else st) hT1.2.1 (by omega)
    rw [hst1]
    exact ih (pre ++ [c]) (i + 1) st1 (fun d hd => hbytes d (by simp [hd]))

/-- C16. Failure chains are finite: for a trie that represents `keys`, after the
successful `buildAhoCorasick`, following the failure links from the node of any key
prefix reaches the root within `depth[node]` steps; hence, with fuel beyond the longest
key, the fallback loop and the output loop of `find` return from every such node for
every byte, `find` returns for every text of bytes, every buffer and every capacity, and
the retry loop of `findFailureLink` returns for every key and level. -/
theorem failure_chain_finite (array : List DoubleArrayUnit) (keys : List (List Nat))
    (hrep : Represents array keys) (fuel : Nat) (hfuel : max_length keys 0 < fuel)
    (self : DoubleArrayAhoCorasick) :
    ∃ built F D, buildAhoCorasick fuel (0, array) keys self = some (0, built) ∧
      built.failure_ = some F ∧ built.depth_ = some D ∧
      (∀ P ∈ prefixes keys, ∃ j, j ≤ D.getD (nodeId array P) 0 ∧
        Nat.iterate (fun id => F.getD id 0) j (nodeId array P) = 0) ∧
      (∀ P ∈ prefixes keys, ∀ c, c < 256 →
        ∃ r, find_goto built c fuel (nodeId array P) (unitAt array (nodeId array P))
          = some r) ∧
      (∀ P ∈ prefixes keys, ∀ max i st,
        ∃ r, find_output built max i fuel (nodeId array P) st = some r) ∧
      (∀ text, (∀ c ∈ text, c < 256) → ∀ results max,
        ∃ r, find fuel built text results max = some r) ∧
      (∀ k ∈ keys, ∀ i, i < k.length →
        ∃ r, findFailureLink fuel array F (nodeId array (k.take i)) k i = some r) := by
  obtain ⟨built, hb, hB⟩ := build_spec hrep (Nat.le_succ_of_le (Nat.le_of_lt hfuel)) self
  obtain ⟨_, ⟨F, hF, hFinv⟩, ⟨D, hD, _⟩⟩ := id hB
  have hdepth := fun P hP => built_depth hrep hB (P := P) hP
  have hiter := failure_iterate hrep hB
  simp only [tableAt, hF, hD, Option.getD_some] at hdepth hiter
  refine ⟨built, F, D, hb, hF, hD, ?_, ?_, ?_, ?_, ?_⟩
  · intro P hP
    exact ⟨P.length, by rw [hdepth P hP], hiter P.length P hP (le_refl _)⟩
  · intro P hP c hc
    have hl := length_le_max_length hP
    exact ⟨_, find_goto_spec hrep hB hc P fuel P (by omega) (cand_of_longest c (longest_self hP))⟩
  · intro P hP max i st
    have hl := length_le_max_length hP
    exact find_output_some hrep hB max i fuel P st hP (by omega)
  · intro text hbytes results max
    have h0 : longestSuffix keys [] = [] := (longest_eq (longest_nil keys)).symm
    have := find_loop_some hrep hB max hfuel text [] 0 (0, results) hbytes
    rw [h0, nodeId_nil, ← hB.1] at this
    exact this
  · intro k hk i hi
    have hkp := key_mem_prefixes keys k hk
    have hl := length_le_max_length hkp
    exact ⟨_, findFailureLink_spec hrep
      (fun P hP hne _ => hFinv.2.1 P ⟨hP, hne⟩) hkp hi (show i ≤ fuel by omega)⟩

theorem failure_chain_finite_witness :
    Represents build_without_failure_array build_without_failure_keys ∧
    max_length build_without_failure_keys 0 < 6 ∧
    ∃ built F D,
      buildAhoCorasick 6 (0, build_without_failure_array) build_without_failure_keys fresh
        = some (0, built) ∧
      built.failure_ = some F ∧ built.depth_ = some D ∧
      (∀ P ∈ prefixes build_without_failure_keys,
        ∃ j, j ≤ D.getD (nodeId build_without_failure_array P) 0 ∧
          Nat.iterate (fun id => F.getD id 0) j (nodeId build_without_failure_array P) = 0) ∧
      (∀ P ∈ prefixes build_without_failure_keys, ∀ c, c < 256 →
        ∃ r, find_goto built c 6 (nodeId build_without_failure_array P)
          (unitAt build_without_failure_array (nodeId build_without_failure_array P))
            = some r) ∧
      (∀ P ∈ prefixes build_without_failure_keys, ∀ max i st,
        ∃ r, find_output built max i 6 (nodeId build_without_failure_array P) st = some r) ∧
      (∀ text, (∀ c ∈ text, c < 256) → ∀ results max,
        ∃ r, find 6 built text results max = some r) ∧
      (∀ k ∈ build_without_failure_keys, ∀ i, i < k.length →
        ∃ r, findFailureLink 6 build_without_failure_array F
          (nodeId build_without_failure_array (k.take i)) k i = some r) :=
  ⟨build_without_failure_represents, by decide,
    failure_chain_finite build_without_failure_array build_without_failure_keys
      build_without_failure_represents 6 (by decide) fresh⟩

/-- C17. Match records stay inside the text: for a trie that represents the non-empty
keys `keys` and a text of `n` bytes, every record of the result sequence of `find` was
emitted at some index `i < n` with `position + length = i + 1` and
`1 ≤ length ≤ i + 1`, so that `position + length ≤ n`; and at every index `i` the depth
of every node on the failure chain is at most `i + 1`, so that the `size_t` difference
`i + 1 - depth[node]` is computed without wrapping. -/
theorem records_inside_text (array : List DoubleArrayUnit) (keys : List (List Nat))
    (hrep : Represents array keys) (hne : [] ∉ keys) (fuel : Nat)
    (hfuel : max_length keys 0 < fuel) (self : DoubleArrayAhoCorasick) (text : List Nat)
    (hbytes : ∀ c ∈ text, c < 256) (hlen : text.length < 2 ^ 64) :
    ∃ built results, buildAhoCorasick fuel (0, array) keys self = some (0, built) ∧
      find_results fuel built text = some results ∧
      (∀ r ∈ results, ∃ i, i < text.length ∧ r.position + r.length = i + 1 ∧
        1 ≤ r.length ∧ r.length ≤ i + 1 ∧ r.position + r.length ≤ text.length) ∧
      (∀ i, i < text.length → ∀ S ∈ prefixes keys, S <:+ text.take (i + 1) →
        tableAt built.depth_ (nodeId array S) ≤ i + 1 ∧
        (i + 1 + 2 ^ 64 - tableAt built.depth_ (nodeId array S)) % 2 ^ 64
          = i + 1 - tableAt built.depth_ (nodeId array S)) := by
  obtain ⟨built, hb, hB⟩ := build_spec hrep (Nat.le_succ_of_le (Nat.le_of_lt hfuel)) self
  refine ⟨built, allMatches keys text, hb,
    find_results_spec hrep hB hne hfuel text hbytes hlen, ?_, ?_⟩
  · intro r hr
    obtain ⟨i, hi, k, hk, hs, rfl⟩ := (mem_allMatches keys text r).1 hr
    have hkn : k ≠ [] := fun e => hne (e ▸ hk)
    have hpos : 0 < k.length := List.length_pos.2 hkn
    have hle := hs.length_le
    rw [List.length_take, Nat.min_eq_left (by omega)] at hle
    refine ⟨i, hi, ?_, ?_, ?_, ?_⟩ <;> simp only [matchRecord] <;> omega
  · intro i hi S hS hs
    have hle := hs.length_le
    rw [List.length_take, Nat.min_eq_left (by omega)] at hle
    rw [built_depth hrep hB hS]
    refine ⟨hle, ?_⟩
    have : i + 1 + 2 ^ 64 - S.length = (i + 1 - S.length) + 2 ^ 64 := by omega
    rw [this, Nat.add_mod_right]
    exact Nat.mod_eq_of_lt (by omega)

theorem records_inside_text_witness :
    Represents find_test_k_array find_test_k_keys ∧ [] ∉ find_test_k_keys ∧
    max_length find_test_k_keys 0 < 10 ∧
    ∃ built results,
      buildAhoCorasick 10 (0, find_test_k_array) find_test_k_keys fresh = some (0, built) ∧
      find_results 10 built
          [236, 149, 136, 235, 133, 149, 237, 149, 152, 236, 132, 184, 236, 154, 148]
        = some results ∧
      (∀ r ∈ results, ∃ i,
        i < [236, 149, 136, 235, 133, 149, 237, 149, 152, 236, 132, 184, 236, 154,
          148].length ∧
        r.position + r.length = i + 1 ∧ 1 ≤ r.length ∧ r.length ≤ i + 1 ∧
        r.position + r.length
          ≤ [236, 149, 136, 235, 133, 149, 237, 149, 152, 236, 132, 184, 236, 154,
            148].length) ∧
      (∀ i,
        i < [236, 149, 136, 235, 133, 149, 237, 149, 152, 236, 132, 184, 236, 154,
          148].length →
        ∀ S ∈ prefixes find_test_k_keys,
          S <:+ List.take (i + 1)
            [236, 149, 136, 235, 133, 149, 237, 149, 152, 236, 132, 184, 236, 154, 148] →
          tableAt built.depth_ (nodeId find_test_k_array S) ≤ i + 1 ∧
          (i + 1 + 2 ^ 64 - tableAt built.depth_ (nodeId find_test_k_array S)) % 2 ^ 64
            = i + 1 - tableAt built.depth_ (nodeId find_test_k_array S)) :=
  ⟨find_test_k_represents, by decide, by decide,
    records_inside_text find_test_k_array find_test_k_keys find_test_k_represents
      (by decide) 10 (by decide) fresh
      [236, 149, 136, 235, 133, 149, 237, 149, 152, 236, 132, 184, 236, 154, 148]
      (by decide) (by decide)⟩

/-! ## Extending the text -/

theorem matchesFrom_append (keys : List (List Nat)) :
    ∀ (t1 t2 pre : List Nat), matchesFrom keys pre (t1 ++ t2)
      = matchesFrom keys pre t1 ++ matchesFrom keys (pre ++ t1) t2 := by
  intro t1
  induction t1 with
  | nil => intro t2 pre; simp [matchesFrom]
  | cons c t1 ih =>
    intro t2 pre
    rw [List.cons_append, matchesFrom, matchesFrom, ih, List.append_assoc,
      List.append_assoc, List.singleton_append]

/-- C18. Prefix stability of the scan: for a trie that represents the non-empty keys
`keys` and texts `text1`, `text2` of bytes, the result sequence of `find` on `text1` is a
prefix of the result sequence on `text1 ++ text2`, and for every buffer and capacity the
count returned on `text1` is at most the count returned on `text1 ++ text2`. -/
theorem find_stable_under_extension (array : List DoubleArrayUnit)
    (keys : List (List Nat)) (hrep : Represents array keys) (hne : [] ∉ keys) (fuel : Nat)
    (hfuel : max_length keys 0 < fuel) (self : DoubleArrayAhoCorasick)
    (text1 text2 : List Nat) (hbytes : ∀ c ∈ text1 ++ text2, c < 256)
    (hlen : (text1 ++ text2).length < 2 ^ 64) :
    ∃ built results1 results2,
      buildAhoCorasick fuel (0, array) keys self = some (0, built) ∧
      find_results fuel built text1 = some results1 ∧
      find_results fuel built (text1 ++ text2) = some results2 ∧
      results1 <+: results2 ∧
      ∀ buffer max, ∃ n1 n2 written1 written2,
        find fuel built text1 buffer max = some (n1, written1) ∧
        find fuel built (text1 ++ text2) buffer max = some (n2, written2) ∧ n1 ≤ n2 := by
  obtain ⟨built, hb, hB⟩ := build_spec hrep (Nat.le_succ_of_le (Nat.le_of_lt hfuel)) self
  have hbytes1 : ∀ c ∈ text1, c < 256 := fun c hc => hbytes c (by simp [hc])
  have hlen1 : text1.length < 2 ^ 64 := by
    simp only [List.length_append] at hlen; omega
  have happ : allMatches keys (text1 ++ text2)
      = allMatches keys text1 ++ matchesFrom keys text1 text2 := by
    unfold allMatches
    rw [matchesFrom_append, List.nil_append]
  refine ⟨built, allMatches keys text1, allMatches keys (text1 ++ text2), hb,
    find_results_spec hrep hB hne hfuel text1 hbytes1 hlen1,
    find_results_spec hrep hB hne hfuel (text1 ++ text2) hbytes hlen, ?_, ?_⟩
  · rw [happ]; exact List.prefix_append _ _
  · intro buffer max
    refine ⟨(emitAll max (0, buffer) (allMatches keys text1)).1,
      (emitAll max (0, buffer) (allMatches keys (text1 ++ text2))).1,
      (emitAll max (0, buffer) (allMatches keys text1)).2,
      (emitAll max (0, buffer) (allMatches keys (text1 ++ text2))).2,
      find_spec hrep hB hne hfuel text1 hbytes1 hlen1 buffer max,
      find_spec hrep hB hne hfuel (text1 ++ text2) hbytes hlen buffer max, ?_⟩
    rw [emitAll_count, emitAll_count, happ, List.length_append]
    omega

theorem find_stable_under_extension_witness :
    Represents find_works_fine_array find_works_fine_keys ∧ [] ∉ find_works_fine_keys ∧
    max_length find_works_fine_keys 0 < 4 ∧
    ∃ built results1 results2,
      buildAhoCorasick 4 (0, find_works_fine_array) find_works_fine_keys fresh
        = some (0, built) ∧
      find_results 4 built [97, 98, 97] = some results1 ∧
      find_results 4 built ([97, 98, 97] ++ [98, 100, 100]) = some results2 ∧
      results1 <+: results2 ∧
      ∀ buffer max, ∃ n1 n2 written1 written2,
        find 4 built [97, 98, 97] buffer max = some (n1, written1) ∧
        find 4 built ([97, 98, 97] ++ [98, 100, 100]) buffer max = some (n2, written2) ∧
        n1 ≤ n2 :=
  ⟨find_works_fine_represents, by decide, by decide,
    find_stable_under_extension find_works_fine_array find_works_fine_keys
      find_works_fine_represents (by decide) 4 (by decide) fresh [97, 98, 97]
      [98, 100, 100] (by decide) (by decide)⟩


end DartsAC
